import Mathlib

/-!
# Elemental: pivoted Cholesky (LVar3), distribution descriptors, remote updates, Grcar

A shallow embedding of

* `src/lapack-like/factor/Cholesky/LVar3Pivoted.hpp` (sequential routines
  `pivot::Full`, `pivot::PanelFull`, `LUnblockedPivoted`, `LPanelPivoted`, `LVar3`),
* `include/El/core/DistMatrix/Abstract.hpp` (`DistData`, `operator==`, the
  declarations of the index maps and of the remote-update queue),
* `include/elemental/matrices/Grcar.hpp` (`Grcar`),

together with theorems about them.

Conventions of the embedding.

* A `Matrix` is a height, a width and a total entry function on `Nat × Nat`;
  only the entries inside the height and width are meaningful.
* A view aliases a window of its parent.  `View` reads the window, `Matrix.Store`
  writes a window back, so `Op(View(A,I,J))` of the source becomes
  `A.Store I J (Op (View A I J))`.
* The entry type `F` is a field, its base type `Base<F>` is a linearly ordered
  field `R`; conjugation, real part, the conversion `Base<F> → F`, `Abs` and `Sqrt`
  are the fields of `Scalars`.  Exact arithmetic is the structure `Scalars.Lawful`.
* `DEBUG_ONLY(...)` blocks are guarded by the parameter `debug`, `Blocksize()` is
  the parameter `bsize`.
-/

namespace El

/-! ## Scalars -/

/-- The scalar operations used by the factorisation: `Conj`, `RealPart`, the
implicit conversion of a `Base<F>` value to `F`, `Abs` and `Sqrt`. -/
structure Scalars (F R : Type) where
  /-- complex conjugation of an entry -/
  Conj : F → F
  /-- real part of an entry, a value of `Base<F>` -/
  RealPart : F → R
  /-- conversion of a `Base<F>` value to an entry -/
  ofBase : R → F
  /-- absolute value of an entry -/
  Abs : F → R
  /-- square root on `Base<F>` -/
  Sqrt : R → R

/-- Exact real or complex arithmetic: the laws of conjugation, real part,
absolute value and square root that the correctness proofs use. -/
structure Scalars.Lawful {F R : Type} [Field F] [LinearOrderedField R]
    (S : Scalars F R) : Prop where
  conj_add : ∀ x y, S.Conj (x + y) = S.Conj x + S.Conj y
  conj_mul : ∀ x y, S.Conj (x * y) = S.Conj x * S.Conj y
  conj_conj : ∀ x, S.Conj (S.Conj x) = x
  ofBase_add : ∀ r s, S.ofBase (r + s) = S.ofBase r + S.ofBase s
  ofBase_mul : ∀ r s, S.ofBase (r * s) = S.ofBase r * S.ofBase s
  ofBase_one : S.ofBase 1 = 1
  conj_ofBase : ∀ r, S.Conj (S.ofBase r) = S.ofBase r
  re_ofBase : ∀ r, S.RealPart (S.ofBase r) = r
  re_add : ∀ x y, S.RealPart (x + y) = S.RealPart x + S.RealPart y
  ofBase_re : ∀ x, S.Conj x = x → S.ofBase (S.RealPart x) = x
  abs_ofBase : ∀ r, S.Abs (S.ofBase r) = |r|
  abs_nonneg : ∀ x, 0 ≤ S.Abs x
  sqrt_mul_self : ∀ r, 0 < r → S.Sqrt r * S.Sqrt r = r
  sqrt_pos : ∀ r, 0 < r → 0 < S.Sqrt r

/-- Scalars of a real entry type `F = Base<F> = R` with a given square root:
conjugation, real part and the conversion are the identity. -/
def realScalars (R : Type) [LinearOrderedField R] (sqrt : R → R) : Scalars R R where
  Conj := fun x => x
  RealPart := fun x => x
  ofBase := fun r => r
  Abs := fun x => |x|
  Sqrt := sqrt

/-- Executable scalars over the rationals: real entries, with the rational
square root (exact on squares of rationals). -/
def ratScalars : Scalars ℚ ℚ := realScalars ℚ Rat.sqrt

/-! ## Sequential matrices and views -/

/-- A sequential matrix `Matrix<T>`: height, width and entries. -/
structure Matrix (α : Type) where
  height : Nat
  width : Nat
  entry : Nat → Nat → α

/-- The half-open index range `IndexRange(beg,end)`. -/
structure IndexRange where
  beg : Nat
  end_ : Nat

/-- Outcome of a routine: it returns with the final state, it raises a logic
error (with the state at the throw), or its loop never ends. -/
inductive Outcome (σ : Type) where
  | returned (s : σ) : Outcome σ
  | logicError (msg : String) (s : σ) : Outcome σ
  | diverged : Outcome σ

/-- The routine returned normally. -/
def Outcome.isReturned {σ : Type} : Outcome σ → Bool
  | .returned _ => true
  | _ => false

section Primitives

variable {α : Type} {F R : Type} [Field F] [LinearOrderedField R]

/-- Modelled from the spec: `View(A, I, J)`, the window of `A` with rows `I` and
columns `J` (the source of `View` is not part of the extract). -/
def View (A : Matrix α) (I J : IndexRange) : Matrix α where
  height := I.end_ - I.beg
  width := J.end_ - J.beg
  entry := fun i j => A.entry (I.beg + i) (J.beg + j)

/-- Modelled from the spec: `LockedView(A, I, J)`, a read-only `View`. -/
def LockedView (A : Matrix α) (I J : IndexRange) : Matrix α := View A I J

/-- Writing a view back: the window with rows `I` and columns `J` of `A` takes
the entries of `V`; this is the aliasing of a view with its parent. -/
def Matrix.Store (A : Matrix α) (I J : IndexRange) (V : Matrix α) : Matrix α where
  height := A.height
  width := A.width
  entry := fun i j =>
    if I.beg ≤ i ∧ i < I.end_ ∧ J.beg ≤ j ∧ j < J.end_ then V.entry (i - I.beg) (j - J.beg)
    else A.entry i j

/-- Modelled from the spec: `A.Get(i,j)`. -/
def Matrix.Get (A : Matrix α) (i j : Nat) : α := A.entry i j

/-- Modelled from the spec: `A.Set(i,j,x)`. -/
def Matrix.Set (A : Matrix α) (i j : Nat) (x : α) : Matrix α where
  height := A.height
  width := A.width
  entry := fun i' j' => if i' = i ∧ j' = j then x else A.entry i' j'

/-- Modelled from the spec: `A.Update(i,j,x)`, which adds `x` to entry `(i,j)`. -/
def Matrix.Update (A : Matrix F) (i j : Nat) (x : F) : Matrix F :=
  A.Set i j (A.entry i j + x)

/-- Modelled from the spec: `A.Resize(m,n)`; the entries inside the old and the
new size are kept. -/
def Matrix.Resize (A : Matrix α) (m n : Nat) : Matrix α where
  height := m
  width := n
  entry := A.entry

/-- Modelled from the spec: `Zeros(A, m, n)`, the `m × n` zero matrix. -/
def Zeros (m n : Nat) : Matrix F where
  height := m
  width := n
  entry := fun _ _ => 0

/-- Modelled from the spec: `A.GetRealPart(i,j)`. -/
def Matrix.GetRealPart (S : Scalars F R) (A : Matrix F) (i j : Nat) : R :=
  S.RealPart (A.entry i j)

/-- Modelled from the spec: `A.MakeReal(i,j)` drops the imaginary part of an entry. -/
def Matrix.MakeReal (S : Scalars F R) (A : Matrix F) (i j : Nat) : Matrix F :=
  A.Set i j (S.ofBase (S.RealPart (A.entry i j)))

/-- Modelled from the spec: `A.SetRealPart(i,j,r)` replaces the real part of an
entry by `r` and keeps its imaginary part. -/
def Matrix.SetRealPart (S : Scalars F R) (A : Matrix F) (i j : Nat) (r : R) : Matrix F :=
  A.Set i j (A.entry i j - S.ofBase (S.RealPart (A.entry i j)) + S.ofBase r)

/-- Modelled from the spec: `A.GetDiagonal()`, the main diagonal as a column vector. -/
def Matrix.GetDiagonal (A : Matrix α) : Matrix α where
  height := min A.height A.width
  width := 1
  entry := fun i _ => A.entry i i

/-- Modelled from the spec: `RowSwap(A, to, from)` exchanges two rows. -/
def RowSwap (A : Matrix α) (to_ from_ : Nat) : Matrix α where
  height := A.height
  width := A.width
  entry := fun i j => A.entry (Equiv.swap to_ from_ i) j

/-- The Hermitian matrix stored in the lower triangle of `A`. -/
def Matrix.hermEntry (S : Scalars F R) (A : Matrix F) (i j : Nat) : F :=
  if j ≤ i then A.entry i j else S.Conj (A.entry j i)

/-- Modelled from the spec: `HermitianSwap(LOWER, A, to, from)` swaps rows and
columns `to` and `from` of the Hermitian matrix stored in the lower triangle
of `A`; the strict upper triangle is not touched and the two diagonal entries
involved are made real. -/
def HermitianSwap (S : Scalars F R) (A : Matrix F) (to_ from_ : Nat) : Matrix F where
  height := A.height
  width := A.width
  entry := fun i j =>
    if j ≤ i ∧ i < A.height then
      if i = j then
        if i = to_ ∨ i = from_ then
          S.ofBase (S.RealPart (A.entry (Equiv.swap to_ from_ i) (Equiv.swap to_ from_ i)))
        else A.entry i i
      else A.hermEntry S (Equiv.swap to_ from_ i) (Equiv.swap to_ from_ j)
    else A.entry i j

/-- Modelled from the spec: `Scale(alpha, A)` with a `Base<F>` factor. -/
def Scale (S : Scalars F R) (alpha : R) (A : Matrix F) : Matrix F where
  height := A.height
  width := A.width
  entry := fun i j => S.ofBase alpha * A.entry i j

/-- Modelled from the spec: `Conjugate(A, B)` makes `B` the entrywise conjugate of `A`. -/
def Conjugate (S : Scalars F R) (A : Matrix F) : Matrix F where
  height := A.height
  width := A.width
  entry := fun i j => S.Conj (A.entry i j)

/-- Entry `c` of a vector stored as a column (width one) or as a row. -/
def Matrix.vecEntry (x : Matrix α) (c : Nat) : α :=
  if x.width = 1 then x.entry c 0 else x.entry 0 c

/-- Modelled from the spec: `Gemv(NORMAL, alpha, A, x, beta, y)` for a column
vector `y`: `y := alpha A x + beta y`. -/
def Gemv (alpha : F) (A x : Matrix F) (beta : F) (y : Matrix F) : Matrix F where
  height := y.height
  width := y.width
  entry := fun i j =>
    if j = 0 ∧ i < A.height then
      alpha * (∑ c in Finset.range A.width, A.entry i c * x.vecEntry c) + beta * y.entry i 0
    else y.entry i j

/-- Modelled from the spec: `Her(LOWER, alpha, x, A)`, the rank-one update
`A := A + alpha x x^H` of the lower triangle. -/
def Her (S : Scalars F R) (alpha : F) (x A : Matrix F) : Matrix F where
  height := A.height
  width := A.width
  entry := fun i j =>
    if j ≤ i ∧ i < A.height then A.entry i j + alpha * (x.vecEntry i * S.Conj (x.vecEntry j))
    else A.entry i j

/-- Modelled from the spec: `Trrk(LOWER, NORMAL, TRANSPOSE, alpha, A, B, beta, C)`,
the update `C := alpha A B^T + beta C` of the lower triangle of `C`. -/
def Trrk (alpha : F) (A B : Matrix F) (beta : F) (C : Matrix F) : Matrix F where
  height := C.height
  width := C.width
  entry := fun i j =>
    if j ≤ i ∧ i < C.height then
      alpha * (∑ c in Finset.range A.width, A.entry i c * B.entry j c) + beta * C.entry i j
    else C.entry i j

/-- The pair `ValueInt<Real>` of a value and its index. -/
structure ValueInt (R : Type) where
  value : R
  index : Nat

/-- Modelled from the spec: `VectorMaxAbs(x)`, the entry of largest absolute
value of a column vector and its index (the first one when there are ties). -/
def VectorMaxAbs (S : Scalars F R) (x : Matrix F) : ValueInt R :=
  (List.range x.height).foldl
    (fun pivot i =>
      let abs := S.Abs (x.Get i 0)
      if pivot.value < abs then { value := abs, index := i } else pivot)
    { value := 0, index := 0 }

end Primitives

/-! ## Pivoted Cholesky: `LVar3Pivoted.hpp` -/

section Cholesky

variable {F R : Type} [Field F] [LinearOrderedField R]

/-- The record `LDLPivot`: the number `nb` of pivots and the first source index
`from[0]` (the second slot `from[1]` is never written or read by these routines). -/
structure LDLPivot where
  nb : Nat
  from0 : Nat
deriving DecidableEq, Repr

/-- The function `cholesky::pivot::Full(const Matrix<F>& A)`. -/
def pivot.Full (S : Scalars F R) (A : Matrix F) : LDLPivot :=
  let diagMax := VectorMaxAbs S A.GetDiagonal
  { nb := 1, from0 := diagMax.index }

/-- The updated diagonal formed by the two loops of `pivot::PanelFull`:
`d.Update( i, 0, -X.Get(i,j)*Y.Get(i,j) )` for `i < height`, `j < k`. -/
def pivot.PanelFull.diag (A X Y : Matrix F) : Matrix F :=
  let d := A.GetDiagonal
  let height := d.height
  let k := X.width
  (List.range height).foldl
    (fun d i => (List.range k).foldl (fun d j => d.Update i 0 (-X.Get i j * Y.Get i j)) d) d

/-- The function `cholesky::pivot::PanelFull(const Matrix<F>& A, X, Y)`. -/
def pivot.PanelFull (S : Scalars F R) (A X Y : Matrix F) : LDLPivot :=
  let d := pivot.PanelFull.diag A X Y
  let diagMax := VectorMaxAbs S d
  { nb := 1, from0 := diagMax.index }

/-- The matrix being factored and the permutation vector. -/
structure FactorState (F : Type) where
  A : Matrix F
  p : Matrix Nat

/-- The loop `for( Int i=0; i<n; ++i ) p.Set( i, 0, i );` after `p.Resize( n, 1 )`. -/
def initPerm (p : Matrix Nat) (n : Nat) : Matrix Nat :=
  (List.range n).foldl (fun p i => p.Set i 0 i) (p.Resize n 1)

/-- One iteration `k` of the loop of `LUnblockedPivoted`. -/
def LUnblockedPivoted.step (S : Scalars F R) (n : Nat) (st : FactorState F) (k : Nat) :
    FactorState F :=
  let ind1 : IndexRange := ⟨k, k + 1⟩
  let ind2 : IndexRange := ⟨k + 1, n⟩
  let indB : IndexRange := ⟨k, n⟩
  let indR : IndexRange := ⟨k, n⟩
  let A := st.A
  let p := st.p
  -- Determine the pivot
  let pivot := pivot.Full S (View A indB indR)
  -- Apply the pivot
  let from_ := k + pivot.from0
  let A := HermitianSwap S A k from_
  let p := RowSwap p k from_
  -- a21 := a21 / sqrt(alpha11)
  let delta11 := S.Sqrt ((View A indB indR).GetRealPart S 0 0)
  let delta11Inv := 1 / delta11
  let A := A.Store indB indR ((View A indB indR).Set 0 0 (S.ofBase delta11))
  let A := A.Store ind2 ind1 (Scale S delta11Inv (View A ind2 ind1))
  -- A22 -= a21 a21'
  let A := A.Store ind2 ind2 (Her S (-1) (View A ind2 ind1) (View A ind2 ind2))
  { A := A, p := p }

/-- The sequential `cholesky::LUnblockedPivoted( Matrix<F>& A, Matrix<Int>& p )`. -/
def LUnblockedPivoted (S : Scalars F R) (debug : Bool) (A : Matrix F) (p : Matrix Nat) :
    Outcome (FactorState F) :=
  if debug = true ∧ A.height ≠ A.width then
    .logicError "A must be square" { A := A, p := p }
  else
    let n := A.height
    -- Initialize the permutation to the identity
    let p := initPerm p n
    .returned ((List.range n).foldl (LUnblockedPivoted.step S n) { A := A, p := p })

/-- The arguments `AFull`, `p`, `X`, `Y` of `LPanelPivoted`, all passed by reference. -/
structure PanelState (F : Type) where
  AFull : Matrix F
  p : Matrix Nat
  X : Matrix F
  Y : Matrix F

/-- The index `pivot.from[0]` found in iteration `k` of the loop of `LPanelPivoted`. -/
def LPanelPivoted.pivotOf (S : Scalars F R) (off n : Nat) (st : PanelState F) (k : Nat) : Nat :=
  let nFull := st.AFull.height
  let indA : IndexRange := ⟨off, nFull⟩
  let ind0 : IndexRange := ⟨0, k⟩
  let indB : IndexRange := ⟨k, n⟩
  let indR : IndexRange := ⟨k, n⟩
  let A := View st.AFull indA indA
  (pivot.PanelFull S (View A indB indR) (View st.X indB ind0) (View st.Y indB ind0)).from0

/-- Column `k` of the view `A` after the pivot of iteration `k` is applied and
`Gemv` has updated it: entry `i` of `aB1` before `MakeReal`, for `k ≤ i < n`. -/
def LPanelPivoted.column (S : Scalars F R) (off n : Nat) (st : PanelState F) (k i : Nat) : F :=
  let from_ := k + LPanelPivoted.pivotOf S off n st k
  (-1) * (∑ c in Finset.range k, st.X.entry (Equiv.swap k from_ i) c * st.Y.entry from_ c)
    + 1 * (HermitianSwap S st.AFull (k + off) (from_ + off)).entry (off + i) (off + k)

/-- The value `delta11` of iteration `k` of the loop of `LPanelPivoted`. -/
def LPanelPivoted.delta (S : Scalars F R) (off n : Nat) (st : PanelState F) (k : Nat) : R :=
  S.Sqrt (S.RealPart (S.ofBase (S.RealPart (LPanelPivoted.column S off n st k k))))

/-- One iteration `k` of the loop of `LPanelPivoted`; `A` is the view
`View( AFull, IndexRange(off,nFull), IndexRange(off,nFull) )` of height `n`. -/
def LPanelPivoted.step (S : Scalars F R) (off n : Nat) (st : PanelState F) (k : Nat) :
    PanelState F :=
  let nFull := st.AFull.height
  let indA : IndexRange := ⟨off, nFull⟩
  let ind0 : IndexRange := ⟨0, k⟩
  let ind1 : IndexRange := ⟨k, k + 1⟩
  let ind2 : IndexRange := ⟨k + 1, n⟩
  let indB : IndexRange := ⟨k, n⟩
  let indR : IndexRange := ⟨k, n⟩
  let AFull := st.AFull
  let p := st.p
  let X := st.X
  let Y := st.Y
  let A := View AFull indA indA
  -- Determine the pivot
  let pivot := pivot.PanelFull S (View A indB indR) (View X indB ind0) (View Y indB ind0)
  let from_ := k + pivot.from0
  -- Apply the pivot
  let AFull := HermitianSwap S AFull (k + off) (from_ + off)
  let p := RowSwap p k from_
  let X := X.Store indB ind0 (RowSwap (View X indB ind0) 0 pivot.from0)
  let Y := Y.Store indB ind0 (RowSwap (View Y indB ind0) 0 pivot.from0)
  let A := View AFull indA indA
  -- Update A(k:end,k) -= X(k:end,0:k-1) Y(k,0:k-1)^T
  let A := A.Store indB ind1
    (Gemv (-1) (View X indB ind0) (LockedView Y ind1 ind0) 1 (View A indB ind1))
  let A := A.Store indB ind1 ((View A indB ind1).MakeReal S 0 0)
  -- a21 := a21 / sqrt(alpha11)
  let delta11 := S.Sqrt (A.GetRealPart S k k)
  let delta11Inv := 1 / delta11
  let A := A.SetRealPart S k k delta11
  let A := A.Store ind2 ind1 (Scale S delta11Inv (View A ind2 ind1))
  -- Store x21 := a21 and y21 := conj(a21)
  let Y := Y.Store ind2 ind1 (Conjugate S (View A ind2 ind1))
  let X := X.Store ind2 ind1 (View A ind2 ind1)
  { AFull := AFull.Store indA indA A, p := p, X := X, Y := Y }

/-- The sequential `cholesky::LPanelPivoted( AFull, p, X, Y, bsize, off )`. -/
def LPanelPivoted (S : Scalars F R) (debug : Bool) (AFull : Matrix F) (p : Matrix Nat)
    (X Y : Matrix F) (bsize off : Nat) : Outcome (PanelState F) :=
  let nFull := AFull.height
  let A := View AFull ⟨off, nFull⟩ ⟨off, nFull⟩
  let n := A.height
  if debug = true ∧ A.width ≠ n then
    .logicError "A must be square" { AFull := AFull, p := p, X := X, Y := Y }
  else if debug = true ∧ (p.height ≠ n ∨ p.width ≠ 1) then
    .logicError "permutation vector is the wrong size" { AFull := AFull, p := p, X := X, Y := Y }
  else
    let X : Matrix F := Zeros n bsize
    let Y : Matrix F := Zeros n bsize
    .returned ((List.range bsize).foldl (LPanelPivoted.step S off n)
      { AFull := AFull, p := p, X := X, Y := Y })

/-- The variables of the loop of `LVar3`: `A`, `p` and the panels `XB1`, `YB1`. -/
structure LVar3State (F : Type) where
  A : Matrix F
  p : Matrix Nat
  XB1 : Matrix F
  YB1 : Matrix F

/-- The loop `for( Int k=0; k<n; k+=bsize )` of `LVar3`, run for at most `fuel`
iterations from `k`; it is `diverged` when the iterations are used up with
`k < n` still true, which happens only for a block size below one. -/
def LVar3.loop (S : Scalars F R) (debug : Bool) (bsize n : Nat) :
    Nat → Nat → LVar3State F → Outcome (LVar3State F)
  | 0, k, st => if k < n then .diverged else .returned st
  | fuel + 1, k, st =>
    if k < n then
      let nb := min bsize (n - k)
      let indB : IndexRange := ⟨k, n⟩
      let pB := View st.p indB ⟨0, 1⟩
      match LPanelPivoted S debug st.A pB st.XB1 st.YB1 nb k with
      | .returned r =>
        let A := r.AFull
        let p := st.p.Store indB ⟨0, 1⟩ r.p
        let XB1 := r.X
        let YB1 := r.Y
        -- Update the bottom-right panel
        let ind2 : IndexRange := ⟨k + nb, n⟩
        let ind1Pan : IndexRange := ⟨0, nb⟩
        let ind2Pan : IndexRange := ⟨nb, n - k⟩
        let A := A.Store ind2 ind2
          (Trrk (-1) (LockedView XB1 ind2Pan ind1Pan) (LockedView YB1 ind2Pan ind1Pan) 1
            (View A ind2 ind2))
        LVar3.loop S debug bsize n fuel (k + bsize) { A := A, p := p, XB1 := XB1, YB1 := YB1 }
      | .logicError msg r =>
        .logicError msg
          { A := r.AFull, p := st.p.Store indB ⟨0, 1⟩ r.p, XB1 := r.X, YB1 := r.Y }
      | .diverged => .diverged
    else .returned st

/-- The sequential `cholesky::LVar3( Matrix<F>& A, Matrix<Int>& p )`, with
`Blocksize()` equal to `bsize`. -/
def LVar3 (S : Scalars F R) (debug : Bool) (bsize : Nat) (A : Matrix F) (p : Matrix Nat) :
    Outcome (FactorState F) :=
  if debug = true ∧ A.height ≠ A.width then
    .logicError "A must be square" { A := A, p := p }
  else
    let n := A.height
    -- Initialize the permutation to the identity
    let p := initPerm p n
    match LVar3.loop S debug bsize n n 0 { A := A, p := p, XB1 := Zeros 0 0, YB1 := Zeros 0 0 } with
    | .returned st => .returned { A := st.A, p := st.p }
    | .logicError msg st => .logicError msg { A := st.A, p := st.p }
    | .diverged => .diverged

end Cholesky

/-! ## Distribution descriptors: `DistData` of `Abstract.hpp` -/

/-- Modelled from the spec: the closed enum `Dist` of distribution tags (its
declaration is not part of the extract). -/
inductive Dist where
  | CIRC | STAR | MC | MR | MD | VC | VR
deriving DecidableEq, Repr

/-- The struct `DistData`; the grid pointer is its address. -/
structure DistData where
  colDist : Dist
  rowDist : Dist
  blockHeight : Int
  blockWidth : Int
  colAlign : Int
  rowAlign : Int
  colCut : Int
  rowCut : Int
  root : Int
  grid : Nat
deriving DecidableEq, Repr

/-- The function `operator==( const DistData& A, const DistData& B )`. -/
def DistData.operatorEq (A B : DistData) : Bool :=
  A.colDist == B.colDist &&
  A.rowDist == B.rowDist &&
  A.blockHeight == B.blockHeight &&
  A.blockWidth == B.blockWidth &&
  A.colAlign == B.colAlign &&
  A.rowAlign == B.rowAlign &&
  A.root == B.root &&
  A.grid == B.grid

/-- The struct `ElementalData`. -/
structure ElementalData where
  colDist : Dist
  rowDist : Dist
  colAlign : Int
  rowAlign : Int
  root : Int
  grid : Nat
deriving DecidableEq, Repr

/-- The function `operator==( const ElementalData& A, const ElementalData& B )`. -/
def ElementalData.operatorEq (A B : ElementalData) : Bool :=
  A.colDist == B.colDist &&
  A.rowDist == B.rowDist &&
  A.colAlign == B.colAlign &&
  A.rowAlign == B.rowAlign &&
  A.root == B.root &&
  A.grid == B.grid

/-! ## Bulk remote updates: `QueueUpdate` / `ProcessQueues`

`Abstract.hpp` only declares `Reserve`, `QueueUpdate`, `ProcessQueues` and the
member `remoteUpdates_`; their bodies are modelled from the specification. -/

/-- The triple `Entry<T>` of a global position and a value. -/
structure Entry (T : Type) where
  i : Nat
  j : Nat
  value : T
deriving DecidableEq, Repr

/-- Modelled from the spec: a distributed matrix seen from all ranks of its
grid at once (the bodies of the `AbstractDistMatrix` members are not part of the
extract): the number of ranks, the owner of every global position, the local
cells of every rank addressed by global position, and the queue
`remoteUpdates_` of every rank. -/
structure DistWorld (T : Type) where
  ranks : Nat
  owner : Nat → Nat → Nat
  cell : Nat → Nat → Nat → T
  remoteUpdates : Nat → List (Entry T)

/-- Modelled from the spec: `Get(i,j)` returns the value held by the owner. -/
def DistWorld.Get {T : Type} (W : DistWorld T) (i j : Nat) : T :=
  W.cell (W.owner i j) i j

/-- Modelled from the spec: `QueueUpdate(i,j,alpha)` called on rank `r`
"appends to `remoteUpdates` without communication". -/
def DistWorld.QueueUpdate {T : Type} (W : DistWorld T) (r : Nat) (e : Entry T) : DistWorld T :=
  { W with remoteUpdates := fun r' => if r' = r then W.remoteUpdates r ++ [e]
                                      else W.remoteUpdates r' }

/-- Modelled from the spec: "Each rank partitions its queue by target rank":
the part of the queue of `r` that goes to rank `t`. -/
def DistWorld.sendBuf {T : Type} (W : DistWorld T) (r t : Nat) : List (Entry T) :=
  (W.remoteUpdates r).filter (fun e => W.owner e.i e.j = t)

/-- Modelled from the spec: "An all-to-all exchanges (i,j,alpha) triples": what
rank `t` receives, from rank `0`, `1`, ... in turn. -/
def DistWorld.recvBuf {T : Type} (W : DistWorld T) (t : Nat) : List (Entry T) :=
  (List.range W.ranks).flatMap (fun r => W.sendBuf r t)

/-- Modelled from the spec: "Each receiver sums all received (i,j,alpha) into
its local cell." -/
def applyUpdates {T : Type} [Add T] (c : Nat → Nat → T) (es : List (Entry T)) : Nat → Nat → T :=
  es.foldl (fun c e => fun i j => if i = e.i ∧ j = e.j then c i j + e.value else c i j) c

/-- Modelled from the spec: `ProcessQueues()`, the single collective that
delivers every queued update to its owner and clears the queues. -/
def DistWorld.ProcessQueues {T : Type} [Add T] (W : DistWorld T) : DistWorld T :=
  { W with
    cell := fun t => if t < W.ranks then applyUpdates (W.cell t) (W.recvBuf t) else W.cell t
    remoteUpdates := fun _ => [] }

/-- A sequence of `QueueUpdate` calls, each made on some rank. -/
def DistWorld.queueAll {T : Type} (W : DistWorld T) (calls : List (Nat × Entry T)) : DistWorld T :=
  calls.foldl (fun W c => W.QueueUpdate c.1 c.2) W

/-- The sum of the values of the calls that target position `(i,j)`. -/
def updatesAt {T : Type} [AddCommMonoid T] (calls : List (Nat × Entry T)) (i j : Nat) : T :=
  ((calls.filter (fun c => c.2.i = i ∧ c.2.j = j)).map (fun c => c.2.value)).sum

/-! ## Local and global indices

`Abstract.hpp` declares `GlobalRow`, `GlobalCol`, `LocalRowOffset`, `RowOwner`
as pure virtual and `LocalRow`, `LocalCol`, `IsLocalRow`, `IsLocalCol` without a
body; the maps are modelled from section 4.3 of the specification. -/

/-- Modelled from the spec: one axis of a distribution as a process sees it:
the stride (number of processes across which the axis is distributed), the
block size and cut (block size one and cut zero for elemental distributions),
the alignment and the rank of the process in the communicator of the axis. -/
structure AxisData where
  stride : Nat
  bsize : Nat
  cut : Nat
  align : Nat
  rank : Nat
deriving DecidableEq, Repr

/-- Modelled from the spec: the shift "`(rank − align + σ) mod σ`". -/
def AxisData.shift (a : AxisData) : Nat := (a.rank + a.stride - a.align) % a.stride

/-- Modelled from the spec: `ownerOf(i)`, "`((i + c) / b + a) mod σ`", which is
"`(i + a) mod σ`" for an elemental axis. -/
def AxisData.ownerOf (a : AxisData) (i : Nat) : Nat := ((i + a.cut) / a.bsize + a.align) % a.stride

/-- Modelled from the spec: `globalIndex(iLoc, shift, σ, b, c)`; local block
`iLoc / b` of the process is global block `shift + (iLoc / b) σ`, and the first
block of the process of shift zero starts `c` entries late. -/
def AxisData.globalIndex (a : AxisData) (iLoc : Nat) : Nat :=
  let iLocAdj := if a.shift = 0 then iLoc + a.cut else iLoc
  (a.shift + (iLocAdj / a.bsize) * a.stride) * a.bsize + iLocAdj % a.bsize - a.cut

/-- Modelled from the spec: `localOffset(i)`, "the local index on its owner,
including partial first-block adjustment via the cut". -/
def AxisData.localOffset (a : AxisData) (i : Nat) : Nat :=
  let block := (i + a.cut) / a.bsize
  (block / a.stride) * a.bsize + (i + a.cut) % a.bsize - (if block % a.stride = 0 then a.cut else 0)

/-- Modelled from the spec: `localLength(n, shift, σ, b, c)`, the number of
indices below `n` that the process owns. -/
def AxisData.localLength (a : AxisData) (n : Nat) : Nat :=
  ((List.range n).filter (fun i => a.ownerOf i = a.rank)).length

/-- Modelled from the spec: what the index maps of an `AbstractDistMatrix` use:
the global size, the axis of the rows (column distribution) and of the columns
(row distribution), and whether the process participates. -/
structure DistIndexing where
  height : Nat
  width : Nat
  colAxis : AxisData
  rowAxis : AxisData
  participating : Bool

/-- Modelled from the spec: `LocalHeight()`, the local length of the row axis
on a participating process and zero elsewhere. -/
def DistIndexing.LocalHeight (D : DistIndexing) : Nat :=
  if D.participating then D.colAxis.localLength D.height else 0

/-- Modelled from the spec: `LocalWidth()`. -/
def DistIndexing.LocalWidth (D : DistIndexing) : Nat :=
  if D.participating then D.rowAxis.localLength D.width else 0

/-- Modelled from the spec: `GlobalRow(iLoc)`. -/
def DistIndexing.GlobalRow (D : DistIndexing) (iLoc : Nat) : Nat := D.colAxis.globalIndex iLoc

/-- Modelled from the spec: `GlobalCol(jLoc)`. -/
def DistIndexing.GlobalCol (D : DistIndexing) (jLoc : Nat) : Nat := D.rowAxis.globalIndex jLoc

/-- Modelled from the spec: `RowOwner(i)`. -/
def DistIndexing.RowOwner (D : DistIndexing) (i : Nat) : Nat := D.colAxis.ownerOf i

/-- Modelled from the spec: `ColOwner(j)`. -/
def DistIndexing.ColOwner (D : DistIndexing) (j : Nat) : Nat := D.rowAxis.ownerOf j

/-- Modelled from the spec: `IsLocalRow(i)`: the process participates and owns row `i`. -/
def DistIndexing.IsLocalRow (D : DistIndexing) (i : Nat) : Bool :=
  D.participating && D.RowOwner i == D.colAxis.rank

/-- Modelled from the spec: `IsLocalCol(j)`. -/
def DistIndexing.IsLocalCol (D : DistIndexing) (j : Nat) : Bool :=
  D.participating && D.ColOwner j == D.rowAxis.rank

/-- Modelled from the spec: `LocalRow(i)`, the local index of a local row. -/
def DistIndexing.LocalRow (D : DistIndexing) (i : Nat) : Nat := D.colAxis.localOffset i

/-- Modelled from the spec: `LocalCol(j)`. -/
def DistIndexing.LocalCol (D : DistIndexing) (j : Nat) : Nat := D.rowAxis.localOffset j

/-- An axis is well formed: at least one process, a positive block size, a
cut inside the first block, alignment and rank inside the communicator. -/
def AxisData.WF (a : AxisData) : Prop :=
  0 < a.stride ∧ 0 < a.bsize ∧ a.cut < a.bsize ∧ a.align < a.stride ∧ a.rank < a.stride

instance (a : AxisData) : Decidable a.WF := by unfold AxisData.WF; infer_instance


/-- Scenario S3: a 5 × 5 zero matrix over the integers on a 2 × 2 grid in the
`[MC,MR]` distribution, with empty queues. -/
def s3World : DistWorld ℤ where
  ranks := 4
  owner := fun i j => i % 2 + 2 * (j % 2)
  cell := fun _ _ _ => 0
  remoteUpdates := fun _ => []

/-- Scenario S3: rank 0 queues `(0,0,1)`, `(4,4,1)`, `(0,0,2)` and rank 1 queues `(0,0,3)`. -/
def s3Calls : List (Nat × Entry ℤ) :=
  [(0, ⟨0, 0, 1⟩), (0, ⟨4, 4, 1⟩), (0, ⟨0, 0, 2⟩), (1, ⟨0, 0, 3⟩)]

/-- A process of a 2 × 2 grid in the `[MC,MR]` distribution of an 8 × 8 matrix. -/
def mcmrIndexing : DistIndexing where
  height := 8
  width := 8
  colAxis := { stride := 2, bsize := 1, cut := 0, align := 0, rank := 1 }
  rowAxis := { stride := 2, bsize := 1, cut := 0, align := 1, rank := 0 }
  participating := true

/-- The vector `p` is an `n × 1` vector in which every index `0, ..., n-1` occurs
exactly once. -/
def IsPermutationVector (n : Nat) (p : Matrix Nat) : Prop :=
  p.height = n ∧ p.width = 1 ∧ ∀ v, v < n → ∃! i, i < n ∧ p.entry i 0 = v

/-- A square matrix given by its rows. -/
def Matrix.ofRows {α : Type} [Zero α] (m n : Nat) (rows : List (List α)) : Matrix α where
  height := m
  width := n
  entry := fun i j => (rows.getD i []).getD j 0

/-- An empty permutation vector, as `Matrix<Int> p;` declares it. -/
def emptyPerm : Matrix Nat where
  height := 0
  width := 0
  entry := fun _ _ => 0

/-- The matrix of scenario S1. -/
def s1Matrix {α : Type} [Field α] : Matrix α :=
  Matrix.ofRows 3 3 [[4, 12, -16], [12, 37, -43], [-16, -43, 98]]

/-- The matrix of scenario S2. -/
def s2Matrix {α : Type} [Field α] : Matrix α :=
  Matrix.ofRows 3 3 [[98, -43, -16], [-43, 37, 12], [-16, 12, 4]]

/-- The 1 × 1 matrix with entry `-1`. -/
def negOneMatrix : Matrix ℚ := Matrix.ofRows 1 1 [[-1]]

/-- A 1 × 2 matrix. -/
def wideMatrix : Matrix ℚ := Matrix.ofRows 1 2 [[4, 9]]

/-- The state of the first panel of scenario S1 (block size 2) when the loop of
`LPanelPivoted` starts, over the rationals. -/
def s1Panel : PanelState ℚ :=
  { AFull := s1Matrix, p := initPerm emptyPerm 3, X := Zeros 3 2, Y := Zeros 3 2 }

/-- The state of the first panel of scenario S1 after its first iteration. -/
def s1PanelNext : PanelState ℚ := LPanelPivoted.step ratScalars 0 3 s1Panel 0

section FactorisationNotions

variable {F R : Type} [Field F] [LinearOrderedField R]

/-- The leading `n × n` block of `A` is Hermitian. -/
def IsHermitian (S : Scalars F R) (n : Nat) (A : Matrix F) : Prop :=
  ∀ i j, i < n → j < n → A.entry j i = S.Conj (A.entry i j)

/-- The function `M` is positive definite on the index range `g, ..., n-1`:
`Re(y^H M y) > 0` for every `y` that is not zero on the range. -/
def PosDefOn (S : Scalars F R) (g n : Nat) (M : Nat → Nat → F) : Prop :=
  ∀ y : Nat → F, (∃ i, g ≤ i ∧ i < n ∧ y i ≠ 0) →
    0 < S.RealPart (∑ i in Finset.Ico g n, ∑ j in Finset.Ico g n, S.Conj (y i) * M i j * y j)

/-- The leading `n × n` block of `A` is positive definite:  `Re(y^H A y) > 0`
for every `y ≠ 0`. -/
def IsPosDef (S : Scalars F R) (n : Nat) (A : Matrix F) : Prop :=
  ∀ y : Nat → F, (∃ i, i < n ∧ y i ≠ 0) →
    0 < S.RealPart (∑ i in Finset.range n, ∑ j in Finset.range n,
      S.Conj (y i) * A.entry i j * y j)

/-- The lower triangle of `A`, with the strict upper part read as zero. -/
def Matrix.tril (A : Matrix F) : Matrix F where
  height := A.height
  width := A.width
  entry := fun i j => if j ≤ i then A.entry i j else 0

/-- Entry `(i,j)` of `L L^H` for the lower triangle `L` of the `n × n` matrix `A`. -/
def Matrix.trilMulAdjoint (S : Scalars F R) (n : Nat) (A : Matrix F) (i j : Nat) : F :=
  ∑ c in Finset.range n, A.tril.entry i c * S.Conj (A.tril.entry j c)

/-- Entry `(i,j)` of the Schur complement after `g` columns: the permuted
original matrix minus the product of the first `g` columns of `L` with their
adjoint. -/
def schur (S : Scalars F R) (A0 : Matrix F) (π : Nat → Nat) (L : Matrix F) (g i j : Nat) : F :=
  A0.entry (π i) (π j) - ∑ c in Finset.range g, L.entry i c * S.Conj (L.entry j c)

/-- The invariant of the factorisation after `g` columns, the trailing block
having received the updates of the first `off` columns: `π` is the permutation
applied so far, the finished columns factor the permuted matrix, the trailing
lower triangle holds the Schur complement after `off` columns, and the Schur
complement after `g` columns is positive definite. -/
structure CholInv (S : Scalars F R) (n : Nat) (A0 : Matrix F) (off g : Nat) (L : Matrix F)
    (π : Equiv.Perm Nat) : Prop where
  height : L.height = n
  fix : ∀ i, n ≤ i → π i = i
  fact : ∀ i j, j < g → j ≤ i → i < n →
    ∑ c in Finset.range (j + 1), L.entry i c * S.Conj (L.entry j c) = A0.entry (π i) (π j)
  trail : ∀ i j, g ≤ j → j ≤ i → i < n → L.entry i j = schur S A0 π L off i j
  pd : PosDefOn S g n (schur S A0 π L g)

/-- The panels `X` and `Y` hold the first `k` columns of the panel that starts
at `off`, and their conjugates, below the diagonal. -/
def PanelLink (S : Scalars F R) (n off k : Nat) (L X Y : Matrix F) : Prop :=
  ∀ r c, c < k → c < r → off + r < n →
    X.entry r c = L.entry (off + r) (off + c) ∧ Y.entry r c = S.Conj (L.entry (off + r) (off + c))

/-- The lazy panel of `LVar3` and the eager `LUnblockedPivoted` in step: `P` is
the state of the panel that starts at `off` after `k` of its iterations, `U` the
state of the unblocked loop after `off + k` iterations.  The finished columns
agree, the trailing lower triangle of `P` still lacks the updates of the `k`
columns held in `X` and `Y`, the permutation vectors agree, and the trailing
diagonal is real. -/
structure LazyEager (S : Scalars F R) (n off k : Nat) (U : FactorState F) (P : PanelState F) :
    Prop where
  heightU : U.A.height = n
  heightP : P.AFull.height = n
  left : ∀ I J, J < off + k → J ≤ I → I < n → P.AFull.entry I J = U.A.entry I J
  trail : ∀ I J, off + k ≤ J → J ≤ I → I < n →
    P.AFull.entry I J
      = U.A.entry I J + ∑ c in Finset.range k, P.X.entry (I - off) c * P.Y.entry (J - off) c
  link : PanelLink S n off k P.AFull P.X P.Y
  perm : ∀ i, off + i < n → P.p.entry i 0 = U.p.entry (off + i) 0
  real : ∀ I, off + k ≤ I → I < n → S.Conj (U.A.entry I I) = U.A.entry I I

end FactorisationNotions

/-! ## Test matrices: `Grcar.hpp` -/

section GrcarMatrix

variable {T : Type} [Field T]

/-- Modelled from the spec: `SetDiagonal(A, alpha, offset)` of the library sets
every entry of the diagonal `j - i = offset` of `A` to `alpha` (the value comes
before the offset; the source of `SetDiagonal` is not part of the extract). -/
def SetDiagonal (A : Matrix T) (alpha : T) (offset : Int) : Matrix T where
  height := A.height
  width := A.width
  entry := fun i j =>
    if i < A.height ∧ j < A.width ∧ (j : Int) - (i : Int) = offset then alpha else A.entry i j

/-- The function `Grcar( Matrix<T>& A, Int n, Int k=3 )`.  `LogicError` throws, so
nothing after it runs; `Zeros` is given `n` rows and columns (none for a
negative `n`, which is outside its contract). -/
def Grcar (A : Matrix T) (n k : Int) : Outcome (Matrix T) :=
  if k < 0 then
    .logicError "Number of superdiagonals of ones must be non-negative" A
  else
    let A : Matrix T := Zeros n.toNat n.toNat
    let A := if n > 1 then SetDiagonal A ((-1 : Int) : T) (-1) else A
    .returned ((List.range (min n (k + 1)).toNat).foldl
      (fun A (j : Nat) => SetDiagonal A ((n - 1 - (j : Int) : Int) : T) 1) A)

/-- The overload `Grcar( Int n, Int k=3 )`, which fills a new matrix
`Matrix<T> A;` and returns it. -/
def Grcar.ofSize (n k : Int) : Outcome (Matrix T) :=
  Grcar (Zeros 0 0) n k

/-- The default value `k=3` of the last parameter of `Grcar`. -/
def Grcar.defaultK : Int := 3

end GrcarMatrix

/-! # Theorems -/

/-! ## Distribution descriptors -/

/-- C5, evaluated on the code: `operator==` on `DistData` does not look at
`colCut` and `rowCut`; two descriptors that differ only in `colCut`, or only in
`rowCut`, compare equal. -/
theorem DistData_operatorEq_ignores_cuts :
    DistData.operatorEq ⟨.MC, .MR, 2, 2, 0, 0, 0, 0, 0, 7⟩ ⟨.MC, .MR, 2, 2, 0, 0, 1, 0, 0, 7⟩ = true
    ∧ DistData.operatorEq ⟨.MC, .MR, 2, 2, 0, 0, 0, 0, 0, 7⟩ ⟨.MC, .MR, 2, 2, 0, 0, 0, 1, 0, 7⟩ = true
    ∧ (⟨.MC, .MR, 2, 2, 0, 0, 0, 0, 0, 7⟩ : DistData) ≠ ⟨.MC, .MR, 2, 2, 0, 0, 1, 0, 0, 7⟩ := by
  decide

/-- The descriptors that `operator==` identifies are those that agree on the
eight fields other than `colCut` and `rowCut`. -/
theorem DistData_operatorEq_iff (A B : DistData) :
    DistData.operatorEq A B = true ↔
      A.colDist = B.colDist ∧ A.rowDist = B.rowDist ∧ A.blockHeight = B.blockHeight ∧
      A.blockWidth = B.blockWidth ∧ A.colAlign = B.colAlign ∧ A.rowAlign = B.rowAlign ∧
      A.root = B.root ∧ A.grid = B.grid := by
  simp [DistData.operatorEq, and_assoc]

/-- The sibling `operator==` on `ElementalData` compares every field. -/
theorem ElementalData_operatorEq_iff (A B : ElementalData) :
    ElementalData.operatorEq A B = true ↔ A = B := by
  cases A; cases B
  simp [ElementalData.operatorEq, and_assoc]

/-! ## Bulk remote updates -/

theorem applyUpdates_apply {T : Type} [AddCommMonoid T] (es : List (Entry T)) (c : Nat → Nat → T)
    (i j : Nat) :
    applyUpdates c es i j
      = c i j + ((es.filter (fun e => e.i = i ∧ e.j = j)).map (fun e => e.value)).sum := by
  induction es generalizing c with
  | nil => simp [applyUpdates]
  | cons e es ih =>
    have h := ih (fun i j => if i = e.i ∧ j = e.j then c i j + e.value else c i j)
    simp only [applyUpdates, List.foldl_cons] at h ⊢
    rw [h]
    by_cases hm : e.i = i ∧ e.j = j
    · have hm' : i = e.i ∧ j = e.j := ⟨hm.1.symm, hm.2.symm⟩
      rw [if_pos hm', List.filter_cons_of_pos (by simpa using hm), List.map_cons, List.sum_cons,
        add_assoc]
    · have hm' : ¬ (i = e.i ∧ j = e.j) := fun h => hm ⟨h.1.symm, h.2.symm⟩
      rw [if_neg hm', List.filter_cons_of_neg (by simpa using hm)]

theorem queueAll_remoteUpdates {T : Type} (calls : List (Nat × Entry T)) (W : DistWorld T) (r : Nat) :
    (W.queueAll calls).remoteUpdates r
      = W.remoteUpdates r ++ (calls.filter (fun c => c.1 = r)).map (fun c => c.2) := by
  induction calls generalizing W with
  | nil => simp [DistWorld.queueAll]
  | cons c cs ih =>
    have h := ih (W.QueueUpdate c.1 c.2)
    simp only [DistWorld.queueAll, List.foldl_cons] at h ⊢
    rw [h]
    by_cases hc : c.1 = r
    · simp [DistWorld.QueueUpdate, List.filter_cons, hc]
    · have hc' : ¬ r = c.1 := fun h => hc h.symm
      simp [DistWorld.QueueUpdate, List.filter_cons, hc, hc']

theorem queueAll_frame {T : Type} (calls : List (Nat × Entry T)) (W : DistWorld T) :
    (W.queueAll calls).ranks = W.ranks ∧ (W.queueAll calls).owner = W.owner
      ∧ (W.queueAll calls).cell = W.cell := by
  induction calls generalizing W with
  | nil => simp [DistWorld.queueAll]
  | cons c cs ih =>
    have h := ih (W.QueueUpdate c.1 c.2)
    simp only [DistWorld.queueAll, List.foldl_cons] at h ⊢
    exact h

/-- The values of the calls made on a rank below `P` that satisfy `q`, summed. -/
theorem sum_filter_rank_succ {T : Type} [AddCommMonoid T] (calls : List (Nat × Entry T)) (P : Nat)
    (q : Entry T → Bool) :
    ((calls.filter (fun c => decide (c.1 < P + 1) && q c.2)).map (fun c => c.2.value)).sum
      = ((calls.filter (fun c => decide (c.1 < P) && q c.2)).map (fun c => c.2.value)).sum
        + ((calls.filter (fun c => decide (c.1 = P) && q c.2)).map (fun c => c.2.value)).sum := by
  induction calls with
  | nil => simp
  | cons c cs ih =>
    rcases Nat.lt_trichotomy c.1 P with h | h | h
    · have h1 : c.1 < P + 1 := by omega
      have h2 : ¬ c.1 = P := by omega
      cases hq : q c.2 <;> simp [List.filter_cons, h, h1, h2, hq, ih, add_assoc]
    · have h1 : c.1 < P + 1 := by omega
      have h2 : ¬ c.1 < P := by omega
      cases hq : q c.2 <;> simp [List.filter_cons, h, h1, h2, hq, ih]
      rw [add_left_comm]
    · have h1 : ¬ c.1 < P + 1 := by omega
      have h2 : ¬ c.1 < P := by omega
      have h3 : ¬ c.1 = P := by omega
      simp [List.filter_cons, h1, h2, h3, ih]

theorem sum_by_rank {T : Type} [AddCommMonoid T] (calls : List (Nat × Entry T)) (P : Nat)
    (q : Entry T → Bool) :
    ((((List.range P).flatMap
        (fun r => ((calls.filter (fun c => c.1 = r)).map (fun c => c.2)))).filter q).map
          (fun e => e.value)).sum
      = (((calls.filter (fun c => decide (c.1 < P) && q c.2)).map (fun c => c.2.value))).sum := by
  induction P with
  | zero => simp
  | succ P ih =>
    rw [sum_filter_rank_succ, ← ih, List.range_succ, List.flatMap_append, List.filter_append,
      List.map_append, List.sum_append]
    congr 1
    simp [List.filter_map, List.filter_filter, Function.comp_def, Bool.and_comm]


/-- C8: bulk remote updates are additive and order independent.  From a state
with empty queues, after any sequence of `QueueUpdate` calls made on any ranks
(locally owned or foreign targets) followed by `ProcessQueues`, the value at
every `(i,j)` is the initial value plus the sum of the queued values that
target `(i,j)`, and every queue is empty. -/
theorem ProcessQueues_additive {T : Type} [AddCommMonoid T] (W : DistWorld T)
    (calls : List (Nat × Entry T))
    (hq : ∀ r, W.remoteUpdates r = [])
    (hr : ∀ c ∈ calls, c.1 < W.ranks)
    (ho : ∀ i j, W.owner i j < W.ranks) :
    (∀ i j, ((W.queueAll calls).ProcessQueues).Get i j = W.Get i j + updatesAt calls i j)
      ∧ (∀ r, ((W.queueAll calls).ProcessQueues).remoteUpdates r = []) := by
  refine ⟨fun i j => ?_, fun r => rfl⟩
  obtain ⟨h1, h2, h3⟩ := queueAll_frame calls W
  have hqa : ∀ r, (W.queueAll calls).remoteUpdates r
      = (calls.filter (fun c => c.1 = r)).map (fun c => c.2) := by
    intro r; rw [queueAll_remoteUpdates, hq]; rfl
  simp only [DistWorld.Get, DistWorld.ProcessQueues, h1, h2, h3, if_pos (ho i j)]
  rw [applyUpdates_apply]
  congr 1
  simp only [DistWorld.recvBuf, DistWorld.sendBuf, h1, h2, hqa]
  have key := sum_by_rank calls W.ranks (fun e => decide (e.i = i ∧ e.j = j))
  have hfil : calls.filter (fun c => decide (c.1 < W.ranks) && decide (c.2.i = i ∧ c.2.j = j))
      = calls.filter (fun c => decide (c.2.i = i ∧ c.2.j = j)) := by
    apply List.filter_congr
    intro c hc
    simp [hr c hc]
  rw [hfil] at key
  unfold updatesAt
  rw [← key]
  congr 2
  rw [List.filter_flatMap]
  rw [List.filter_flatMap]
  congr 1
  funext r
  rw [List.filter_filter]
  apply List.filter_congr
  intro e he
  by_cases hm : e.i = i ∧ e.j = j
  · simp [hm]
  · simp [hm]

/-- Scenario S3 through `ProcessQueues_additive`: `A(0,0) = 6`, `A(4,4) = 1`,
every other entry of the 5 × 5 matrix is `0`, and the queues are empty. -/
theorem ProcessQueues_additive_witness :
    ((s3World.queueAll s3Calls).ProcessQueues).Get 0 0 = 6
      ∧ ((s3World.queueAll s3Calls).ProcessQueues).Get 4 4 = 1
      ∧ (∀ i j, i < 5 → j < 5 → ¬ (i = 0 ∧ j = 0) → ¬ (i = 4 ∧ j = 4) →
          ((s3World.queueAll s3Calls).ProcessQueues).Get i j = 0)
      ∧ (∀ r, ((s3World.queueAll s3Calls).ProcessQueues).remoteUpdates r = []) := by
  have h := ProcessQueues_additive s3World s3Calls (fun _ => rfl)
    (by decide) (fun i j => by simp only [s3World]; omega)
  refine ⟨?_, ?_, ?_, h.2⟩
  · rw [h.1]; decide
  · rw [h.1]; decide
  · intro i j hi hj h0 h4
    rw [h.1]
    have : updatesAt s3Calls i j = 0 := by
      simp only [updatesAt, s3Calls, List.filter_cons, List.filter_nil]
      have e1 : ¬ (0 = i ∧ 0 = j) := fun h => h0 ⟨h.1.symm, h.2.symm⟩
      have e2 : ¬ (4 = i ∧ 4 = j) := fun h => h4 ⟨h.1.symm, h.2.symm⟩
      simp [e1, e2]
    rw [this]
    simp [DistWorld.Get, s3World]

/-! ## Local and global indices -/

theorem AxisData.shift_lt (a : AxisData) (h : a.WF) : a.shift < a.stride :=
  Nat.mod_lt _ h.1

theorem AxisData.shift_add_align (a : AxisData) (h : a.WF) :
    (a.shift + a.align) % a.stride = a.rank := by
  obtain ⟨h1, _, _, h4, h5⟩ := h
  unfold AxisData.shift
  rw [Nat.add_mod, Nat.mod_mod, ← Nat.add_mod]
  have : a.rank + a.stride - a.align + a.align = a.rank + a.stride := by omega
  rw [this, Nat.add_mod_right, Nat.mod_eq_of_lt h5]

/-- the global index of a local index, with the cut added back -/
theorem AxisData.globalIndex_add_cut (a : AxisData) (h : a.WF) (iLoc : Nat) :
    a.globalIndex iLoc + a.cut
      = (a.shift + ((if a.shift = 0 then iLoc + a.cut else iLoc) / a.bsize) * a.stride) * a.bsize
        + (if a.shift = 0 then iLoc + a.cut else iLoc) % a.bsize := by
  obtain ⟨h1, h2, h3, _, _⟩ := h
  unfold AxisData.globalIndex
  simp only []
  apply Nat.sub_add_cancel
  by_cases hs : a.shift = 0
  · simp only [hs, if_true, Nat.zero_add]
    have hdm := Nat.div_add_mod (iLoc + a.cut) a.bsize
    have : (iLoc + a.cut) / a.bsize * a.bsize ≤ (iLoc + a.cut) / a.bsize * a.stride * a.bsize := by
      rw [Nat.mul_assoc, Nat.mul_comm a.stride, ← Nat.mul_assoc]
      exact Nat.le_mul_of_pos_right _ h1
    have h' : (iLoc + a.cut) / a.bsize * a.bsize + (iLoc + a.cut) % a.bsize = iLoc + a.cut := by
      rw [Nat.mul_comm]; exact hdm
    omega
  · simp only [hs, if_false]
    have : 1 ≤ a.shift + iLoc / a.bsize * a.stride := by
      have : 0 < a.shift := Nat.pos_of_ne_zero hs
      omega
    have : a.bsize ≤ (a.shift + iLoc / a.bsize * a.stride) * a.bsize :=
      Nat.le_mul_of_pos_left _ this
    omega

theorem AxisData.localOffset_globalIndex (a : AxisData) (h : a.WF) (iLoc : Nat) :
    a.localOffset (a.globalIndex iLoc) = iLoc := by
  have hg := a.globalIndex_add_cut h iLoc
  have hs := a.shift_lt h
  obtain ⟨h1, h2, h3, _, _⟩ := h
  unfold AxisData.localOffset
  simp only []
  rw [hg]
  set adj := (if a.shift = 0 then iLoc + a.cut else iLoc) with hadj
  have hw : adj % a.bsize < a.bsize := Nat.mod_lt _ h2
  have hblock : ((a.shift + adj / a.bsize * a.stride) * a.bsize + adj % a.bsize) / a.bsize
      = a.shift + adj / a.bsize * a.stride := by
    rw [Nat.mul_comm, Nat.mul_add_div h2, Nat.div_eq_of_lt hw, Nat.add_zero]
  have hmod : ((a.shift + adj / a.bsize * a.stride) * a.bsize + adj % a.bsize) % a.bsize
      = adj % a.bsize := by
    rw [Nat.mul_comm, Nat.mul_add_mod, Nat.mod_mod]
  rw [hblock, hmod]
  have hq : (a.shift + adj / a.bsize * a.stride) / a.stride = adj / a.bsize := by
    rw [Nat.add_mul_div_right _ _ h1, Nat.div_eq_of_lt hs, Nat.zero_add]
  have hr : (a.shift + adj / a.bsize * a.stride) % a.stride = a.shift := by
    rw [Nat.add_mul_mod_self_right, Nat.mod_eq_of_lt hs]
  rw [hq, hr]
  have hdm : adj / a.bsize * a.bsize + adj % a.bsize = adj := by
    rw [Nat.mul_comm]; exact Nat.div_add_mod adj a.bsize
  rw [hdm]
  by_cases hs0 : a.shift = 0
  · simp [hadj, hs0]
  · simp [hadj, hs0]

theorem AxisData.ownerOf_globalIndex (a : AxisData) (h : a.WF) (iLoc : Nat) :
    a.ownerOf (a.globalIndex iLoc) = a.rank := by
  have hg := a.globalIndex_add_cut h iLoc
  have hsa := a.shift_add_align h
  obtain ⟨h1, h2, h3, _, _⟩ := h
  unfold AxisData.ownerOf
  rw [hg]
  set adj := (if a.shift = 0 then iLoc + a.cut else iLoc) with hadj
  have hw : adj % a.bsize < a.bsize := Nat.mod_lt _ h2
  have hblock : ((a.shift + adj / a.bsize * a.stride) * a.bsize + adj % a.bsize) / a.bsize
      = a.shift + adj / a.bsize * a.stride := by
    rw [Nat.mul_comm, Nat.mul_add_div h2, Nat.div_eq_of_lt hw, Nat.add_zero]
  rw [hblock]
  have : a.shift + adj / a.bsize * a.stride + a.align
      = (a.shift + a.align) + adj / a.bsize * a.stride := by omega
  rw [this, Nat.add_mul_mod_self_right, hsa]

/-- C9: round-trip indexing.  For every locally valid local row index `iLoc`
and local column index `jLoc`, `LocalRow(GlobalRow(iLoc)) = iLoc` and
`LocalCol(GlobalCol(jLoc)) = jLoc`, and `GlobalRow(iLoc)`, `GlobalCol(jLoc)` are
local to the process. -/
theorem LocalRow_GlobalRow (D : DistIndexing) (hc : D.colAxis.WF) (hr : D.rowAxis.WF)
    (iLoc jLoc : Nat) (hi : iLoc < D.LocalHeight) (hj : jLoc < D.LocalWidth) :
    D.LocalRow (D.GlobalRow iLoc) = iLoc ∧ D.LocalCol (D.GlobalCol jLoc) = jLoc
      ∧ D.IsLocalRow (D.GlobalRow iLoc) = true ∧ D.IsLocalCol (D.GlobalCol jLoc) = true := by
  have hp : D.participating = true := by
    unfold DistIndexing.LocalHeight at hi
    by_contra hp
    simp [hp] at hi
  refine ⟨D.colAxis.localOffset_globalIndex hc iLoc, D.rowAxis.localOffset_globalIndex hr jLoc,
    ?_, ?_⟩
  · simp [DistIndexing.IsLocalRow, DistIndexing.RowOwner, DistIndexing.GlobalRow, hp,
      D.colAxis.ownerOf_globalIndex hc iLoc]
  · simp [DistIndexing.IsLocalCol, DistIndexing.ColOwner, DistIndexing.GlobalCol, hp,
      D.rowAxis.ownerOf_globalIndex hr jLoc]

/-- A concrete instance of `LocalRow_GlobalRow`: local row 3 and local column 2
of a process of a 2 × 2 grid holding an 8 × 8 `[MC,MR]` matrix. -/
theorem LocalRow_GlobalRow_witness :
    mcmrIndexing.LocalRow (mcmrIndexing.GlobalRow 3) = 3
      ∧ mcmrIndexing.LocalCol (mcmrIndexing.GlobalCol 2) = 2
      ∧ mcmrIndexing.IsLocalRow (mcmrIndexing.GlobalRow 3) = true
      ∧ mcmrIndexing.IsLocalCol (mcmrIndexing.GlobalCol 2) = true :=
  LocalRow_GlobalRow mcmrIndexing (by decide) (by decide) 3 2 (by decide) (by decide)

/-! ## Pivoted Cholesky -/

section CholeskyLemmas

variable {α : Type} {F R : Type} [Field F] [LinearOrderedField R]

@[simp] theorem Set_entry (A : Matrix α) (i j : Nat) (x : α) (i' j' : Nat) :
    (A.Set i j x).entry i' j' = if i' = i ∧ j' = j then x else A.entry i' j' := rfl
@[simp] theorem Set_height (A : Matrix α) (i j : Nat) (x : α) : (A.Set i j x).height = A.height := rfl
@[simp] theorem Set_width (A : Matrix α) (i j : Nat) (x : α) : (A.Set i j x).width = A.width := rfl
@[simp] theorem View_entry (A : Matrix α) (I J : IndexRange) (i j : Nat) :
    (View A I J).entry i j = A.entry (I.beg + i) (J.beg + j) := rfl
@[simp] theorem View_height (A : Matrix α) (I J : IndexRange) : (View A I J).height = I.end_ - I.beg := rfl
@[simp] theorem View_width (A : Matrix α) (I J : IndexRange) : (View A I J).width = J.end_ - J.beg := rfl
@[simp] theorem Store_entry (A V : Matrix α) (I J : IndexRange) (i j : Nat) :
    (A.Store I J V).entry i j
      = if I.beg ≤ i ∧ i < I.end_ ∧ J.beg ≤ j ∧ j < J.end_ then V.entry (i - I.beg) (j - J.beg)
        else A.entry i j := rfl
@[simp] theorem Store_height (A V : Matrix α) (I J : IndexRange) : (A.Store I J V).height = A.height := rfl
@[simp] theorem Store_width (A V : Matrix α) (I J : IndexRange) : (A.Store I J V).width = A.width := rfl
@[simp] theorem RowSwap_entry (A : Matrix α) (a b i j : Nat) :
    (RowSwap A a b).entry i j = A.entry (Equiv.swap a b i) j := rfl
@[simp] theorem RowSwap_height (A : Matrix α) (a b : Nat) : (RowSwap A a b).height = A.height := rfl
@[simp] theorem RowSwap_width (A : Matrix α) (a b : Nat) : (RowSwap A a b).width = A.width := rfl
@[simp] theorem HermitianSwap_height (S : Scalars F R) (A : Matrix F) (a b : Nat) :
    (HermitianSwap S A a b).height = A.height := rfl
@[simp] theorem HermitianSwap_width (S : Scalars F R) (A : Matrix F) (a b : Nat) :
    (HermitianSwap S A a b).width = A.width := rfl

theorem swap_add_left (k a b i : Nat) :
    k + Equiv.swap a b i = Equiv.swap (k + a) (k + b) (k + i) := by
  simp only [Equiv.swap_apply_def]
  split_ifs <;> omega

theorem swap_lt (a b i n : Nat) (ha : a < n) (hb : b < n) (hi : i < n) : Equiv.swap a b i < n := by
  simp only [Equiv.swap_apply_def]
  split_ifs <;> omega

theorem swap_ge (a b i k : Nat) (ha : k ≤ a) (hb : k ≤ b) (hi : k ≤ i) : k ≤ Equiv.swap a b i := by
  simp only [Equiv.swap_apply_def]
  split_ifs <;> omega

theorem swap_of_lt (a b i : Nat) (ha : i < a) (hb : i < b) : Equiv.swap a b i = i := by
  simp only [Equiv.swap_apply_def]
  split_ifs <;> omega

theorem swap_of_gt (a b i : Nat) (ha : a < i) (hb : b < i) : Equiv.swap a b i = i := by
  simp only [Equiv.swap_apply_def]
  split_ifs <;> omega





@[simp] theorem Update_entry (A : Matrix F) (i j : Nat) (x : F) (i' j' : Nat) :
    (A.Update i j x).entry i' j' = if i' = i ∧ j' = j then A.entry i j + x else A.entry i' j' := rfl
@[simp] theorem Update_height (A : Matrix F) (i j : Nat) (x : F) : (A.Update i j x).height = A.height := rfl
@[simp] theorem Update_width (A : Matrix F) (i j : Nat) (x : F) : (A.Update i j x).width = A.width := rfl

/-- the fold of `VectorMaxAbs` over the first `m` entries -/
theorem VectorMaxAbs_fold_index (S : Scalars F R) (x : Matrix F) (m : Nat) :
    ((List.range m).foldl
      (fun pivot i =>
        let abs := S.Abs (x.Get i 0)
        if pivot.value < abs then { value := abs, index := i } else pivot)
      ({ value := 0, index := 0 } : ValueInt R)).index < max m 1 := by
  induction m with
  | zero => simp
  | succ m ih =>
    rw [List.range_succ, List.foldl_append]
    simp only [List.foldl_cons, List.foldl_nil] at ih ⊢
    split
    · simp
    · have : max m 1 ≤ max (m + 1) 1 := by omega
      exact lt_of_lt_of_le ih this

theorem VectorMaxAbs_index_lt (S : Scalars F R) (x : Matrix F) (h : 0 < x.height) :
    (VectorMaxAbs S x).index < x.height := by
  have := VectorMaxAbs_fold_index S x x.height
  unfold VectorMaxAbs
  have h2 : max x.height 1 = x.height := by omega
  rw [h2] at this
  exact this

theorem VectorMaxAbs_fold_max (S : Scalars F R) (habs : ∀ x, 0 ≤ S.Abs x) (x : Matrix F) (m : Nat) :
    let r := ((List.range (m + 1)).foldl
      (fun pivot i =>
        let abs := S.Abs (x.Get i 0)
        if pivot.value < abs then { value := abs, index := i } else pivot)
      ({ value := 0, index := 0 } : ValueInt R))
    r.value = S.Abs (x.entry r.index 0) ∧ ∀ i, i < m + 1 → S.Abs (x.entry i 0) ≤ r.value := by
  induction m with
  | zero =>
    simp only [List.range_succ, List.range_zero, List.nil_append, List.foldl_cons, List.foldl_nil,
      Matrix.Get]
    split
    · refine ⟨rfl, fun i hi => ?_⟩
      have : i = 0 := by omega
      subst this; exact le_refl _
    · rename_i h
      have h0 : S.Abs (x.entry 0 0) = 0 := le_antisymm (not_lt.mp h) (habs _)
      refine ⟨h0.symm, fun i hi => ?_⟩
      have : i = 0 := by omega
      subst this; exact le_of_eq h0
  | succ m ih =>
    rw [List.range_succ, List.foldl_append]
    simp only [List.foldl_cons, List.foldl_nil, Matrix.Get] at ih ⊢
    obtain ⟨ih1, ih2⟩ := ih
    split
    · rename_i h
      refine ⟨rfl, fun i hi => ?_⟩
      rcases Nat.lt_succ_iff_lt_or_eq.mp hi with h' | h'
      · exact le_of_lt (lt_of_le_of_lt (ih2 i h') h)
      · subst h'; exact le_refl _
    · rename_i h
      refine ⟨ih1, fun i hi => ?_⟩
      rcases Nat.lt_succ_iff_lt_or_eq.mp hi with h' | h'
      · exact ih2 i h'
      · subst h'; exact not_lt.mp h

theorem VectorMaxAbs_max (S : Scalars F R) (habs : ∀ x, 0 ≤ S.Abs x) (x : Matrix F)
    (i : Nat) (hi : i < x.height) :
    S.Abs (x.entry i 0) ≤ S.Abs (x.entry (VectorMaxAbs S x).index 0) := by
  obtain ⟨m, hm⟩ : ∃ m, x.height = m + 1 := ⟨x.height - 1, by omega⟩
  have := VectorMaxAbs_fold_max S habs x m
  simp only at this
  unfold VectorMaxAbs
  rw [hm]
  rw [← this.1]
  exact this.2 i (by omega)

/-- inner loop of `PanelFull` -/
theorem update_fold_entry (d : Matrix F) (i : Nat) (f : Nat → F) (k : Nat) (i' j' : Nat) :
    ((List.range k).foldl (fun d j => d.Update i 0 (f j)) d).entry i' j'
      = if i' = i ∧ j' = 0 then d.entry i 0 + ∑ j in Finset.range k, f j else d.entry i' j' := by
  induction k generalizing i' j' with
  | zero => by_cases h : i' = i ∧ j' = 0
            · simp [h]
            · simp [h]
  | succ k ih =>
    rw [List.range_succ, List.foldl_append]
    simp only [List.foldl_cons, List.foldl_nil, Update_entry]
    rw [ih, ih]
    by_cases h : i' = i ∧ j' = 0
    · simp [h, Finset.sum_range_succ, add_assoc]
    · simp [h]

theorem update_fold_height (d : Matrix F) (i : Nat) (f : Nat → F) (k : Nat) :
    ((List.range k).foldl (fun d j => d.Update i 0 (f j)) d).height = d.height := by
  induction k with
  | zero => simp
  | succ k ih =>
    rw [List.range_succ, List.foldl_append]
    simpa using ih

theorem PanelFull_diag_fold (A X Y : Matrix F) (m : Nat) :
    ((List.range m).foldl
      (fun d i => (List.range X.width).foldl (fun d j => d.Update i 0 (-X.Get i j * Y.Get i j)) d)
      A.GetDiagonal).height = A.GetDiagonal.height ∧
    ∀ i' j', ((List.range m).foldl
      (fun d i => (List.range X.width).foldl (fun d j => d.Update i 0 (-X.Get i j * Y.Get i j)) d)
      A.GetDiagonal).entry i' j' = if i' < m ∧ j' = 0 then
        A.entry i' i' - ∑ j in Finset.range X.width, X.entry i' j * Y.entry i' j
      else A.GetDiagonal.entry i' j' := by
  induction m with
  | zero => simp
  | succ m ih =>
    rw [List.range_succ, List.foldl_append]
    simp only [List.foldl_cons, List.foldl_nil] at ih ⊢
    refine ⟨by rw [update_fold_height]; exact ih.1, fun i' j' => ?_⟩
    rw [update_fold_entry, ih.2, ih.2]
    by_cases h1 : i' = m ∧ j' = 0
    · obtain ⟨rfl, rfl⟩ := h1
      simp [Matrix.GetDiagonal, Matrix.Get, sub_eq_add_neg]
    · rw [if_neg h1]
      by_cases h2 : i' < m ∧ j' = 0
      · have : i' < m + 1 ∧ j' = 0 := ⟨by omega, h2.2⟩
        rw [if_pos h2, if_pos this]
      · have : ¬ (i' < m + 1 ∧ j' = 0) := by
          intro h; apply h1; refine ⟨?_, h.2⟩
          by_contra h3; exact h2 ⟨by omega, h.2⟩
        rw [if_neg h2, if_neg this]

theorem PanelFull_diag_entry (A X Y : Matrix F) (i : Nat) (hi : i < min A.height A.width) :
    (pivot.PanelFull.diag A X Y).entry i 0
      = A.entry i i - ∑ j in Finset.range X.width, X.entry i j * Y.entry i j := by
  unfold pivot.PanelFull.diag
  simp only
  rw [(PanelFull_diag_fold A X Y _).2]
  simp [Matrix.GetDiagonal, hi]

theorem PanelFull_diag_height (A X Y : Matrix F) :
    (pivot.PanelFull.diag A X Y).height = min A.height A.width := by
  unfold pivot.PanelFull.diag
  simp only
  rw [(PanelFull_diag_fold A X Y _).1]
  rfl

theorem PanelFull_from0_lt (S : Scalars F R) (A X Y : Matrix F) (h : 0 < min A.height A.width) :
    (pivot.PanelFull S A X Y).from0 < min A.height A.width := by
  unfold pivot.PanelFull
  simp only
  have := VectorMaxAbs_index_lt S (pivot.PanelFull.diag A X Y) (by rw [PanelFull_diag_height]; exact h)
  rw [PanelFull_diag_height] at this
  exact this

theorem Full_from0_lt (S : Scalars F R) (A : Matrix F) (h : 0 < min A.height A.width) :
    (pivot.Full S A).from0 < min A.height A.width := by
  unfold pivot.Full
  exact VectorMaxAbs_index_lt S A.GetDiagonal h

theorem PanelFull_eq_Full (S : Scalars F R) (A X Y : Matrix F) (hk : X.width = 0) :
    pivot.PanelFull S A X Y = pivot.Full S A := by
  unfold pivot.PanelFull pivot.Full pivot.PanelFull.diag
  simp only [hk, List.range_zero, List.foldl_nil]
  have : ∀ (l : List Nat) (d : Matrix F), l.foldl (fun d _ => d) d = d := by
    intro l; induction l with
    | nil => intro d; rfl
    | cons a l ih => intro d; simpa using ih d
  rw [this]

/-- C10: pivot selection.  For a square `m × m` block `A` (`m > 0`) and panels
`X`, `Y` with `k` columns, `pivot::PanelFull(A, X, Y)` returns `nb = 1` and an
index `from[0] < m` that maximises `|d[i]|` over the candidate diagonal
`d[i] = A[i][i] - sum_{j<k} X[i][j] * Y[i][j]`; with `k = 0` it is `pivot::Full(A)`,
an index that maximises `|A[i][i]|`. -/
theorem PanelFull_argmax (S : Scalars F R) (habs : ∀ x, 0 ≤ S.Abs x) (A X Y : Matrix F)
    (m k : Nat) (hA : A.height = m ∧ A.width = m) (hX : X.height = m ∧ X.width = k)
    (hY : Y.height = m ∧ Y.width = k) (hm : 0 < m) :
    (pivot.PanelFull S A X Y).nb = 1
    ∧ (pivot.PanelFull S A X Y).from0 < m
    ∧ (∀ i, i < m →
        S.Abs (A.entry i i - ∑ j in Finset.range k, X.entry i j * Y.entry i j)
          ≤ S.Abs (A.entry (pivot.PanelFull S A X Y).from0 (pivot.PanelFull S A X Y).from0
              - ∑ j in Finset.range k, X.entry (pivot.PanelFull S A X Y).from0 j
                  * Y.entry (pivot.PanelFull S A X Y).from0 j))
    ∧ (k = 0 → pivot.PanelFull S A X Y = pivot.Full S A
        ∧ ∀ i, i < m → S.Abs (A.entry i i)
            ≤ S.Abs (A.entry (pivot.Full S A).from0 (pivot.Full S A).from0)) := by
  have hmin : min A.height A.width = m := by rw [hA.1, hA.2]; exact Nat.min_self m
  have hlt : (pivot.PanelFull S A X Y).from0 < m := by
    have := PanelFull_from0_lt S A X Y (by rw [hmin]; exact hm)
    rwa [hmin] at this
  have hmax : ∀ i, i < m →
        S.Abs (A.entry i i - ∑ j in Finset.range k, X.entry i j * Y.entry i j)
          ≤ S.Abs (A.entry (pivot.PanelFull S A X Y).from0 (pivot.PanelFull S A X Y).from0
              - ∑ j in Finset.range k, X.entry (pivot.PanelFull S A X Y).from0 j
                  * Y.entry (pivot.PanelFull S A X Y).from0 j) := by
    intro i hi
    have h1 := VectorMaxAbs_max S habs (pivot.PanelFull.diag A X Y) i
      (by rw [PanelFull_diag_height, hmin]; exact hi)
    rw [PanelFull_diag_entry A X Y i (by rw [hmin]; exact hi),
      PanelFull_diag_entry A X Y _ (by rw [hmin]; exact hlt), hX.2] at h1
    exact h1
  refine ⟨rfl, hlt, hmax, fun hk => ?_⟩
  have hXw : X.width = 0 := by rw [hX.2]; exact hk
  have heq := PanelFull_eq_Full S A X Y hXw
  refine ⟨heq, fun i hi => ?_⟩
  have := hmax i hi
  rw [hk] at this
  simpa [heq] using this

/-- The permutation vector after iteration `k` of the panel. -/
theorem step_p (S : Scalars F R) (off n : Nat) (st : PanelState F) (k : Nat) :
    (LPanelPivoted.step S off n st k).p = RowSwap st.p k (k + (LPanelPivoted.pivotOf S off n st k)) := rfl

theorem vecEntry_row (x : Matrix α) (c : Nat) (hc : c < x.width) :
    x.vecEntry c = x.entry 0 c := by
  unfold Matrix.vecEntry
  split
  · have : c = 0 := by omega
    subst this; rfl
  · rfl

theorem step_entries (S : Scalars F R) (off n : Nat) (st : PanelState F) (k : Nat)
    (hn : off + n = st.AFull.height) (hk : k < n) :
    (∀ I J, (LPanelPivoted.step S off n st k).AFull.entry I J
      = if off + k ≤ I ∧ I < off + n ∧ J = off + k then
          if I = off + k then
            S.ofBase (S.RealPart (LPanelPivoted.column S off n st k k))
              - S.ofBase (S.RealPart (S.ofBase (S.RealPart (LPanelPivoted.column S off n st k k))))
              + S.ofBase (LPanelPivoted.delta S off n st k)
          else S.ofBase (1 / LPanelPivoted.delta S off n st k)
                * LPanelPivoted.column S off n st k (I - off)
        else (HermitianSwap S st.AFull (k + off)
                (k + LPanelPivoted.pivotOf S off n st k + off)).entry I J)
    ∧ (∀ i j, (LPanelPivoted.step S off n st k).X.entry i j
      = if k + 1 ≤ i ∧ i < n ∧ j = k then
          S.ofBase (1 / LPanelPivoted.delta S off n st k) * LPanelPivoted.column S off n st k i
        else if k ≤ i ∧ i < n ∧ j < k then
          st.X.entry (Equiv.swap k (k + LPanelPivoted.pivotOf S off n st k) i) j
        else st.X.entry i j)
    ∧ (∀ i j, (LPanelPivoted.step S off n st k).Y.entry i j
      = if k + 1 ≤ i ∧ i < n ∧ j = k then
          S.Conj (S.ofBase (1 / LPanelPivoted.delta S off n st k)
            * LPanelPivoted.column S off n st k i)
        else if k ≤ i ∧ i < n ∧ j < k then
          st.Y.entry (Equiv.swap k (k + LPanelPivoted.pivotOf S off n st k) i) j
        else st.Y.entry i j) := by
  set piv := LPanelPivoted.pivotOf S off n st k with hpiv
  set A1 := HermitianSwap S st.AFull (k + off) (k + piv + off) with hA1
  set X1 := st.X.Store ⟨k, n⟩ ⟨0, k⟩ (RowSwap (View st.X ⟨k, n⟩ ⟨0, k⟩) 0 piv) with hX1
  set Y1 := st.Y.Store ⟨k, n⟩ ⟨0, k⟩ (RowSwap (View st.Y ⟨k, n⟩ ⟨0, k⟩) 0 piv) with hY1
  set V1 := View A1 ⟨off, st.AFull.height⟩ ⟨off, st.AFull.height⟩ with hV1
  set V2 := V1.Store ⟨k, n⟩ ⟨k, k + 1⟩
    (Gemv (-1) (View X1 ⟨k, n⟩ ⟨0, k⟩) (LockedView Y1 ⟨k, k + 1⟩ ⟨0, k⟩) 1 (View V1 ⟨k, n⟩ ⟨k, k + 1⟩))
    with hV2
  set V3 := V2.Store ⟨k, n⟩ ⟨k, k + 1⟩ ((View V2 ⟨k, n⟩ ⟨k, k + 1⟩).MakeReal S 0 0) with hV3
  set delta11 := S.Sqrt (V3.GetRealPart S k k) with hdelta
  set V4 := V3.SetRealPart S k k delta11 with hV4
  set V5 := V4.Store ⟨k + 1, n⟩ ⟨k, k + 1⟩ (Scale S (1 / delta11) (View V4 ⟨k + 1, n⟩ ⟨k, k + 1⟩)) with hV5
  have e1 : ∀ i c, k ≤ i → i < n → c < k → X1.entry i c = st.X.entry (Equiv.swap k (k + piv) i) c := by
    intro i c h1 h2 h3
    have : k + Equiv.swap 0 piv (i - k) = Equiv.swap k (k + piv) i := by
      rw [swap_add_left]; congr 1; omega
    simp [hX1, h1, h2, h3, this]
  have e1' : ∀ i c, k ≤ i → i < n → c < k → Y1.entry i c = st.Y.entry (Equiv.swap k (k + piv) i) c := by
    intro i c h1 h2 h3
    have : k + Equiv.swap 0 piv (i - k) = Equiv.swap k (k + piv) i := by
      rw [swap_add_left]; congr 1; omega
    simp [hY1, h1, h2, h3, this]
  have e2 : ∀ i j, V2.entry i j = if k ≤ i ∧ i < n ∧ j = k then LPanelPivoted.column S off n st k i
      else A1.entry (off + i) (off + j) := by
    intro i j
    by_cases h : k ≤ i ∧ i < n ∧ j = k
    · obtain ⟨h1, h2, hj⟩ := h
      rw [hj]
      have hik : k + (i - k) = i := by omega
      have hw : i - k < n - k := by omega
      simp only [hV2, Store_entry, h1, h2, le_refl, Nat.lt_succ_self, and_self, if_true, Gemv,
        View_height, View_width, Nat.sub_self, hw, Nat.sub_zero, View_entry, hik, Nat.zero_add,
        Nat.add_zero, LPanelPivoted.column]
      congr 1
      · congr 1
        apply Finset.sum_congr rfl
        intro c hc
        have hc' : c < k := Finset.mem_range.mp hc
        rw [vecEntry_row _ _ (by simpa [LockedView] using hc')]
        simp only [LockedView, View_entry, Nat.add_zero, Nat.zero_add]
        rw [e1 i c h1 h2 hc', e1' k c (le_refl _) hk hc', Equiv.swap_apply_left]
    · simp only [hV2, Store_entry]
      have : ¬ (k ≤ i ∧ i < n ∧ k ≤ j ∧ j < k + 1) := by
        intro h'; apply h; exact ⟨h'.1, h'.2.1, by omega⟩
      simp only [this, if_false, h, hV1, View_entry]
  have e3 : ∀ i j, V3.entry i j = if i = k ∧ j = k then
        S.ofBase (S.RealPart (LPanelPivoted.column S off n st k k))
      else V2.entry i j := by
    intro i j
    simp only [hV3, Store_entry, Matrix.MakeReal, Set_entry, View_entry, Nat.add_zero]
    by_cases h : i = k ∧ j = k
    · rw [h.1, h.2]
      simp [hk, e2]
    · simp only [h, if_false]
      split_ifs with h1 h2
      · exfalso; apply h; omega
      · congr 1 <;> omega
      · rfl
  have e4 : ∀ i j, V4.entry i j = if i = k ∧ j = k then
        S.ofBase (S.RealPart (LPanelPivoted.column S off n st k k))
          - S.ofBase (S.RealPart (S.ofBase (S.RealPart (LPanelPivoted.column S off n st k k))))
          + S.ofBase (LPanelPivoted.delta S off n st k)
      else V2.entry i j := by
    intro i j
    have hd : delta11 = LPanelPivoted.delta S off n st k := by
      simp [hdelta, Matrix.GetRealPart, e3, LPanelPivoted.delta]
    simp only [hV4, Matrix.SetRealPart, Set_entry, e3, hd]
    by_cases h : i = k ∧ j = k
    · simp [h]
    · simp [h]
  have hd : delta11 = LPanelPivoted.delta S off n st k := by
    simp [hdelta, Matrix.GetRealPart, e3, LPanelPivoted.delta]
  have e5 : ∀ i j, V5.entry i j = if k ≤ i ∧ i < n ∧ j = k then
        if i = k then
          S.ofBase (S.RealPart (LPanelPivoted.column S off n st k k))
            - S.ofBase (S.RealPart (S.ofBase (S.RealPart (LPanelPivoted.column S off n st k k))))
            + S.ofBase (LPanelPivoted.delta S off n st k)
        else S.ofBase (1 / LPanelPivoted.delta S off n st k) * LPanelPivoted.column S off n st k i
      else A1.entry (off + i) (off + j) := by
    intro i j
    simp only [hV5, Store_entry, Scale, View_entry, e4, e2, hd]
    by_cases h1 : k + 1 ≤ i ∧ i < n ∧ k ≤ j ∧ j < k + 1
    · have hj : j = k := by omega
      rw [hj] at h1 ⊢
      have hik : k + 1 + (i - (k + 1)) = i := by omega
      have h2 : k ≤ i ∧ i < n := ⟨by omega, h1.2.1⟩
      have h3 : ¬ i = k := by omega
      simp [h1, hik, h2, h3]
    · simp only [h1, if_false]
      by_cases h2 : i = k ∧ j = k
      · rw [h2.1, h2.2]
        simp [hk]
      · simp only [h2, if_false]
        by_cases h3 : k ≤ i ∧ i < n ∧ j = k
        · exfalso
          omega
        · simp [h3]
  have e6 : ∀ (Z : Matrix F) (i j : Nat), (∀ i c, k ≤ i → i < n → c < k →
        (Z.Store ⟨k, n⟩ ⟨0, k⟩ (RowSwap (View Z ⟨k, n⟩ ⟨0, k⟩) 0 piv)).entry i c
          = Z.entry (Equiv.swap k (k + piv) i) c) →
      (Z.Store ⟨k, n⟩ ⟨0, k⟩ (RowSwap (View Z ⟨k, n⟩ ⟨0, k⟩) 0 piv)).entry i j
        = if k ≤ i ∧ i < n ∧ j < k then Z.entry (Equiv.swap k (k + piv) i) j else Z.entry i j := by
    intro Z i j hZ
    by_cases h : k ≤ i ∧ i < n ∧ j < k
    · rw [if_pos h]; exact hZ i j h.1 h.2.1 h.2.2
    · rw [if_neg h]
      have : ¬ (k ≤ i ∧ i < n ∧ 0 ≤ j ∧ j < k) := fun h' => h ⟨h'.1, h'.2.1, h'.2.2.2⟩
      simp only [Store_entry, this, if_false]
  refine ⟨?_, ?_, ?_⟩
  rotate_left
  · intro i j
    show (X1.Store ⟨k + 1, n⟩ ⟨k, k + 1⟩ (View V5 ⟨k + 1, n⟩ ⟨k, k + 1⟩)).entry i j = _
    simp only [Store_entry, View_entry, e5]
    by_cases h1 : k + 1 ≤ i ∧ i < n ∧ j = k
    · have h2 : k + 1 ≤ i ∧ i < n ∧ k ≤ j ∧ j < k + 1 := by omega
      have hik : k + 1 + (i - (k + 1)) = i := by omega
      have h3 : k ≤ i ∧ i < n := by omega
      have h4 : ¬ i = k := by omega
      simp [h1, h2, hik, h3, h4]
    · have h2 : ¬ (k + 1 ≤ i ∧ i < n ∧ k ≤ j ∧ j < k + 1) := by omega
      simp only [h1, h2, if_false]
      exact e6 st.X i j e1
  · intro i j
    show (Y1.Store ⟨k + 1, n⟩ ⟨k, k + 1⟩ (Conjugate S (View V5 ⟨k + 1, n⟩ ⟨k, k + 1⟩))).entry i j = _
    simp only [Store_entry, View_entry, Conjugate, e5]
    by_cases h1 : k + 1 ≤ i ∧ i < n ∧ j = k
    · have h2 : k + 1 ≤ i ∧ i < n ∧ k ≤ j ∧ j < k + 1 := by omega
      have hik : k + 1 + (i - (k + 1)) = i := by omega
      have h3 : k ≤ i ∧ i < n := by omega
      have h4 : ¬ i = k := by omega
      simp [h1, h2, hik, h3, h4]
    · have h2 : ¬ (k + 1 ≤ i ∧ i < n ∧ k ≤ j ∧ j < k + 1) := by omega
      simp only [h1, h2, if_false]
      exact e6 st.Y i j e1'
  intro I J
  show (A1.Store ⟨off, st.AFull.height⟩ ⟨off, st.AFull.height⟩ V5).entry I J = _
  simp only [Store_entry, e5]
  by_cases h1 : off ≤ I ∧ I < st.AFull.height ∧ off ≤ J ∧ J < st.AFull.height
  · have hI : off + (I - off) = I := by omega
    have hJ : off + (J - off) = J := by omega
    simp only [h1, and_self, if_true, hI, hJ]
    by_cases h2 : off + k ≤ I ∧ I < off + n ∧ J = off + k
    · have h3 : k ≤ I - off ∧ I - off < n ∧ J - off = k := by omega
      simp only [h2, h3, and_self, if_true]
      by_cases h4 : I = off + k
      · have h5 : I - off = k := by omega
        simp [h4, h5]
      · have h5 : ¬ I - off = k := by omega
        simp [h4, h5]
    · have h3 : ¬ (k ≤ I - off ∧ I - off < n ∧ J - off = k) := by omega
      simp only [h2, h3, if_false]
  · have h2 : ¬ (off + k ≤ I ∧ I < off + n ∧ J = off + k) := by omega
    simp only [h1, h2, if_false]

theorem step_dims (S : Scalars F R) (off n : Nat) (st : PanelState F) (k : Nat) :
    (LPanelPivoted.step S off n st k).AFull.height = st.AFull.height
    ∧ (LPanelPivoted.step S off n st k).AFull.width = st.AFull.width
    ∧ (LPanelPivoted.step S off n st k).p.height = st.p.height
    ∧ (LPanelPivoted.step S off n st k).p.width = st.p.width
    ∧ (LPanelPivoted.step S off n st k).X.height = st.X.height
    ∧ (LPanelPivoted.step S off n st k).X.width = st.X.width
    ∧ (LPanelPivoted.step S off n st k).Y.height = st.Y.height
    ∧ (LPanelPivoted.step S off n st k).Y.width = st.Y.width :=
  ⟨rfl, rfl, rfl, rfl, rfl, rfl, rfl, rfl⟩

theorem pivotOf_lt (S : Scalars F R) (off n : Nat) (st : PanelState F) (k : Nat) (hk : k < n) :
    LPanelPivoted.pivotOf S off n st k < n - k := by
  unfold LPanelPivoted.pivotOf
  have := PanelFull_from0_lt S
    (View (View st.AFull ⟨off, st.AFull.height⟩ ⟨off, st.AFull.height⟩) ⟨k, n⟩ ⟨k, n⟩)
    (View st.X ⟨k, n⟩ ⟨0, k⟩) (View st.Y ⟨k, n⟩ ⟨0, k⟩)
    (by simp only [View_height, View_width, Nat.min_self]; omega)
  simpa using this

theorem foldl_range_inv {σ : Type} (f : σ → Nat → σ) (P : Nat → σ → Prop) (n : Nat) (s0 : σ)
    (h0 : P 0 s0) (hstep : ∀ k s, k < n → P k s → P (k + 1) (f s k)) :
    P n ((List.range n).foldl f s0) := by
  induction n with
  | zero => simpa using h0
  | succ n ih =>
    rw [List.range_succ, List.foldl_append]
    simp only [List.foldl_cons, List.foldl_nil]
    exact hstep n _ (Nat.lt_succ_self n)
      (ih (fun k s hk hP => hstep k s (Nat.lt_succ_of_lt hk) hP))

theorem LPanelPivoted_returned (S : Scalars F R) (debug : Bool) (AFull : Matrix F)
    (p : Matrix Nat) (X Y : Matrix F) (bsize off : Nat)
    (hp : debug = false ∨ (p.height = AFull.height - off ∧ p.width = 1)) :
    LPanelPivoted S debug AFull p X Y bsize off
      = .returned ((List.range bsize).foldl (LPanelPivoted.step S off (AFull.height - off))
          { AFull := AFull, p := p, X := Zeros (AFull.height - off) bsize,
            Y := Zeros (AFull.height - off) bsize }) := by
  unfold LPanelPivoted
  simp only [View_height, View_width, ne_eq, not_true_eq_false, and_false, if_false]
  rcases hp with h | h
  · simp [h]
  · simp [h.1, h.2]

theorem LVar3_loop_rule (S : Scalars F R) (debug : Bool) (bsize n : Nat) (hb : 0 < bsize)
    (Inv : Nat → LVar3State F → Prop)
    (hstep : ∀ k st, k < n → Inv k st →
      ∃ r, LPanelPivoted S debug st.A (View st.p ⟨k, n⟩ ⟨0, 1⟩) st.XB1 st.YB1
            (min bsize (n - k)) k = .returned r ∧
        Inv (k + min bsize (n - k))
          { A := r.AFull.Store ⟨k + min bsize (n - k), n⟩ ⟨k + min bsize (n - k), n⟩
              (Trrk (-1) (LockedView r.X ⟨min bsize (n - k), n - k⟩ ⟨0, min bsize (n - k)⟩)
                (LockedView r.Y ⟨min bsize (n - k), n - k⟩ ⟨0, min bsize (n - k)⟩) 1
                (View r.AFull ⟨k + min bsize (n - k), n⟩ ⟨k + min bsize (n - k), n⟩)),
            p := st.p.Store ⟨k, n⟩ ⟨0, 1⟩ r.p, XB1 := r.X, YB1 := r.Y }) :
    ∀ fuel k st, n ≤ k + fuel → Inv (min k n) st →
      ∃ st', LVar3.loop S debug bsize n fuel k st = .returned st' ∧ Inv n st' := by
  intro fuel
  induction fuel with
  | zero =>
    intro k st hk hinv
    have hkn : ¬ k < n := by omega
    have hmin : min k n = n := by omega
    rw [hmin] at hinv
    exact ⟨st, by simp [LVar3.loop, hkn], hinv⟩
  | succ fuel ih =>
    intro k st hk hinv
    by_cases hkn : k < n
    · have hmin : min k n = k := by omega
      rw [hmin] at hinv
      obtain ⟨r, hr, hinv'⟩ := hstep k st hkn hinv
      have hmin' : min (k + bsize) n = k + min bsize (n - k) := by omega
      obtain ⟨st', hst', hfin⟩ := ih (k + bsize) _ (by omega) (by rw [hmin']; exact hinv')
      refine ⟨st', ?_, hfin⟩
      rw [LVar3.loop]
      simp only [hkn, if_true, hr]
      exact hst'
    · have hmin : min k n = n := by omega
      rw [hmin] at hinv
      exact ⟨st, by simp [LVar3.loop, hkn], hinv⟩

/-- `LVar3` on a square matrix, from the invariant of its loop. -/
theorem LVar3_rule (S : Scalars F R) (debug : Bool) (bsize : Nat) (hb : 0 < bsize)
    (A : Matrix F) (p : Matrix Nat) (hsq : A.height = A.width)
    (Inv : Nat → LVar3State F → Prop)
    (h0 : Inv 0 { A := A, p := initPerm p A.height, XB1 := Zeros 0 0, YB1 := Zeros 0 0 })
    (hstep : ∀ k st, k < A.height → Inv k st →
      ∃ r, LPanelPivoted S debug st.A (View st.p ⟨k, A.height⟩ ⟨0, 1⟩) st.XB1 st.YB1
            (min bsize (A.height - k)) k = .returned r ∧
        Inv (k + min bsize (A.height - k))
          { A := r.AFull.Store ⟨k + min bsize (A.height - k), A.height⟩
                ⟨k + min bsize (A.height - k), A.height⟩
              (Trrk (-1)
                (LockedView r.X ⟨min bsize (A.height - k), A.height - k⟩
                  ⟨0, min bsize (A.height - k)⟩)
                (LockedView r.Y ⟨min bsize (A.height - k), A.height - k⟩
                  ⟨0, min bsize (A.height - k)⟩) 1
                (View r.AFull ⟨k + min bsize (A.height - k), A.height⟩
                  ⟨k + min bsize (A.height - k), A.height⟩)),
            p := st.p.Store ⟨k, A.height⟩ ⟨0, 1⟩ r.p, XB1 := r.X, YB1 := r.Y }) :
    ∃ st : LVar3State F, LVar3 S debug bsize A p = .returned { A := st.A, p := st.p }
      ∧ Inv A.height st := by
  obtain ⟨st', h1, h2⟩ := LVar3_loop_rule S debug bsize A.height hb Inv hstep A.height 0
    { A := A, p := initPerm p A.height, XB1 := Zeros 0 0, YB1 := Zeros 0 0 } (by omega)
    (by simpa using h0)
  refine ⟨st', ?_, h2⟩
  unfold LVar3
  have : ¬ (debug = true ∧ A.height ≠ A.width) := fun h => h.2 hsq
  simp only [this, if_false, h1]

theorem initPerm_spec (p : Matrix Nat) (n : Nat) :
    (initPerm p n).height = n ∧ (initPerm p n).width = 1
      ∧ ∀ i, i < n → (initPerm p n).entry i 0 = i := by
  unfold initPerm
  have := foldl_range_inv (fun (q : Matrix Nat) i => q.Set i 0 i)
    (fun m q => q.height = n ∧ q.width = 1 ∧ ∀ i, i < m → q.entry i 0 = i) n (p.Resize n 1)
    ⟨rfl, rfl, fun i hi => absurd hi (Nat.not_lt_zero i)⟩
    (by
      intro k q _ hq
      refine ⟨hq.1, hq.2.1, fun i hi => ?_⟩
      simp only [Set_entry]
      by_cases h : i = k
      · simp [h]
      · have : i < k := by omega
        simp [h, hq.2.2 i this])
  exact this

/-- A vector read through a permutation of `0, ..., n-1` holds each of these once. -/
theorem perm_of_equiv (n : Nat) (p : Matrix Nat) (σ : Equiv.Perm Nat)
    (hσ : ∀ i, n ≤ i → σ i = i) (hp : ∀ i, i < n → p.entry i 0 = σ i) :
    ∀ v, v < n → ∃! i, i < n ∧ p.entry i 0 = v := by
  have hlt : ∀ i, i < n → σ.symm i < n := by
    intro i hi
    by_contra h
    have h1 := hσ (σ.symm i) (by omega)
    rw [Equiv.apply_symm_apply] at h1
    omega
  intro v hv
  refine ⟨σ.symm v, ⟨hlt v hv, ?_⟩, ?_⟩
  · rw [hp _ (hlt v hv), Equiv.apply_symm_apply]
  · rintro i ⟨hi, hiv⟩
    rw [hp i hi] at hiv
    rw [← hiv, Equiv.symm_apply_apply]

/-- The permutation vector of the panel after its iterations, read through a
permutation of the rows of the whole matrix. -/
theorem panel_perm (S : Scalars F R) (debug : Bool) (AFull : Matrix F) (pB : Matrix Nat)
    (X Y : Matrix F) (nb off n : Nat) (hA : AFull.height = n) (hnb : off + nb ≤ n)
    (hp : pB.height = n - off ∧ pB.width = 1) (σ : Equiv.Perm Nat)
    (hσ : ∀ i, n ≤ i → σ i = i) (hpσ : ∀ i, off + i < n → pB.entry i 0 = σ (off + i)) :
    ∃ r, LPanelPivoted S debug AFull pB X Y nb off = .returned r
      ∧ r.AFull.height = n ∧ r.p.height = n - off ∧ r.p.width = 1
      ∧ ∃ σ' : Equiv.Perm Nat, (∀ i, n ≤ i → σ' i = i) ∧ (∀ i, i < off → σ' i = σ i)
          ∧ ∀ i, off + i < n → r.p.entry i 0 = σ' (off + i) := by
  refine ⟨_, LPanelPivoted_returned S debug AFull pB X Y nb off (Or.inr (by rw [hA]; exact hp)), ?_⟩
  rw [hA]
  apply foldl_range_inv (LPanelPivoted.step S off (n - off))
    (fun _ (ps : PanelState F) => ps.AFull.height = n ∧ ps.p.height = n - off ∧ ps.p.width = 1
      ∧ ∃ σ' : Equiv.Perm Nat, (∀ i, n ≤ i → σ' i = i) ∧ (∀ i, i < off → σ' i = σ i)
          ∧ ∀ i, off + i < n → ps.p.entry i 0 = σ' (off + i))
  · exact ⟨hA, hp.1, hp.2, σ, hσ, fun _ _ => rfl, hpσ⟩
  · rintro k ps hk ⟨h1, h2, h3, σ', h4, h5, h6⟩
    have hkn : k < n - off := by omega
    have hpiv := pivotOf_lt S off (n - off) ps k hkn
    refine ⟨h1, h2, h3, σ' * Equiv.swap (off + k) (off + (k + LPanelPivoted.pivotOf S off (n - off) ps k)),
      ?_, ?_, ?_⟩
    · intro i hi
      rw [Equiv.Perm.mul_apply, swap_of_gt _ _ _ (by omega) (by omega)]
      exact h4 i hi
    · intro i hi
      rw [Equiv.Perm.mul_apply, swap_of_lt _ _ _ (by omega) (by omega)]
      exact h5 i hi
    · intro i hi
      rw [step_p, RowSwap_entry, Equiv.Perm.mul_apply, ← swap_add_left]
      apply h6
      have := swap_lt k (k + LPanelPivoted.pivotOf S off (n - off) ps k) i (n - off)
        (by omega) (by omega) (by omega)
      omega

theorem LUnblockedPivoted_returned (S : Scalars F R) (debug : Bool) (A : Matrix F)
    (p : Matrix Nat) (h : debug = false ∨ A.height = A.width) :
    LUnblockedPivoted S debug A p
      = .returned ((List.range A.height).foldl (LUnblockedPivoted.step S A.height)
          { A := A, p := initPerm p A.height }) := by
  unfold LUnblockedPivoted
  rcases h with h | h
  · simp [h]
  · simp [h]

/-- The permutation vector after `LVar3` on a square matrix. -/
theorem LVar3_perm_aux (S : Scalars F R) (debug : Bool) (bsize : Nat) (hb : 0 < bsize)
    (A : Matrix F) (p : Matrix Nat) (hsq : A.height = A.width) :
    ∃ st, LVar3 S debug bsize A p = .returned st ∧ IsPermutationVector A.height st.p := by
  obtain ⟨st, h1, h2⟩ := LVar3_rule S debug bsize hb A p hsq
    (fun _ st => st.A.height = A.height ∧ st.p.height = A.height ∧ st.p.width = 1
      ∧ ∃ σ : Equiv.Perm Nat, (∀ i, A.height ≤ i → σ i = i)
          ∧ ∀ i, i < A.height → st.p.entry i 0 = σ i)
    ⟨rfl, (initPerm_spec p A.height).1, (initPerm_spec p A.height).2.1, Equiv.refl _,
      fun _ _ => rfl, (initPerm_spec p A.height).2.2⟩
    (by
      rintro k st hk ⟨h1, h2, h3, σ, h4, h5⟩
      obtain ⟨r, hr, g1, g2, g3, σ', g4, g5, g6⟩ := panel_perm S debug st.A
        (View st.p ⟨k, A.height⟩ ⟨0, 1⟩) st.XB1 st.YB1 (min bsize (A.height - k)) k A.height
        h1 (by omega) ⟨rfl, rfl⟩ σ h4 (fun i hi => by simpa using h5 (k + i) hi)
      refine ⟨r, hr, g1, h2, h3, σ', g4, fun i hi => ?_⟩
      simp only [Store_entry]
      by_cases hik : k ≤ i
      · have : k ≤ i ∧ i < A.height ∧ 0 ≤ 0 ∧ 0 < 1 := ⟨hik, hi, le_refl _, Nat.one_pos⟩
        rw [if_pos this]
        have := g6 (i - k) (by omega)
        rw [show k + (i - k) = i by omega] at this
        simpa using this
      · have : ¬ (k ≤ i ∧ i < A.height ∧ 0 ≤ 0 ∧ 0 < 1) := fun h => hik h.1
        rw [if_neg this, h5 i hi, g5 i (by omega)])
  obtain ⟨g1, g2, g3, σ, g4, g5⟩ := h2
  exact ⟨_, h1, g2, g3, perm_of_equiv A.height st.p σ g4 g5⟩

theorem LUnblockedPivoted_pivot_lt (S : Scalars F R) (n : Nat) (A : Matrix F) (k : Nat)
    (hk : k < n) : (pivot.Full S (View A ⟨k, n⟩ ⟨k, n⟩)).from0 < n - k := by
  have := Full_from0_lt S (View A ⟨k, n⟩ ⟨k, n⟩)
    (by simp only [View_height, View_width, Nat.min_self]; omega)
  simpa using this

/-- The permutation vector after `LUnblockedPivoted` on a square matrix. -/
theorem LUnblockedPivoted_perm_aux (S : Scalars F R) (debug : Bool)
    (A : Matrix F) (p : Matrix Nat) (hsq : A.height = A.width) :
    ∃ st, LUnblockedPivoted S debug A p = .returned st ∧ IsPermutationVector A.height st.p := by
  refine ⟨_, LUnblockedPivoted_returned S debug A p (Or.inr hsq), ?_⟩
  have := foldl_range_inv (LUnblockedPivoted.step S A.height)
    (fun _ (st : FactorState F) => st.p.height = A.height ∧ st.p.width = 1
      ∧ ∃ σ : Equiv.Perm Nat, (∀ i, A.height ≤ i → σ i = i)
          ∧ ∀ i, i < A.height → st.p.entry i 0 = σ i) A.height
    { A := A, p := initPerm p A.height }
    ⟨(initPerm_spec p A.height).1, (initPerm_spec p A.height).2.1, Equiv.refl _,
      fun _ _ => rfl, (initPerm_spec p A.height).2.2⟩
    (by
      rintro k st hk ⟨h2, h3, σ, h4, h5⟩
      have hpiv := LUnblockedPivoted_pivot_lt S A.height st.A k hk
      refine ⟨h2, h3, σ * Equiv.swap k (k + (pivot.Full S (View st.A ⟨k, A.height⟩ ⟨k, A.height⟩)).from0),
        fun i hi => ?_, fun i hi => ?_⟩
      · rw [Equiv.Perm.mul_apply, swap_of_gt _ _ _ (by omega) (by omega)]
        exact h4 i hi
      · show st.p.entry (Equiv.swap k (k + (pivot.Full S (View st.A ⟨k, A.height⟩ ⟨k, A.height⟩)).from0) i) 0 = _
        rw [Equiv.Perm.mul_apply]
        exact h5 _ (swap_lt _ _ _ _ hk (by omega) hi))
  obtain ⟨g2, g3, σ, g4, g5⟩ := this
  exact ⟨g2, g3, perm_of_equiv A.height _ σ g4 g5⟩

/-- C2: for every square `n × n` input `A` (and block size at least one), after
the sequential `LVar3(A, p)`, and likewise after `LUnblockedPivoted(A, p)`, `p`
is an `n × 1` vector in which every index `0, ..., n-1` occurs exactly once. -/
theorem pivoted_cholesky_permutation (S : Scalars F R) (debug : Bool) (bsize : Nat)
    (hb : 0 < bsize) (A : Matrix F) (p : Matrix Nat) (n : Nat)
    (hA : A.height = n ∧ A.width = n) :
    (∃ st, LVar3 S debug bsize A p = .returned st ∧ IsPermutationVector n st.p)
    ∧ (∃ st, LUnblockedPivoted S debug A p = .returned st ∧ IsPermutationVector n st.p) := by
  have hsq : A.height = A.width := by rw [hA.1, hA.2]
  have h1 := LVar3_perm_aux S debug bsize hb A p hsq
  have h2 := LUnblockedPivoted_perm_aux S debug A p hsq
  rw [hA.1] at h1 h2
  exact ⟨h1, h2⟩

/-- The statement of `pivoted_cholesky_permutation` for the matrix of scenario
S1 with block size 2. -/
theorem pivoted_cholesky_permutation_witness :
    (∃ st, LVar3 ratScalars true 2 s1Matrix emptyPerm = .returned st
        ∧ IsPermutationVector 3 st.p)
    ∧ (∃ st, LUnblockedPivoted ratScalars true s1Matrix emptyPerm = .returned st
        ∧ IsPermutationVector 3 st.p) :=
  pivoted_cholesky_permutation ratScalars true 2 (by decide) s1Matrix emptyPerm 3 ⟨rfl, rfl⟩

/-- C3, as the code has it: the pivoted Cholesky routines contain no test of the
pivot.  On every square input (block size at least one) `LVar3` and
`LUnblockedPivoted` return normally, and so does `LPanelPivoted` on every panel
of `nb` columns that lies inside the matrix (`off + nb ≤ n`) and whose
permutation vector has the height of the trailing block, whatever the signs of
the pivots `Re(a_kk)`. -/
theorem pivoted_cholesky_returns (S : Scalars F R) (debug : Bool) (bsize nb off : Nat)
    (hb : 0 < bsize) (A : Matrix F) (p pB : Matrix Nat) (X Y : Matrix F)
    (hA : A.height = A.width) (hnb : off + nb ≤ A.height)
    (hp : pB.height = A.height - off ∧ pB.width = 1) :
    (LVar3 S debug bsize A p).isReturned = true
    ∧ (LUnblockedPivoted S debug A p).isReturned = true
    ∧ (LPanelPivoted S debug A pB X Y nb off).isReturned = true := by
  obtain ⟨st, h1, _⟩ := LVar3_perm_aux S debug bsize hb A p hA
  refine ⟨by rw [h1]; rfl, ?_, ?_⟩
  · rw [LUnblockedPivoted_returned S debug A p (Or.inr hA)]; rfl
  · rw [LPanelPivoted_returned S debug A pB X Y nb off (Or.inr hp)]; rfl

/-- The statement of `pivoted_cholesky_returns` for the 1 × 1 matrix `(-1)`. -/
theorem pivoted_cholesky_returns_witness :
    (LVar3 ratScalars true 1 negOneMatrix emptyPerm).isReturned = true
    ∧ (LUnblockedPivoted ratScalars true negOneMatrix emptyPerm).isReturned = true
    ∧ (LPanelPivoted ratScalars true negOneMatrix (initPerm emptyPerm 1) (Zeros 0 0) (Zeros 0 0)
        1 0).isReturned = true :=
  pivoted_cholesky_returns ratScalars true 1 1 0 (by decide) negOneMatrix emptyPerm
    (initPerm emptyPerm 1) (Zeros 0 0) (Zeros 0 0) rfl (by decide)
    ⟨(initPerm_spec emptyPerm 1).1, (initPerm_spec emptyPerm 1).2.1⟩

/-- C3 fails on the code: on the 1 × 1 matrix `(-1)` the only pivot is
`Re(a_00) = -1 ≤ 0`, and `LVar3`, `LUnblockedPivoted` and `LPanelPivoted` all
return normally instead of reporting an error. -/
theorem nonpositive_pivot_not_reported :
    ratScalars.RealPart (negOneMatrix.entry 0 0) ≤ 0
    ∧ LPanelPivoted.column ratScalars 0 1
        { AFull := negOneMatrix, p := initPerm emptyPerm 1, X := Zeros 1 1, Y := Zeros 1 1 } 0 0 = -1
    ∧ (LVar3 ratScalars true 1 negOneMatrix emptyPerm).isReturned = true
    ∧ (LUnblockedPivoted ratScalars true negOneMatrix emptyPerm).isReturned = true
    ∧ (LPanelPivoted ratScalars true negOneMatrix (initPerm emptyPerm 1) (Zeros 0 0) (Zeros 0 0)
        1 0).isReturned = true := by
  refine ⟨by decide, ?_, by decide, by decide, by decide⟩
  have h0 : LPanelPivoted.pivotOf ratScalars 0 1
      { AFull := negOneMatrix, p := initPerm emptyPerm 1, X := Zeros 1 1, Y := Zeros 1 1 } 0 = 0 := by
    have := pivotOf_lt ratScalars 0 1
      { AFull := negOneMatrix, p := initPerm emptyPerm 1, X := Zeros 1 1, Y := Zeros 1 1 } 0
      (by decide)
    omega
  simp only [LPanelPivoted.column, h0]
  simp [HermitianSwap, ratScalars, realScalars, negOneMatrix, Matrix.ofRows]

/-- C4, as the code has it: the squareness test is inside `DEBUG_ONLY`.  With the
debug checks compiled in, for every `A` whose height differs from its width
`LVar3(A, p)` and `LUnblockedPivoted(A, p)` raise the logic error
"A must be square" with `A` and `p` as they were passed. -/
theorem nonsquare_logic_error (S : Scalars F R) (bsize : Nat) (A : Matrix F) (p : Matrix Nat)
    (h : A.height ≠ A.width) :
    LVar3 S true bsize A p = .logicError "A must be square" { A := A, p := p }
    ∧ LUnblockedPivoted S true A p = .logicError "A must be square" { A := A, p := p } := by
  simp [LVar3, LUnblockedPivoted, h]

/-- The statement of `nonsquare_logic_error` for a 1 × 2 matrix. -/
theorem nonsquare_logic_error_witness :
    LVar3 ratScalars true 1 wideMatrix emptyPerm
      = .logicError "A must be square" { A := wideMatrix, p := emptyPerm }
    ∧ LUnblockedPivoted ratScalars true wideMatrix emptyPerm
      = .logicError "A must be square" { A := wideMatrix, p := emptyPerm } :=
  nonsquare_logic_error ratScalars 1 wideMatrix emptyPerm (by decide)

/-- C4 fails on the code: with the debug checks compiled out, `LVar3` and
`LUnblockedPivoted` on a 1 × 2 matrix do not raise; they set `p` and factor the
leading 1 × 1 block. -/
theorem nonsquare_release_proceeds :
    wideMatrix.height ≠ wideMatrix.width
    ∧ (∃ st, LVar3 ratScalars false 1 wideMatrix emptyPerm = .returned st ∧ st.p.height = 1)
    ∧ (∃ st, LUnblockedPivoted ratScalars false wideMatrix emptyPerm = .returned st
        ∧ st.p.height = 1) :=
  ⟨by decide, ⟨_, rfl, rfl⟩, ⟨_, rfl, rfl⟩⟩

/-- The statement of `PanelFull_argmax` for a 2 × 2 block and panels of one column. -/
theorem PanelFull_argmax_witness :
    (pivot.PanelFull ratScalars (Matrix.ofRows 2 2 [[1, 0], [0, 3]]) (Matrix.ofRows 2 1 [[1], [1]])
        (Matrix.ofRows 2 1 [[2], [1]])).nb = 1
    ∧ (pivot.PanelFull ratScalars (Matrix.ofRows 2 2 [[1, 0], [0, 3]])
        (Matrix.ofRows 2 1 [[1], [1]]) (Matrix.ofRows 2 1 [[2], [1]])).from0 < 2 :=
  let h := PanelFull_argmax ratScalars (fun x => abs_nonneg (x : ℚ)) (Matrix.ofRows 2 2 [[1, 0], [0, 3]])
    (Matrix.ofRows 2 1 [[1], [1]]) (Matrix.ofRows 2 1 [[2], [1]]) 2 1 ⟨rfl, rfl⟩ ⟨rfl, rfl⟩
    ⟨rfl, rfl⟩ (by decide)
  ⟨h.1, h.2.1⟩

namespace Scalars.Lawful

variable {S : Scalars F R}

theorem conj_zero (hS : S.Lawful) : S.Conj 0 = 0 := by
  have := hS.conj_add 0 0
  rw [add_zero] at this
  exact (self_eq_add_right.mp this)

theorem ofBase_zero (hS : S.Lawful) : S.ofBase 0 = 0 := by
  have := hS.ofBase_add 0 0
  rw [add_zero] at this
  exact (self_eq_add_right.mp this)

theorem conj_neg (hS : S.Lawful) (x : F) : S.Conj (-x) = -S.Conj x := by
  have := hS.conj_add x (-x)
  rw [add_neg_cancel, hS.conj_zero] at this
  exact (neg_eq_of_add_eq_zero_right this.symm).symm ▸ rfl

theorem conj_sub (hS : S.Lawful) (x y : F) : S.Conj (x - y) = S.Conj x - S.Conj y := by
  rw [sub_eq_add_neg, hS.conj_add, hS.conj_neg, ← sub_eq_add_neg]

theorem conj_one (hS : S.Lawful) : S.Conj 1 = 1 := by
  rw [← hS.ofBase_one, hS.conj_ofBase]

theorem conj_sum (hS : S.Lawful) {ι : Type} (s : Finset ι) (f : ι → F) :
    S.Conj (∑ i in s, f i) = ∑ i in s, S.Conj (f i) := by
  classical
  induction s using Finset.induction_on with
  | empty => simp [hS.conj_zero]
  | insert h ih => rw [Finset.sum_insert h, Finset.sum_insert h, hS.conj_add, ih]

theorem ofBase_ne_zero (hS : S.Lawful) (r : R) (hr : r ≠ 0) : S.ofBase r ≠ 0 := by
  intro h
  apply hr
  have := hS.re_ofBase r
  rw [h, ← hS.ofBase_zero, hS.re_ofBase] at this
  exact this.symm

theorem ofBase_inv_mul (hS : S.Lawful) (r : R) (hr : r ≠ 0) : S.ofBase (1 / r) * S.ofBase r = 1 := by
  rw [← hS.ofBase_mul, one_div, inv_mul_cancel₀ hr, hS.ofBase_one]

theorem ofBase_inv (hS : S.Lawful) (r : R) (hr : r ≠ 0) : S.ofBase (1 / r) = (S.ofBase r)⁻¹ :=
  eq_inv_of_mul_eq_one_left (hS.ofBase_inv_mul r hr)

end Scalars.Lawful

theorem sum_Ico_bot (g n : Nat) (hg : g < n) (f : Nat → F) :
    ∑ i in Finset.Ico g n, f i = f g + ∑ i in Finset.Ico (g + 1) n, f i :=
  Finset.sum_eq_sum_Ico_succ_bot hg f

theorem posDefOn_pivot (S : Scalars F R) (hS : S.Lawful) (M : Nat → Nat → F) (g n : Nat)
    (hg : g < n) (hH : ∀ i j, g ≤ i → i < n → g ≤ j → j < n → M j i = S.Conj (M i j))
    (hpd : PosDefOn S g n M) :
    0 < S.RealPart (M g g) ∧ S.ofBase (S.RealPart (M g g)) = M g g := by
  constructor
  · have h := hpd (fun i => if i = g then 1 else 0) ⟨g, le_refl _, hg, by simp⟩
    have hsum : (∑ i in Finset.Ico g n, ∑ j in Finset.Ico g n,
        S.Conj (if i = g then (1 : F) else 0) * M i j * (if j = g then (1 : F) else 0)) = M g g := by
      rw [Finset.sum_eq_single g]
      · rw [Finset.sum_eq_single g]
        · simp [hS.conj_one]
        · intro j _ hj; simp [hj]
        · intro h'; exact absurd (Finset.mem_Ico.mpr ⟨le_refl _, hg⟩) h'
      · intro i _ hi
        apply Finset.sum_eq_zero
        intro j _
        simp [hi, hS.conj_zero]
      · intro h'; exact absurd (Finset.mem_Ico.mpr ⟨le_refl _, hg⟩) h'
    rw [hsum] at h
    exact h
  · exact hS.ofBase_re _ (hH g g (le_refl _) hg (le_refl _) hg).symm

theorem posDefOn_schur_step (S : Scalars F R) (hS : S.Lawful) (M : Nat → Nat → F) (g n : Nat)
    (hg : g < n) (hH : ∀ i j, g ≤ i → i < n → g ≤ j → j < n → M j i = S.Conj (M i j))
    (hpd : PosDefOn S g n M) :
    PosDefOn S (g + 1) n (fun i j => M i j
      - (S.ofBase (1 / S.Sqrt (S.RealPart (M g g))) * M i g)
        * S.Conj (S.ofBase (1 / S.Sqrt (S.RealPart (M g g))) * M j g)) := by
  obtain ⟨hpos, hreal⟩ := posDefOn_pivot S hS M g n hg hH hpd
  set s := S.RealPart (M g g) with hs
  set δ := S.Sqrt s with hδ
  have hδpos : 0 < δ := hS.sqrt_pos s hpos
  have hδne : δ ≠ 0 := ne_of_gt hδpos
  set a := S.ofBase (1 / δ) with ha
  set m := M g g with hm
  have hconja : S.Conj a = a := hS.conj_ofBase _
  have haa : a * a * m = 1 := by
    rw [← hreal, ha, ← hS.ofBase_mul, ← hS.ofBase_mul, ← hS.sqrt_mul_self s hpos, ← hδ]
    have : 1 / δ * (1 / δ) * (δ * δ) = 1 := by field_simp
    rw [this, hS.ofBase_one]
  intro y hy
  obtain ⟨i0, hi0g, hi0n, hyi0⟩ := hy
  set u := ∑ j in Finset.Ico (g + 1) n, M g j * y j with hu
  set v := ∑ i in Finset.Ico (g + 1) n, S.Conj (y i) * M i g with hv
  have huv : S.Conj u = v := by
    rw [hu, hv, hS.conj_sum]
    apply Finset.sum_congr rfl
    intro j hj
    have hj' := Finset.mem_Ico.mp hj
    rw [hS.conj_mul, ← hH g j (le_refl _) hg (by omega) hj'.2, mul_comm]
  set t := -(a * a * u) with ht
  have hconjt : S.Conj t = -(a * a * v) := by
    rw [ht, hS.conj_neg, hS.conj_mul, hS.conj_mul, hconja, huv]
  set x : Nat → F := fun i => if i = g then t else y i with hx
  have hxy : ∀ i, i ∈ Finset.Ico (g + 1) n → x i = y i := by
    intro i hi
    have := Finset.mem_Ico.mp hi
    have : ¬ i = g := by omega
    simp [hx, this]
  have hxg : x g = t := by simp [hx]
  have hQ := hpd x ⟨i0, by omega, hi0n, by
    have : ¬ i0 = g := by omega
    simpa [hx, this] using hyi0⟩
  set Q' := ∑ i in Finset.Ico (g + 1) n, ∑ j in Finset.Ico (g + 1) n, S.Conj (y i) * M i j * y j
    with hQ'
  have e1 : (∑ i in Finset.Ico g n, ∑ j in Finset.Ico g n, S.Conj (x i) * M i j * x j)
      = S.Conj t * m * t + S.Conj t * u + v * t + Q' := by
    rw [sum_Ico_bot g n hg, sum_Ico_bot g n hg, hxg]
    have h1 : ∑ j in Finset.Ico (g + 1) n, S.Conj t * M g j * x j = S.Conj t * u := by
      rw [hu, Finset.mul_sum]
      apply Finset.sum_congr rfl
      intro j hj
      rw [hxy j hj, mul_assoc]
    have h2 : ∑ i in Finset.Ico (g + 1) n, ∑ j in Finset.Ico g n, S.Conj (x i) * M i j * x j
        = v * t + Q' := by
      rw [hv, hQ', Finset.sum_mul, ← Finset.sum_add_distrib]
      apply Finset.sum_congr rfl
      intro i hi
      rw [sum_Ico_bot g n hg, hxg, hxy i hi]
      congr 1
      apply Finset.sum_congr rfl
      intro j hj
      rw [hxy j hj]
    rw [h1, h2]
    ring
  have e2 : (∑ i in Finset.Ico (g + 1) n, ∑ j in Finset.Ico (g + 1) n,
      S.Conj (y i) * (M i j - a * M i g * S.Conj (a * M j g)) * y j) = Q' - a * a * (v * u) := by
    have h3 : ∀ i ∈ Finset.Ico (g + 1) n, ∀ j ∈ Finset.Ico (g + 1) n,
        S.Conj (y i) * (M i j - a * M i g * S.Conj (a * M j g)) * y j
          = S.Conj (y i) * M i j * y j - a * a * ((S.Conj (y i) * M i g) * (M g j * y j)) := by
      intro i hi j hj
      have hj' := Finset.mem_Ico.mp hj
      rw [hS.conj_mul, hconja, ← hH j g (by omega) hj'.2 (le_refl _) hg]
      ring
    have h4 : (∑ i in Finset.Ico (g + 1) n, ∑ j in Finset.Ico (g + 1) n,
        S.Conj (y i) * (M i j - a * M i g * S.Conj (a * M j g)) * y j)
        = ∑ i in Finset.Ico (g + 1) n, ∑ j in Finset.Ico (g + 1) n,
          (S.Conj (y i) * M i j * y j - a * a * ((S.Conj (y i) * M i g) * (M g j * y j))) :=
      Finset.sum_congr rfl (fun i hi => Finset.sum_congr rfl (fun j hj => h3 i hi j hj))
    rw [h4]
    simp only [Finset.sum_sub_distrib]
    rw [← hQ']
    congr 1
    rw [hv, hu, Finset.sum_mul_sum, Finset.mul_sum]
    apply Finset.sum_congr rfl
    intro i _
    rw [Finset.mul_sum]
  show 0 < S.RealPart (∑ i in Finset.Ico (g + 1) n, ∑ j in Finset.Ico (g + 1) n,
      S.Conj (y i) * (M i j - a * M i g * S.Conj (a * M j g)) * y j)
  rw [e2]
  rw [e1, hconjt, ht] at hQ
  have e3 : -(a * a * v) * m * -(a * a * u) + -(a * a * v) * u + v * -(a * a * u) + Q'
      = Q' - a * a * (v * u) := by
    have : -(a * a * v) * m * -(a * a * u) = (a * a * m) * (a * a * (v * u)) := by ring
    rw [this, haa]
    ring
  rw [e3] at hQ
  exact hQ

theorem perm_lt_of_fix (π : Equiv.Perm Nat) (n : Nat) (hfix : ∀ i, n ≤ i → π i = i) (i : Nat)
    (hi : i < n) : π i < n := by
  by_contra h
  have h1 := hfix (π i) (by omega)
  have := π.injective h1
  omega

theorem schur_conj (S : Scalars F R) (hS : S.Lawful) (n : Nat) (A0 : Matrix F)
    (hH : IsHermitian S n A0) (π : Equiv.Perm Nat) (hfix : ∀ i, n ≤ i → π i = i) (L : Matrix F)
    (g i j : Nat) (hi : i < n) (hj : j < n) :
    schur S A0 π L g j i = S.Conj (schur S A0 π L g i j) := by
  unfold schur
  rw [hS.conj_sub, hS.conj_sum, hH (π i) (π j) (perm_lt_of_fix π n hfix i hi)
    (perm_lt_of_fix π n hfix j hj)]
  congr 1
  apply Finset.sum_congr rfl
  intro c _
  rw [hS.conj_mul, hS.conj_conj, mul_comm]

/-- `HermitianSwap` on a finished column: the rows are exchanged. -/
theorem HermitianSwap_left (S : Scalars F R) (A : Matrix F) (a b I J : Nat) (hab : a ≤ b)
    (hJ : J < a) (hJI : J ≤ I) (hI : I < A.height) :
    (HermitianSwap S A a b).entry I J = A.entry (Equiv.swap a b I) J := by
  unfold HermitianSwap
  simp only [hJI, hI, and_self, if_true]
  by_cases h : I = J
  · have h1 : ¬ (I = a ∨ I = b) := by omega
    rw [if_pos h, if_neg h1, swap_of_lt a b I (by omega) (by omega), h]
  · rw [if_neg h]
    have h2 : Equiv.swap a b J = J := swap_of_lt a b J hJ (by omega)
    have h3 : J ≤ Equiv.swap a b I := by
      simp only [Equiv.swap_apply_def]
      split_ifs <;> omega
    simp only [Matrix.hermEntry, h2, h3, if_true]

/-- `HermitianSwap` on the trailing lower triangle, which holds the lower
triangle of a Hermitian `T`: rows and columns are exchanged. -/
theorem HermitianSwap_trail (S : Scalars F R) (hS : S.Lawful) (A : Matrix F) (T : Nat → Nat → F)
    (a b n I J : Nat) (hab : a ≤ b) (hb : b < n) (hn : A.height = n)
    (hT : ∀ i j, a ≤ j → j ≤ i → i < n → A.entry i j = T i j)
    (hTH : ∀ i j, a ≤ i → i < n → a ≤ j → j < n → T j i = S.Conj (T i j))
    (hJ : a ≤ J) (hJI : J ≤ I) (hI : I < n) :
    (HermitianSwap S A a b).entry I J = T (Equiv.swap a b I) (Equiv.swap a b J) := by
  have hsI : a ≤ Equiv.swap a b I := swap_ge a b I a (le_refl _) hab (by omega)
  have hsJ : a ≤ Equiv.swap a b J := swap_ge a b J a (le_refl _) hab hJ
  have hsI' : Equiv.swap a b I < n := swap_lt a b I n (by omega) hb hI
  have hsJ' : Equiv.swap a b J < n := swap_lt a b J n (by omega) hb (by omega)
  unfold HermitianSwap
  rw [hn]
  simp only [hJI, hI, and_self, if_true]
  by_cases h : I = J
  · rw [if_pos h, ← h]
    by_cases h1 : I = a ∨ I = b
    · rw [if_pos h1, hT _ _ hsI (le_refl _) hsI']
      exact hS.ofBase_re _ (hTH _ _ hsI hsI' hsI hsI').symm
    · rw [if_neg h1, hT I I (by omega) (le_refl _) hI]
      have : Equiv.swap a b I = I := by
        simp only [Equiv.swap_apply_def]
        split_ifs <;> omega
      rw [this]
  · rw [if_neg h]
    unfold Matrix.hermEntry
    by_cases h2 : Equiv.swap a b J ≤ Equiv.swap a b I
    · rw [if_pos h2, hT _ _ hsJ h2 hsI']
    · rw [if_neg h2, hT _ _ hsI (by omega) hsJ', hTH _ _ hsJ hsJ' hsI hsI']

theorem posDefOn_swap (S : Scalars F R) (g n a b : Nat) (M : Nat → Nat → F) (ha : g ≤ a)
    (ha' : a < n) (hb : g ≤ b) (hb' : b < n) (hpd : PosDefOn S g n M) :
    PosDefOn S g n (fun i j => M (Equiv.swap a b i) (Equiv.swap a b j)) := by
  intro y hy
  obtain ⟨i0, h1, h2, h3⟩ := hy
  have hsupp : {x | (Equiv.swap a b) x ≠ x} ⊆ (↑(Finset.Ico g n) : Set Nat) := by
    intro x hx
    simp only [Set.mem_setOf_eq] at hx
    simp only [Finset.coe_Ico, Set.mem_Ico]
    by_contra h
    apply hx
    simp only [Equiv.swap_apply_def]
    split_ifs <;> omega
  have key := hpd (fun i => y (Equiv.swap a b i)) ⟨Equiv.swap a b i0,
    swap_ge a b i0 g ha hb h1, swap_lt a b i0 n ha' hb' h2, by simpa using h3⟩
  have e : (∑ i in Finset.Ico g n, ∑ j in Finset.Ico g n,
      S.Conj (y i) * M (Equiv.swap a b i) (Equiv.swap a b j) * y j)
      = ∑ i in Finset.Ico g n, ∑ j in Finset.Ico g n,
        S.Conj (y (Equiv.swap a b i)) * M i j * y (Equiv.swap a b j) := by
    rw [← Equiv.Perm.sum_comp (Equiv.swap a b) (Finset.Ico g n) _ hsupp]
    apply Finset.sum_congr rfl
    intro i _
    rw [← Equiv.Perm.sum_comp (Equiv.swap a b) (Finset.Ico g n) _ hsupp]
    apply Finset.sum_congr rfl
    intro j _
    simp
  show 0 < S.RealPart (∑ i in Finset.Ico g n, ∑ j in Finset.Ico g n,
      S.Conj (y i) * M (Equiv.swap a b i) (Equiv.swap a b j) * y j)
  rw [e]
  exact key

theorem posDefOn_congr (S : Scalars F R) (g n : Nat) (M M' : Nat → Nat → F)
    (h : ∀ i j, g ≤ i → i < n → g ≤ j → j < n → M' i j = M i j) (hpd : PosDefOn S g n M) :
    PosDefOn S g n M' := by
  intro y hy
  have := hpd y hy
  have e : (∑ i in Finset.Ico g n, ∑ j in Finset.Ico g n, S.Conj (y i) * M' i j * y j)
      = ∑ i in Finset.Ico g n, ∑ j in Finset.Ico g n, S.Conj (y i) * M i j * y j := by
    apply Finset.sum_congr rfl
    intro i hi
    apply Finset.sum_congr rfl
    intro j hj
    have hi' := Finset.mem_Ico.mp hi
    have hj' := Finset.mem_Ico.mp hj
    rw [h i j hi'.1 hi'.2 hj'.1 hj'.2]
  rw [e]
  exact this

/-- Applying the pivot keeps the invariant, for the permutation composed with
the transposition. -/
theorem CholInv_swap (S : Scalars F R) (hS : S.Lawful) (n : Nat) (A0 : Matrix F)
    (hH : IsHermitian S n A0) (off g b : Nat) (L : Matrix F) (π : Equiv.Perm Nat)
    (hoff : off ≤ g) (hgb : g ≤ b) (hb : b < n) (h : CholInv S n A0 off g L π) :
    CholInv S n A0 off g (HermitianSwap S L g b) (π * Equiv.swap g b) := by
  have hfix' : ∀ i, n ≤ i → (π * Equiv.swap g b) i = i := by
    intro i hi
    rw [Equiv.Perm.mul_apply, swap_of_gt g b i (by omega) (by omega)]
    exact h.fix i hi
  have hleft : ∀ I J, J < g → J ≤ I → I < n →
      (HermitianSwap S L g b).entry I J = L.entry (Equiv.swap g b I) J := by
    intro I J h1 h2 h3
    exact HermitianSwap_left S L g b I J hgb h1 h2 (by rw [h.height]; exact h3)
  have hsum : ∀ m I J, m ≤ g → g ≤ I → I < n → g ≤ J → J < n →
      ∑ c in Finset.range m, (HermitianSwap S L g b).entry I c
          * S.Conj ((HermitianSwap S L g b).entry J c)
        = ∑ c in Finset.range m, L.entry (Equiv.swap g b I) c
          * S.Conj (L.entry (Equiv.swap g b J) c) := by
    intro m I J hm h1 h2 h3 h4
    apply Finset.sum_congr rfl
    intro c hc
    have hc' := Finset.mem_range.mp hc
    rw [hleft I c (by omega) (by omega) h2, hleft J c (by omega) (by omega) h4]
  have hschur : ∀ m I J, m ≤ g → g ≤ I → I < n → g ≤ J → J < n →
      schur S A0 (⇑(π * Equiv.swap g b)) (HermitianSwap S L g b) m I J
        = schur S A0 π L m (Equiv.swap g b I) (Equiv.swap g b J) := by
    intro m I J hm h1 h2 h3 h4
    unfold schur
    rw [hsum m I J hm h1 h2 h3 h4]
    rfl
  refine ⟨by rw [HermitianSwap_height]; exact h.height, hfix', ?_, ?_, ?_⟩
  · intro i j hj hji hi
    have hτj : Equiv.swap g b j = j := swap_of_lt g b j hj (by omega)
    have e : ∑ c in Finset.range (j + 1), (HermitianSwap S L g b).entry i c
          * S.Conj ((HermitianSwap S L g b).entry j c)
        = ∑ c in Finset.range (j + 1), L.entry (Equiv.swap g b i) c * S.Conj (L.entry j c) := by
      apply Finset.sum_congr rfl
      intro c hc
      have hc' := Finset.mem_range.mp hc
      rw [hleft i c (by omega) (by omega) hi, hleft j c (by omega) (by omega) (by omega), hτj]
    rw [e, Equiv.Perm.mul_apply, Equiv.Perm.mul_apply, hτj]
    apply h.fact _ _ hj _ (swap_lt g b i n (by omega) hb hi)
    simp only [Equiv.swap_apply_def]
    split_ifs <;> omega
  · intro i j hj hji hi
    rw [hschur off i j hoff (by omega) hi hj (by omega)]
    exact HermitianSwap_trail S hS L (schur S A0 π L off) g b n i j hgb hb h.height h.trail
      (fun i j _ hi _ hj => schur_conj S hS n A0 hH π h.fix L off i j hi hj) hj hji hi
  · apply posDefOn_congr S g n _ _ (fun i j h1 h2 h3 h4 => hschur g i j (le_refl _) h1 h2 h3 h4)
    exact posDefOn_swap S g n g b (schur S A0 π L g) (le_refl _) (by omega) hgb hb h.pd

/-- One iteration of the panel keeps the invariant. -/
theorem panel_step_inv (S : Scalars F R) (hS : S.Lawful) (n : Nat) (A0 : Matrix F)
    (hH : IsHermitian S n A0) (off k : Nat) (st : PanelState F) (π : Equiv.Perm Nat)
    (hk : off + k < n) (hinv : CholInv S n A0 off (off + k) st.AFull π)
    (hlink : PanelLink S n off k st.AFull st.X st.Y)
    (hp : ∀ i, off + i < n → st.p.entry i 0 = π (off + i)) :
    ∃ π' : Equiv.Perm Nat,
      CholInv S n A0 off (off + (k + 1)) (LPanelPivoted.step S off (n - off) st k).AFull π'
      ∧ PanelLink S n off (k + 1) (LPanelPivoted.step S off (n - off) st k).AFull
          (LPanelPivoted.step S off (n - off) st k).X (LPanelPivoted.step S off (n - off) st k).Y
      ∧ (∀ i, off + i < n → (LPanelPivoted.step S off (n - off) st k).p.entry i 0 = π' (off + i))
      ∧ (∀ i, i < off → π' i = π i) := by
  have hkn : k < n - off := by omega
  have hn : off + (n - off) = st.AFull.height := by rw [hinv.height]; omega
  have hpiv := pivotOf_lt S off (n - off) st k hkn
  obtain ⟨eA, eX, eY⟩ := step_entries S off (n - off) st k hn hkn
  set piv := LPanelPivoted.pivotOf S off (n - off) st k with hpivdef
  have hg : k + off = off + k := Nat.add_comm _ _
  have hb : k + piv + off = off + (k + piv) := Nat.add_comm _ _
  rw [hg, hb] at eA
  set g := off + k with hgdef
  set b := off + (k + piv) with hbdef
  have hgb : g ≤ b := by omega
  have hbn : b < n := by omega
  have hinv1 := CholInv_swap S hS n A0 hH off g b st.AFull π (by omega) hgb hbn hinv
  set A1 := HermitianSwap S st.AFull g b with hA1
  set π1 := π * Equiv.swap g b with hπ1
  have hleft : ∀ I J, J < g → J ≤ I → I < n → A1.entry I J = st.AFull.entry (Equiv.swap g b I) J := by
    intro I J h1 h2 h3
    exact HermitianSwap_left S st.AFull g b I J hgb h1 h2 (by rw [hinv.height]; exact h3)
  -- the panels after the row swap agree with the swapped matrix
  have hX1 : ∀ r c, c < k → k ≤ r → off + r < n →
      st.X.entry (Equiv.swap k (k + piv) r) c = A1.entry (off + r) (off + c) := by
    intro r c hc hr hrn
    have h1 : k ≤ Equiv.swap k (k + piv) r := swap_ge _ _ _ k (le_refl _) (by omega) hr
    have h2 : Equiv.swap k (k + piv) r < n - off := swap_lt _ _ _ _ hkn (by omega) (by omega)
    rw [(hlink _ c hc (by omega) (by omega)).1, hleft _ _ (by omega) (by omega) hrn, swap_add_left]
  have hY1 : ∀ r c, c < k → k ≤ r → off + r < n →
      st.Y.entry (Equiv.swap k (k + piv) r) c = S.Conj (A1.entry (off + r) (off + c)) := by
    intro r c hc hr hrn
    have h1 : k ≤ Equiv.swap k (k + piv) r := swap_ge _ _ _ k (le_refl _) (by omega) hr
    have h2 : Equiv.swap k (k + piv) r < n - off := swap_lt _ _ _ _ hkn (by omega) (by omega)
    rw [(hlink _ c hc (by omega) (by omega)).2, hleft _ _ (by omega) (by omega) hrn, swap_add_left]
  -- the updated column is a column of the Schur complement
  set M := schur S A0 π1 A1 g with hM
  have hcol : ∀ i, k ≤ i → off + i < n →
      LPanelPivoted.column S off (n - off) st k i = M (off + i) g := by
    intro i hi hin
    unfold LPanelPivoted.column
    simp only [← hpivdef]
    rw [hg, hb, ← hA1]
    have e1 : ∑ c in Finset.range k, st.X.entry (Equiv.swap k (k + piv) i) c * st.Y.entry (k + piv) c
        = ∑ c in Finset.range k, A1.entry (off + i) (off + c) * S.Conj (A1.entry g (off + c)) := by
      apply Finset.sum_congr rfl
      intro c hc
      have hc' := Finset.mem_range.mp hc
      have := hY1 k c hc' (le_refl _) hk
      rw [Equiv.swap_apply_left] at this
      rw [hX1 i c hc' hi hin, this]
    rw [e1, hinv1.trail (off + i) g (le_refl _) (by omega) hin, hM]
    unfold schur
    rw [hgdef, Finset.sum_range_add]
    ring
  have hMH : ∀ i j, g ≤ i → i < n → g ≤ j → j < n → M j i = S.Conj (M i j) :=
    fun i j _ hi _ hj => schur_conj S hS n A0 hH π1 hinv1.fix A1 g i j hi hj
  obtain ⟨hpos, hreal⟩ := posDefOn_pivot S hS M g n hk hMH hinv1.pd
  have hpd' := posDefOn_schur_step S hS M g n hk hMH hinv1.pd
  set s := S.RealPart (M g g) with hs
  set δ := S.Sqrt s with hδ
  have hδpos : 0 < δ := hS.sqrt_pos s hpos
  have hδne : δ ≠ 0 := ne_of_gt hδpos
  have hcolk : LPanelPivoted.column S off (n - off) st k k = M g g := hcol k (le_refl _) hk
  have hdelta : LPanelPivoted.delta S off (n - off) st k = δ := by
    unfold LPanelPivoted.delta
    rw [hcolk, hS.re_ofBase]
  rw [hcolk, hdelta] at eA
  simp only [hdelta] at eX eY
  have hoffn : off + (n - off) = n := by omega
  rw [hoffn] at eA
  set A' := (LPanelPivoted.step S off (n - off) st k).AFull with hA'
  -- the entries of the new matrix
  have hdiag : A'.entry g g = S.ofBase δ := by
    rw [eA]
    have : g ≤ g ∧ g < n ∧ g = g := ⟨le_refl _, hk, rfl⟩
    rw [if_pos this, if_pos rfl, hS.re_ofBase, sub_self, zero_add]
  have hbelow : ∀ I, g < I → I < n → A'.entry I g = S.ofBase (1 / δ) * M I g := by
    intro I h1 h2
    rw [eA]
    have : g ≤ I ∧ I < n ∧ g = g := ⟨by omega, h2, rfl⟩
    have h3 : ¬ I = g := by omega
    rw [if_pos this, if_neg h3, hcol (I - off) (by omega) (by omega)]
    congr 2
    omega
  have hother : ∀ I J, J ≠ g → A'.entry I J = A1.entry I J := by
    intro I J hJ
    rw [eA]
    have : ¬ (g ≤ I ∧ I < n ∧ J = g) := fun h => hJ h.2.2
    rw [if_neg this]
  have hdd : S.ofBase δ * S.ofBase δ = M g g := by
    rw [← hS.ofBase_mul, hδ, hS.sqrt_mul_self s hpos, hs, hreal]
  have hcolg : ∀ I, g ≤ I → I < n → A'.entry I g * S.Conj (A'.entry g g) = M I g := by
    intro I h1 h2
    rw [hdiag, hS.conj_ofBase]
    by_cases h : I = g
    · rw [h, hdiag, hdd]
    · rw [hbelow I (by omega) h2, mul_assoc, mul_comm (M I g), ← mul_assoc,
        hS.ofBase_inv_mul δ hδne, one_mul]
  have hsumlt : ∀ m I J, m ≤ g →
      ∑ c in Finset.range m, A'.entry I c * S.Conj (A'.entry J c)
        = ∑ c in Finset.range m, A1.entry I c * S.Conj (A1.entry J c) := by
    intro m I J hm
    apply Finset.sum_congr rfl
    intro c hc
    have hc' := Finset.mem_range.mp hc
    rw [hother I c (by omega), hother J c (by omega)]
  have hg1 : off + (k + 1) = g + 1 := by omega
  rw [hg1]
  refine ⟨π1, ⟨?_, hinv1.fix, ?_, ?_, ?_⟩, ?_, ?_, ?_⟩
  · exact hinv1.height
  · -- the finished columns
    intro i j hj hji hi
    by_cases hjg : j = g
    · rw [hjg, Finset.sum_range_succ, hsumlt g i g (le_refl _), hcolg i (by omega) hi, hM]
      unfold schur
      ring
    · rw [hsumlt (j + 1) i j (by omega)]
      exact hinv1.fact i j (by omega) hji hi
  · -- the trailing block
    intro i j hj hji hi
    rw [hother i j (by omega), hinv1.trail i j (by omega) hji hi]
    unfold schur
    rw [hsumlt off i j (by omega)]
  · -- positive definiteness of the next Schur complement
    apply posDefOn_congr S (g + 1) n _ _ _ hpd'
    intro i j h1 h2 h3 h4
    unfold schur
    rw [Finset.sum_range_succ, hsumlt g i j (le_refl _), hbelow i (by omega) h2,
      hbelow j (by omega) h4, hM]
    unfold schur
    ring
  · -- the panels
    intro r c hc hcr hrn
    by_cases hck : c = k
    · have h1 : k + 1 ≤ r ∧ r < n - off ∧ c = k := ⟨by omega, by omega, hck⟩
      rw [eX, eY, if_pos h1, if_pos h1, hck, hbelow (off + r) (by omega) hrn,
        hcol r (by omega) hrn]
      exact ⟨rfl, rfl⟩
    · have h1 : ¬ (k + 1 ≤ r ∧ r < n - off ∧ c = k) := fun h => hck h.2.2
      have hc' : c < k := by omega
      rw [eX, eY, if_neg h1, if_neg h1, hother _ _ (by omega)]
      by_cases h2 : k ≤ r
      · have h3 : k ≤ r ∧ r < n - off ∧ c < k := ⟨h2, by omega, hc'⟩
        rw [if_pos h3, if_pos h3]
        exact ⟨hX1 r c hc' h2 hrn, hY1 r c hc' h2 hrn⟩
      · have h3 : ¬ (k ≤ r ∧ r < n - off ∧ c < k) := fun h => h2 h.1
        rw [if_neg h3, if_neg h3, hleft _ _ (by omega) (by omega) hrn,
          swap_of_lt g b _ (by omega) (by omega)]
        exact hlink r c hc' hcr hrn
  · -- the permutation vector
    intro i hi
    rw [step_p, RowSwap_entry, ← hpivdef, hπ1, Equiv.Perm.mul_apply, hgdef, hbdef,
      ← swap_add_left]
    apply hp
    have := swap_lt k (k + piv) i (n - off) hkn (by omega) (by omega)
    omega
  · intro i hi
    rw [hπ1, Equiv.Perm.mul_apply, swap_of_lt g b i (by omega) (by omega)]

/-- The iterations of a panel keep the invariant. -/
theorem panel_inv (S : Scalars F R) (hS : S.Lawful) (n : Nat) (A0 : Matrix F)
    (hH : IsHermitian S n A0) (debug : Bool) (off nb : Nat) (AFull : Matrix F) (pB : Matrix Nat)
    (X Y : Matrix F) (π : Equiv.Perm Nat) (hnb : off + nb ≤ n)
    (hinv : CholInv S n A0 off off AFull π) (hpB : pB.height = n - off ∧ pB.width = 1)
    (hp : ∀ i, off + i < n → pB.entry i 0 = π (off + i)) :
    ∃ r, LPanelPivoted S debug AFull pB X Y nb off = .returned r
      ∧ ∃ π' : Equiv.Perm Nat, CholInv S n A0 off (off + nb) r.AFull π'
        ∧ PanelLink S n off nb r.AFull r.X r.Y
        ∧ (∀ i, off + i < n → r.p.entry i 0 = π' (off + i))
        ∧ (∀ i, i < off → π' i = π i) := by
  have hh : AFull.height = n := hinv.height
  refine ⟨_, LPanelPivoted_returned S debug AFull pB X Y nb off (Or.inr (by rw [hh]; exact hpB)), ?_⟩
  rw [hh]
  apply foldl_range_inv (LPanelPivoted.step S off (n - off))
    (fun j (ps : PanelState F) => ∃ π' : Equiv.Perm Nat, CholInv S n A0 off (off + j) ps.AFull π'
        ∧ PanelLink S n off j ps.AFull ps.X ps.Y
        ∧ (∀ i, off + i < n → ps.p.entry i 0 = π' (off + i))
        ∧ (∀ i, i < off → π' i = π i))
  · exact ⟨π, hinv, fun r c hc => absurd hc (Nat.not_lt_zero c), hp, fun _ _ => rfl⟩
  · rintro k ps hk ⟨π', h1, h2, h3, h4⟩
    obtain ⟨π'', g1, g2, g3, g4⟩ := panel_step_inv S hS n A0 hH off k ps π' (by omega) h1 h2 h3
    exact ⟨π'', g1, g2, g3, fun i hi => by rw [g4 i hi, h4 i hi]⟩

/-- The trailing update `Trrk` at the end of a panel brings the trailing block
up to date. -/
theorem trrk_inv (S : Scalars F R) (n : Nat) (A0 : Matrix F) (off nb : Nat)
    (L X Y : Matrix F) (π : Equiv.Perm Nat) (hnb : off + nb ≤ n)
    (hinv : CholInv S n A0 off (off + nb) L π) (hlink : PanelLink S n off nb L X Y) :
    CholInv S n A0 (off + nb) (off + nb)
      (L.Store ⟨off + nb, n⟩ ⟨off + nb, n⟩
        (Trrk (-1) (LockedView X ⟨nb, n - off⟩ ⟨0, nb⟩) (LockedView Y ⟨nb, n - off⟩ ⟨0, nb⟩) 1
          (View L ⟨off + nb, n⟩ ⟨off + nb, n⟩))) π := by
  set L' := L.Store ⟨off + nb, n⟩ ⟨off + nb, n⟩
        (Trrk (-1) (LockedView X ⟨nb, n - off⟩ ⟨0, nb⟩) (LockedView Y ⟨nb, n - off⟩ ⟨0, nb⟩) 1
          (View L ⟨off + nb, n⟩ ⟨off + nb, n⟩)) with hL'
  have hleft : ∀ I J, J < off + nb → L'.entry I J = L.entry I J := by
    intro I J hJ
    have : ¬ (off + nb ≤ I ∧ I < n ∧ off + nb ≤ J ∧ J < n) := by omega
    simp only [hL', Store_entry, this, if_false]
  have htrail : ∀ I J, off + nb ≤ J → J ≤ I → I < n →
      L'.entry I J = L.entry I J
        - ∑ c in Finset.range nb, L.entry I (off + c) * S.Conj (L.entry J (off + c)) := by
    intro I J h1 h2 h3
    have hw : off + nb ≤ I ∧ I < n ∧ off + nb ≤ J ∧ J < n := by omega
    have hw2 : J - (off + nb) ≤ I - (off + nb) ∧ I - (off + nb) < n - (off + nb) := by omega
    have hI : off + nb + (I - (off + nb)) = I := by omega
    have hJ : off + nb + (J - (off + nb)) = J := by omega
    simp only [hL', Store_entry, hw, and_self, if_true, Trrk, View_height, View_width, hw2,
      LockedView, View_entry, hI, hJ, Nat.sub_zero, Nat.zero_add]
    have e : ∑ c in Finset.range nb, X.entry (nb + (I - (off + nb))) c
          * Y.entry (nb + (J - (off + nb))) c
        = ∑ c in Finset.range nb, L.entry I (off + c) * S.Conj (L.entry J (off + c)) := by
      apply Finset.sum_congr rfl
      intro c hc
      have hc' := Finset.mem_range.mp hc
      have h4 := (hlink (nb + (I - (off + nb))) c hc' (by omega) (by omega)).1
      have h5 := (hlink (nb + (J - (off + nb))) c hc' (by omega) (by omega)).2
      have e1 : off + (nb + (I - (off + nb))) = I := by omega
      have e2 : off + (nb + (J - (off + nb))) = J := by omega
      rw [h4, h5, e1, e2]
    rw [e]
    ring
  have hsum : ∀ m I J, m ≤ off + nb →
      ∑ c in Finset.range m, L'.entry I c * S.Conj (L'.entry J c)
        = ∑ c in Finset.range m, L.entry I c * S.Conj (L.entry J c) := by
    intro m I J hm
    apply Finset.sum_congr rfl
    intro c hc
    have hc' := Finset.mem_range.mp hc
    rw [hleft I c (by omega), hleft J c (by omega)]
  refine ⟨hinv.height, hinv.fix, ?_, ?_, ?_⟩
  · intro i j hj hji hi
    rw [hsum (j + 1) i j (by omega)]
    exact hinv.fact i j hj hji hi
  · intro i j hj hji hi
    rw [htrail i j hj hji hi, hinv.trail i j hj hji hi]
    unfold schur
    rw [hsum (off + nb) i j (le_refl _), Finset.sum_range_add]
    ring
  · apply posDefOn_congr S (off + nb) n _ _ _ hinv.pd
    intro i j _ _ _ _
    unfold schur
    rw [hsum (off + nb) i j (le_refl _)]

theorem trilMulAdjoint_eq (S : Scalars F R) (hS : S.Lawful) (n : Nat) (A : Matrix F) (i j : Nat)
    (hji : j ≤ i) (hi : i < n) :
    A.trilMulAdjoint S n i j
      = ∑ c in Finset.range (j + 1), A.entry i c * S.Conj (A.entry j c) := by
  unfold Matrix.trilMulAdjoint Matrix.tril
  have hn : n = (j + 1) + (n - (j + 1)) := by omega
  rw [hn, Finset.sum_range_add]
  have h0 : ∑ x in Finset.range (n - (j + 1)),
      (if j + 1 + x ≤ i then A.entry i (j + 1 + x) else 0)
        * S.Conj (if j + 1 + x ≤ j then A.entry j (j + 1 + x) else 0) = 0 := by
    apply Finset.sum_eq_zero
    intro x _
    have : ¬ j + 1 + x ≤ j := by omega
    rw [if_neg this, hS.conj_zero, mul_zero]
  simp only
  rw [h0, add_zero]
  apply Finset.sum_congr rfl
  intro c hc
  have hc' := Finset.mem_range.mp hc
  have h1 : c ≤ i := by omega
  have h2 : c ≤ j := by omega
  rw [if_pos h1, if_pos h2]

/-- The factorisation computed by `LVar3` on a Hermitian positive-definite matrix. -/
theorem LVar3_factorisation_aux (S : Scalars F R) (hS : S.Lawful) (debug : Bool) (bsize : Nat)
    (hb : 0 < bsize) (A0 : Matrix F) (p0 : Matrix Nat) (hsq : A0.height = A0.width)
    (hH : IsHermitian S A0.height A0) (hPD : IsPosDef S A0.height A0) :
    ∃ st : LVar3State F, LVar3 S debug bsize A0 p0 = .returned { A := st.A, p := st.p }
      ∧ st.p.height = A0.height ∧ st.p.width = 1
      ∧ ∃ π : Equiv.Perm Nat, CholInv S A0.height A0 A0.height A0.height st.A π
        ∧ ∀ i, i < A0.height → st.p.entry i 0 = π i := by
  apply LVar3_rule S debug bsize hb A0 p0 hsq
    (fun k st => st.p.height = A0.height ∧ st.p.width = 1
      ∧ ∃ π : Equiv.Perm Nat, CholInv S A0.height A0 k k st.A π
        ∧ ∀ i, i < A0.height → st.p.entry i 0 = π i)
  · refine ⟨(initPerm_spec p0 A0.height).1, (initPerm_spec p0 A0.height).2.1, Equiv.refl _,
      ⟨rfl, fun _ _ => rfl, fun i j hj => absurd hj (Nat.not_lt_zero j), ?_, ?_⟩,
      (initPerm_spec p0 A0.height).2.2⟩
    · intro i j _ _ _
      simp [schur]
    · intro y hy
      obtain ⟨i, _, hi, hyi⟩ := hy
      have := hPD y ⟨i, hi, hyi⟩
      rw [Finset.range_eq_Ico] at this
      simpa [schur] using this
  · rintro k st hk ⟨h1, h2, π, h3, h4⟩
    obtain ⟨r, hr, π', g1, g2, g3, g4⟩ := panel_inv S hS A0.height A0 hH debug k
      (min bsize (A0.height - k)) st.A (View st.p ⟨k, A0.height⟩ ⟨0, 1⟩) st.XB1 st.YB1 π
      (by omega) h3 ⟨rfl, rfl⟩ (fun i hi => by simpa using h4 (k + i) hi)
    refine ⟨r, hr, h1, h2, π', trrk_inv S A0.height A0 k (min bsize (A0.height - k)) r.AFull r.X r.Y
      π' (by omega) g1 g2, fun i hi => ?_⟩
    simp only [Store_entry]
    by_cases hik : k ≤ i
    · have : k ≤ i ∧ i < A0.height ∧ 0 ≤ 0 ∧ 0 < 1 := ⟨hik, hi, le_refl _, Nat.one_pos⟩
      rw [if_pos this]
      have := g3 (i - k) (by omega)
      rw [show k + (i - k) = i by omega] at this
      simpa using this
    · have : ¬ (k ≤ i ∧ i < A0.height ∧ 0 ≤ 0 ∧ 0 < 1) := fun h => hik h.1
      rw [if_neg this, h4 i hi, g4 i (by omega)]

/-- C1: for every `n`, every `n × n` Hermitian positive-definite `A0` (exact
arithmetic) and every block size `b ≥ 1`, the sequential `LVar3(A, p)` started
from `A = A0` returns, `p` is a permutation of `0, ..., n-1`, and the lower
triangle `L` of `A` (strict upper part read as zero) satisfies
`(L L^H)[i][j] = A0[p[i]][p[j]]` for all `0 ≤ j ≤ i < n`. -/
theorem LVar3_factorisation (S : Scalars F R) (hS : S.Lawful) (debug : Bool) (bsize : Nat)
    (hb : 1 ≤ bsize) (n : Nat) (A0 : Matrix F) (p0 : Matrix Nat)
    (hA : A0.height = n ∧ A0.width = n) (hH : IsHermitian S n A0) (hPD : IsPosDef S n A0) :
    ∃ st, LVar3 S debug bsize A0 p0 = .returned st
      ∧ IsPermutationVector n st.p
      ∧ ∀ i j, j ≤ i → i < n →
          st.A.trilMulAdjoint S n i j = A0.entry (st.p.entry i 0) (st.p.entry j 0) := by
  obtain ⟨hh, hw⟩ := hA
  subst hh
  obtain ⟨st, h1, h2, h3, π, h4, h5⟩ := LVar3_factorisation_aux S hS debug bsize hb A0 p0
    (by rw [hw]) hH hPD
  refine ⟨_, h1, ⟨h2, h3, perm_of_equiv A0.height st.p π h4.fix h5⟩, fun i j hji hi => ?_⟩
  show st.A.trilMulAdjoint S A0.height i j = A0.entry (st.p.entry i 0) (st.p.entry j 0)
  rw [trilMulAdjoint_eq S hS A0.height st.A i j hji hi, h5 i hi, h5 j (by omega)]
  exact h4.fact i j (by omega) hji hi

/-- The first pivot of the first panel is the pivot of the whole matrix. -/
theorem pivotOf_first (S : Scalars F R) (n : Nat) (ps : PanelState F)
    (hA : ps.AFull.height = n ∧ ps.AFull.width = n) :
    LPanelPivoted.pivotOf S 0 (n - 0) ps 0 = (pivot.Full S ps.AFull).from0 := by
  unfold LPanelPivoted.pivotOf
  simp only
  rw [PanelFull_eq_Full S _ _ _ (by simp)]
  unfold pivot.Full
  have : (View (View ps.AFull ⟨0, ps.AFull.height⟩ ⟨0, ps.AFull.height⟩) ⟨0, n - 0⟩
      ⟨0, n - 0⟩).GetDiagonal = ps.AFull.GetDiagonal := by
    unfold Matrix.GetDiagonal
    simp [hA.1, hA.2]
  rw [this]

/-- Later iterations leave entry `(0,0)` alone. -/
theorem step_entry_zero (S : Scalars F R) (off n : Nat) (ps : PanelState F) (k : Nat)
    (hn : off + n = ps.AFull.height) (hk : k < n) (h : 0 < off + k) :
    (LPanelPivoted.step S off n ps k).AFull.entry 0 0 = ps.AFull.entry 0 0 := by
  rw [(step_entries S off n ps k hn hk).1]
  have h1 : ¬ (off + k ≤ 0 ∧ 0 < off + n ∧ 0 = off + k) := by omega
  rw [if_neg h1]
  unfold HermitianSwap
  have h2 : (0 : Nat) ≤ 0 ∧ 0 < ps.AFull.height := by omega
  have h3 : ¬ (0 = k + off ∨ 0 = k + LPanelPivoted.pivotOf S off n ps k + off) := by omega
  simp only [h2, and_self, if_true, h3, if_false]

/-- The first iteration of the first panel. -/
theorem step_first (S : Scalars F R) (hS : S.Lawful) (n : Nat) (ps : PanelState F) (hn : 0 < n)
    (hA : ps.AFull.height = n ∧ ps.AFull.width = n) (hp : ∀ i, i < n → ps.p.entry i 0 = i) :
    (LPanelPivoted.step S 0 (n - 0) ps 0).p.entry 0 0 = (pivot.Full S ps.AFull).from0
    ∧ (LPanelPivoted.step S 0 (n - 0) ps 0).AFull.entry 0 0
        = S.ofBase (S.Sqrt (S.RealPart
            (ps.AFull.entry (pivot.Full S ps.AFull).from0 (pivot.Full S ps.AFull).from0))) := by
  have hpiv := pivotOf_first S n ps hA
  have hlt := Full_from0_lt S ps.AFull (by rw [hA.1, hA.2, Nat.min_self]; exact hn)
  rw [hA.1, hA.2, Nat.min_self] at hlt
  constructor
  · rw [step_p, RowSwap_entry, hpiv, Nat.zero_add, Equiv.swap_apply_left]
    exact hp _ hlt
  · rw [(step_entries S 0 (n - 0) ps 0 (by rw [hA.1]; omega) (by omega)).1]
    have h1 : 0 + 0 ≤ 0 ∧ 0 < 0 + (n - 0) ∧ 0 = 0 + 0 := by omega
    have hcol : LPanelPivoted.column S 0 (n - 0) ps 0 0
        = S.ofBase (S.RealPart (ps.AFull.entry (pivot.Full S ps.AFull).from0
            (pivot.Full S ps.AFull).from0)) := by
      unfold LPanelPivoted.column HermitianSwap
      simp only [hpiv, Finset.range_zero, Finset.sum_empty, mul_zero, zero_add, one_mul,
        Nat.add_zero, le_refl, hA.1, hn, and_self, if_true, true_or, Equiv.swap_apply_left]
    rw [if_pos h1, if_pos (by omega), LPanelPivoted.delta, hcol, hS.re_ofBase, hS.re_ofBase,
      sub_self, zero_add]

/-- The first pivot: after `LVar3`, `p[0]` is the pivot of the whole matrix and
`A[0][0]` is the square root of the real part of that diagonal entry. -/
theorem LVar3_first_aux (S : Scalars F R) (hS : S.Lawful) (debug : Bool) (bsize : Nat)
    (hb : 0 < bsize) (A0 : Matrix F) (p0 : Matrix Nat) (hsq : A0.height = A0.width)
    (hn : 0 < A0.height) :
    ∃ st : LVar3State F, LVar3 S debug bsize A0 p0 = .returned { A := st.A, p := st.p }
      ∧ st.p.entry 0 0 = (pivot.Full S A0).from0
      ∧ st.A.entry 0 0 = S.ofBase (S.Sqrt (S.RealPart
            (A0.entry (pivot.Full S A0).from0 (pivot.Full S A0).from0))) := by
  obtain ⟨st, h1, h2⟩ := LVar3_rule S debug bsize hb A0 p0 hsq
    (fun k st => st.A.height = A0.height ∧ st.p.height = A0.height ∧ st.p.width = 1
      ∧ (k = 0 → st.A = A0 ∧ ∀ i, i < A0.height → st.p.entry i 0 = i)
      ∧ (0 < k → st.p.entry 0 0 = (pivot.Full S A0).from0
          ∧ st.A.entry 0 0 = S.ofBase (S.Sqrt (S.RealPart
              (A0.entry (pivot.Full S A0).from0 (pivot.Full S A0).from0)))))
    ⟨rfl, (initPerm_spec p0 A0.height).1, (initPerm_spec p0 A0.height).2.1,
      fun _ => ⟨rfl, (initPerm_spec p0 A0.height).2.2⟩, fun h => absurd h (Nat.lt_irrefl 0)⟩
    (by
      rintro k st hk ⟨h1, h2, h3, h4, h5⟩
      have hnb : 0 < min bsize (A0.height - k) := by omega
      refine ⟨_, LPanelPivoted_returned S debug st.A _ st.XB1 st.YB1 _ k
        (Or.inr (by rw [h1]; exact ⟨rfl, rfl⟩)), ?_⟩
      rw [h1]
      have key := foldl_range_inv (LPanelPivoted.step S k (A0.height - k))
        (fun j (ps : PanelState F) => ps.AFull.height = A0.height
          ∧ (k + j = 0 → ps.AFull = A0 ∧ ∀ i, i < A0.height → ps.p.entry i 0 = i)
          ∧ (0 < k + j → ps.AFull.entry 0 0 = S.ofBase (S.Sqrt (S.RealPart
              (A0.entry (pivot.Full S A0).from0 (pivot.Full S A0).from0)))
              ∧ (k = 0 → ps.p.entry 0 0 = (pivot.Full S A0).from0)))
        (min bsize (A0.height - k))
        { AFull := st.A, p := View st.p ⟨k, A0.height⟩ ⟨0, 1⟩,
          X := Zeros (A0.height - k) (min bsize (A0.height - k)),
          Y := Zeros (A0.height - k) (min bsize (A0.height - k)) }
        ⟨h1, fun h0 => by
            have hk0 : k = 0 := by omega
            refine ⟨(h4 hk0).1, fun i hi => ?_⟩
            simp only [View_entry, hk0, Nat.zero_add]
            exact (h4 hk0).2 i hi,
          fun h0 => ⟨(h5 (by omega)).2, fun hk0 => absurd hk0 (by omega)⟩⟩
        (by
          rintro j ps hj ⟨g1, g2, g3⟩
          refine ⟨g1, fun h0 => absurd h0 (by omega), fun _ => ?_⟩
          by_cases hkj : k + j = 0
          · have hk0 : k = 0 := by omega
            have hj0 : j = 0 := by omega
            obtain ⟨e1, e2⟩ := g2 hkj
            subst hk0 hj0
            have := step_first S hS A0.height ps hn ⟨g1, by rw [e1]; exact hsq.symm⟩ e2
            rw [e1] at this
            exact ⟨this.2, fun _ => this.1⟩
          · have hpos : 0 < k + j := by omega
            obtain ⟨e1, e2⟩ := g3 hpos
            refine ⟨?_, fun hk0 => ?_⟩
            · rw [step_entry_zero S k (A0.height - k) ps j (by rw [g1]; omega) (by omega) hpos]
              exact e1
            · rw [step_p, RowSwap_entry, swap_of_lt _ _ _ (by omega) (by omega)]
              exact e2 hk0)
      obtain ⟨g1, _, g3⟩ := key
      have hpos : 0 < k + min bsize (A0.height - k) := by omega
      obtain ⟨e1, e2⟩ := g3 hpos
      refine ⟨g1, h2, h3, fun h0 => absurd h0 (by omega), fun _ => ⟨?_, ?_⟩⟩
      · simp only [Store_entry]
        by_cases hk0 : k = 0
        · have : k ≤ 0 ∧ 0 < A0.height ∧ 0 ≤ 0 ∧ 0 < 1 := by omega
          rw [if_pos this]
          simpa [hk0] using e2 hk0
        · have : ¬ (k ≤ 0 ∧ 0 < A0.height ∧ 0 ≤ 0 ∧ 0 < 1) := by omega
          rw [if_neg this]
          exact (h5 (by omega)).1
      · simp only [Store_entry]
        have : ¬ (k + min bsize (A0.height - k) ≤ 0 ∧ 0 < A0.height
            ∧ k + min bsize (A0.height - k) ≤ 0 ∧ 0 < A0.height) := by omega
        rw [if_neg this]
        exact e1)
  exact ⟨st, h1, (h2.2.2.2.2 hn).1, (h2.2.2.2.2 hn).2⟩

/-- The diagonal of a Hermitian positive-definite matrix is real and positive. -/
theorem posDef_diag (S : Scalars F R) (hS : S.Lawful) (n : Nat) (A : Matrix F)
    (hH : IsHermitian S n A) (hPD : IsPosDef S n A) (i : Nat) (hi : i < n) :
    0 < S.RealPart (A.entry i i) ∧ S.ofBase (S.RealPart (A.entry i i)) = A.entry i i := by
  constructor
  · have h := hPD (fun k => if k = i then 1 else 0) ⟨i, hi, by simp⟩
    have hsum : (∑ k in Finset.range n, ∑ j in Finset.range n,
        S.Conj (if k = i then (1 : F) else 0) * A.entry k j * (if j = i then (1 : F) else 0))
        = A.entry i i := by
      rw [Finset.sum_eq_single i]
      · rw [Finset.sum_eq_single i]
        · simp [hS.conj_one]
        · intro j _ hj; simp [hj]
        · intro h'; exact absurd (Finset.mem_range.mpr hi) h'
      · intro k _ hk
        apply Finset.sum_eq_zero
        intro j _
        simp [hk, hS.conj_zero]
      · intro h'; exact absurd (Finset.mem_range.mpr hi) h'
    rw [hsum] at h
    exact h
  · exact hS.ofBase_re _ (hH i i hi hi).symm

/-- C7: for every `n ≥ 1` and every `n × n` Hermitian positive-definite `A0`,
after pivoted Cholesky `LVar3` the index `p[0]` is below `n`, the diagonal
entry `A0[p[0]][p[0]]` is the largest diagonal entry of `A0`, and `L[0][0]` is
its square root. -/
theorem LVar3_first_pivot (S : Scalars F R) (hS : S.Lawful) (debug : Bool) (bsize : Nat)
    (hb : 1 ≤ bsize) (n : Nat) (hn : 1 ≤ n) (A0 : Matrix F) (p0 : Matrix Nat)
    (hA : A0.height = n ∧ A0.width = n) (hH : IsHermitian S n A0) (hPD : IsPosDef S n A0) :
    ∃ st, LVar3 S debug bsize A0 p0 = .returned st
      ∧ st.p.entry 0 0 < n
      ∧ (∀ i, i < n → S.RealPart (A0.entry i i)
          ≤ S.RealPart (A0.entry (st.p.entry 0 0) (st.p.entry 0 0)))
      ∧ st.A.entry 0 0
          = S.ofBase (S.Sqrt (S.RealPart (A0.entry (st.p.entry 0 0) (st.p.entry 0 0)))) := by
  obtain ⟨hh, hw⟩ := hA
  obtain ⟨st, h1, h2, h3⟩ := LVar3_first_aux S hS debug bsize hb A0 p0 (by rw [hh, hw])
    (by omega)
  have hmin : min A0.height A0.width = n := by rw [hh, hw, Nat.min_self]
  have hlt : (pivot.Full S A0).from0 < n := by
    have := Full_from0_lt S A0 (by omega)
    omega
  refine ⟨_, h1, ?_, ?_, ?_⟩
  · show st.p.entry 0 0 < n
    rw [h2]; exact hlt
  · intro i hi
    show S.RealPart (A0.entry i i) ≤ S.RealPart (A0.entry (st.p.entry 0 0) (st.p.entry 0 0))
    rw [h2]
    have hmax := VectorMaxAbs_max S hS.abs_nonneg A0.GetDiagonal i
      (by show i < min A0.height A0.width; omega)
    have e : ∀ k, k < n → S.Abs (A0.entry k k) = S.RealPart (A0.entry k k) := by
      intro k hk
      obtain ⟨g1, g2⟩ := posDef_diag S hS n A0 hH hPD k hk
      rw [← g2, hS.abs_ofBase, hS.re_ofBase, abs_of_pos g1]
    have e1 := e i hi
    have e2 := e _ hlt
    unfold pivot.Full
    unfold pivot.Full at e2
    simp only [Matrix.GetDiagonal] at hmax e2 ⊢
    rw [← e1, ← e2]
    exact hmax
  · show st.A.entry 0 0 = _
    rw [h3, h2]

/-- A strict maximum of the absolute values is what `VectorMaxAbs` returns. -/
theorem VectorMaxAbs_index_eq (S : Scalars F R) (habs : ∀ x, 0 ≤ S.Abs x) (x : Matrix F)
    (idx : Nat) (hidx : idx < x.height)
    (h : ∀ i, i < x.height → i ≠ idx → S.Abs (x.entry i 0) < S.Abs (x.entry idx 0)) :
    (VectorMaxAbs S x).index = idx := by
  by_contra hne
  have h1 := VectorMaxAbs_index_lt S x (by omega)
  have h2 := h _ h1 hne
  have h3 := VectorMaxAbs_max S habs x idx hidx
  exact absurd (lt_of_lt_of_le h2 h3) (lt_irrefl _)

/-- The candidate diagonal that iteration `k` of the panel hands to
`VectorMaxAbs`. -/
theorem pivotOf_diag (S : Scalars F R) (off n : Nat) (ps : PanelState F) (k i : Nat)
    (hi : i < n - k) :
    (pivot.PanelFull.diag
        (View (View ps.AFull ⟨off, ps.AFull.height⟩ ⟨off, ps.AFull.height⟩) ⟨k, n⟩ ⟨k, n⟩)
        (View ps.X ⟨k, n⟩ ⟨0, k⟩) (View ps.Y ⟨k, n⟩ ⟨0, k⟩)).entry i 0
      = ps.AFull.entry (off + (k + i)) (off + (k + i))
        - ∑ c in Finset.range k, ps.X.entry (k + i) c * ps.Y.entry (k + i) c := by
  rw [PanelFull_diag_entry _ _ _ i (by simpa using hi)]
  simp

/-- The pivot of iteration `k` is the strict maximum of the candidate diagonal,
when there is one. -/
theorem pivotOf_eq (S : Scalars F R) (habs : ∀ x, 0 ≤ S.Abs x) (off n : Nat) (ps : PanelState F)
    (k idx : Nat) (hidx : idx < n - k)
    (h : ∀ i, i < n - k → i ≠ idx →
      S.Abs (ps.AFull.entry (off + (k + i)) (off + (k + i))
          - ∑ c in Finset.range k, ps.X.entry (k + i) c * ps.Y.entry (k + i) c)
        < S.Abs (ps.AFull.entry (off + (k + idx)) (off + (k + idx))
          - ∑ c in Finset.range k, ps.X.entry (k + idx) c * ps.Y.entry (k + idx) c)) :
    LPanelPivoted.pivotOf S off n ps k = idx := by
  unfold LPanelPivoted.pivotOf pivot.PanelFull
  simp only
  have hh : (pivot.PanelFull.diag
        (View (View ps.AFull ⟨off, ps.AFull.height⟩ ⟨off, ps.AFull.height⟩) ⟨k, n⟩ ⟨k, n⟩)
        (View ps.X ⟨k, n⟩ ⟨0, k⟩) (View ps.Y ⟨k, n⟩ ⟨0, k⟩)).height = n - k := by
    rw [PanelFull_diag_height]; simp
  apply VectorMaxAbs_index_eq S habs _ idx (by rw [hh]; exact hidx)
  intro i hi hne
  rw [hh] at hi
  rw [pivotOf_diag S off n ps k i hi, pivotOf_diag S off n ps k idx hidx]
  exact h i hi hne

end CholeskyLemmas

/-! ## Exact real and complex arithmetic, scenario S1 -/

/-- Real arithmetic with the real square root is exact arithmetic. -/
theorem realScalars_lawful : (realScalars ℝ Real.sqrt).Lawful where
  conj_add := fun _ _ => rfl
  conj_mul := fun _ _ => rfl
  conj_conj := fun _ => rfl
  ofBase_add := fun _ _ => rfl
  ofBase_mul := fun _ _ => rfl
  ofBase_one := rfl
  conj_ofBase := fun _ => rfl
  re_ofBase := fun _ => rfl
  re_add := fun _ _ => rfl
  ofBase_re := fun _ _ => rfl
  abs_ofBase := fun _ => rfl
  abs_nonneg := fun x => abs_nonneg (x : ℝ)
  sqrt_mul_self := fun r hr => Real.mul_self_sqrt (le_of_lt hr)
  sqrt_pos := fun r hr => Real.sqrt_pos.mpr hr

/-- Complex arithmetic with the real square root is exact arithmetic. -/
theorem complexScalars_lawful :
    ({ Conj := fun z => (starRingEnd ℂ) z, RealPart := fun z => z.re, ofBase := fun r => (r : ℂ),
       Abs := fun z => Complex.abs z, Sqrt := Real.sqrt } : Scalars ℂ ℝ).Lawful where
  conj_add := fun x y => map_add _ x y
  conj_mul := fun x y => map_mul _ x y
  conj_conj := fun x => Complex.conj_conj x
  ofBase_add := fun r s => Complex.ofReal_add r s
  ofBase_mul := fun r s => Complex.ofReal_mul r s
  ofBase_one := Complex.ofReal_one
  conj_ofBase := fun r => Complex.conj_ofReal r
  re_ofBase := fun r => Complex.ofReal_re r
  re_add := fun x y => Complex.add_re x y
  ofBase_re := fun x hx => (Complex.conj_eq_iff_re.mp hx)
  abs_ofBase := fun r => Complex.abs_ofReal r
  abs_nonneg := fun x => Complex.abs.nonneg x
  sqrt_mul_self := fun r hr => Real.mul_self_sqrt (le_of_lt hr)
  sqrt_pos := fun r hr => Real.sqrt_pos.mpr hr

theorem s1Matrix_entries (α : Type) [Field α] :
    (s1Matrix : Matrix α).entry 0 0 = 4 ∧ (s1Matrix : Matrix α).entry 0 1 = 12
    ∧ (s1Matrix : Matrix α).entry 0 2 = -16 ∧ (s1Matrix : Matrix α).entry 1 0 = 12
    ∧ (s1Matrix : Matrix α).entry 1 1 = 37 ∧ (s1Matrix : Matrix α).entry 1 2 = -43
    ∧ (s1Matrix : Matrix α).entry 2 0 = -16 ∧ (s1Matrix : Matrix α).entry 2 1 = -43
    ∧ (s1Matrix : Matrix α).entry 2 2 = 98 := by
  simp [s1Matrix, Matrix.ofRows]

theorem s1Matrix_hermitian : IsHermitian (realScalars ℝ Real.sqrt) 3 s1Matrix := by
  intro i j hi hj
  interval_cases i <;> interval_cases j <;> simp [s1Matrix, Matrix.ofRows, realScalars]

theorem s1Matrix_posDef : IsPosDef (realScalars ℝ Real.sqrt) 3 s1Matrix := by
  intro y hy
  obtain ⟨h00, h01, h02, h10, h11, h12, h20, h21, h22⟩ := s1Matrix_entries ℝ
  simp only [Finset.sum_range_succ, Finset.sum_range_zero, zero_add, realScalars,
    h00, h01, h02, h10, h11, h12, h20, h21, h22]
  have e : y 0 * 4 * y 0 + y 0 * 12 * y 1 + y 0 * -16 * y 2
      + (y 1 * 12 * y 0 + y 1 * 37 * y 1 + y 1 * -43 * y 2)
      + (y 2 * -16 * y 0 + y 2 * -43 * y 1 + y 2 * 98 * y 2)
      = (2 * y 0 + 6 * y 1 - 8 * y 2) ^ 2 + (y 1 + 5 * y 2) ^ 2 + (3 * y 2) ^ 2 := by ring
  rw [e]
  obtain ⟨i, hi, hyi⟩ := hy
  by_contra hcon
  have h1 := sq_nonneg (2 * y 0 + 6 * y 1 - 8 * y 2)
  have h2 := sq_nonneg (y 1 + 5 * y 2)
  have h3 := sq_nonneg (3 * y 2)
  have z3 : (3 * y 2) ^ 2 = 0 := by linarith
  have z2 : (y 1 + 5 * y 2) ^ 2 = 0 := by linarith
  have z1 : (2 * y 0 + 6 * y 1 - 8 * y 2) ^ 2 = 0 := by linarith
  have y2 : y 2 = 0 := by
    have := pow_eq_zero_iff (two_ne_zero) |>.mp z3
    linarith
  have y1 : y 1 = 0 := by
    have := pow_eq_zero_iff (two_ne_zero) |>.mp z2
    linarith
  have y0 : y 0 = 0 := by
    have := pow_eq_zero_iff (two_ne_zero) |>.mp z1
    linarith
  interval_cases i <;> contradiction

/-- The statement of `LVar3_factorisation` for the matrix of scenario S1 over the
real numbers, with block size 2. -/
theorem LVar3_factorisation_witness :
    ∃ st, LVar3 (realScalars ℝ Real.sqrt) true 2 s1Matrix emptyPerm = .returned st
      ∧ IsPermutationVector 3 st.p
      ∧ ∀ i j, j ≤ i → i < 3 →
          st.A.trilMulAdjoint (realScalars ℝ Real.sqrt) 3 i j
            = (s1Matrix : Matrix ℝ).entry (st.p.entry i 0) (st.p.entry j 0) :=
  LVar3_factorisation (realScalars ℝ Real.sqrt) realScalars_lawful true 2 (by decide) 3 s1Matrix
    emptyPerm ⟨rfl, rfl⟩ s1Matrix_hermitian s1Matrix_posDef

theorem s2Matrix_entries (α : Type) [Field α] :
    (s2Matrix : Matrix α).entry 0 0 = 98 ∧ (s2Matrix : Matrix α).entry 0 1 = -43
    ∧ (s2Matrix : Matrix α).entry 0 2 = -16 ∧ (s2Matrix : Matrix α).entry 1 0 = -43
    ∧ (s2Matrix : Matrix α).entry 1 1 = 37 ∧ (s2Matrix : Matrix α).entry 1 2 = 12
    ∧ (s2Matrix : Matrix α).entry 2 0 = -16 ∧ (s2Matrix : Matrix α).entry 2 1 = 12
    ∧ (s2Matrix : Matrix α).entry 2 2 = 4 := by
  simp [s2Matrix, Matrix.ofRows]

theorem s2Matrix_hermitian : IsHermitian (realScalars ℝ Real.sqrt) 3 s2Matrix := by
  intro i j hi hj
  interval_cases i <;> interval_cases j <;> simp [s2Matrix, Matrix.ofRows, realScalars]

theorem s2Matrix_posDef : IsPosDef (realScalars ℝ Real.sqrt) 3 s2Matrix := by
  intro y hy
  obtain ⟨h00, h01, h02, h10, h11, h12, h20, h21, h22⟩ := s2Matrix_entries ℝ
  simp only [Finset.sum_range_succ, Finset.sum_range_zero, zero_add, realScalars,
    h00, h01, h02, h10, h11, h12, h20, h21, h22]
  have e : y 0 * 98 * y 0 + y 0 * -43 * y 1 + y 0 * -16 * y 2
      + (y 1 * -43 * y 0 + y 1 * 37 * y 1 + y 1 * 12 * y 2)
      + (y 2 * -16 * y 0 + y 2 * 12 * y 1 + y 2 * 4 * y 2)
      = (2 * y 2 + 6 * y 1 - 8 * y 0) ^ 2 + (y 1 + 5 * y 0) ^ 2 + (3 * y 0) ^ 2 := by ring
  rw [e]
  obtain ⟨i, hi, hyi⟩ := hy
  by_contra hcon
  have h1 := sq_nonneg (2 * y 2 + 6 * y 1 - 8 * y 0)
  have h2 := sq_nonneg (y 1 + 5 * y 0)
  have h3 := sq_nonneg (3 * y 0)
  have z3 : (3 * y 0) ^ 2 = 0 := by linarith
  have z2 : (y 1 + 5 * y 0) ^ 2 = 0 := by linarith
  have z1 : (2 * y 2 + 6 * y 1 - 8 * y 0) ^ 2 = 0 := by linarith
  have y0 : y 0 = 0 := by
    have := pow_eq_zero_iff (two_ne_zero) |>.mp z3
    linarith
  have y1 : y 1 = 0 := by
    have := pow_eq_zero_iff (two_ne_zero) |>.mp z2
    linarith
  have y2 : y 2 = 0 := by
    have := pow_eq_zero_iff (two_ne_zero) |>.mp z1
    linarith
  interval_cases i <;> contradiction

/-- Scenario S2 through `LVar3_first_pivot`: on `[[98,-43,-16],[-43,37,12],[-16,12,4]]`
pivoted Cholesky gives `p[0] = 0` and `L[0][0] = sqrt(98)`. -/
theorem LVar3_first_pivot_witness :
    ∃ st, LVar3 (realScalars ℝ Real.sqrt) true 2 s2Matrix emptyPerm = .returned st
      ∧ st.p.entry 0 0 = 0 ∧ st.A.entry 0 0 = Real.sqrt 98 := by
  obtain ⟨st, h1, h2, h3, h4⟩ := LVar3_first_pivot (realScalars ℝ Real.sqrt) realScalars_lawful
    true 2 (by decide) 3 (by decide) s2Matrix emptyPerm ⟨rfl, rfl⟩ s2Matrix_hermitian
    s2Matrix_posDef
  obtain ⟨h00, -, -, -, h11, -, -, -, h22⟩ := s2Matrix_entries ℝ
  have hp : st.p.entry 0 0 = 0 := by
    have h5 := h3 0 (by decide)
    simp only [realScalars, h00] at h5
    generalize st.p.entry 0 0 = q at h2 h5
    interval_cases q
    · rfl
    · rw [h11] at h5; norm_num at h5
    · rw [h22] at h5; norm_num at h5
  refine ⟨st, h1, hp, ?_⟩
  rw [h4, hp, h00]
  rfl

@[simp] theorem realScalars_Conj (R : Type) [LinearOrderedField R] (sqrt : R → R) (x : R) :
    (realScalars R sqrt).Conj x = x := rfl
@[simp] theorem realScalars_RealPart (R : Type) [LinearOrderedField R] (sqrt : R → R) (x : R) :
    (realScalars R sqrt).RealPart x = x := rfl
@[simp] theorem realScalars_ofBase (R : Type) [LinearOrderedField R] (sqrt : R → R) (x : R) :
    (realScalars R sqrt).ofBase x = x := rfl
@[simp] theorem realScalars_Abs (R : Type) [LinearOrderedField R] (sqrt : R → R) (x : R) :
    (realScalars R sqrt).Abs x = |x| := rfl
@[simp] theorem realScalars_Sqrt (R : Type) [LinearOrderedField R] (sqrt : R → R) (x : R) :
    (realScalars R sqrt).Sqrt x = sqrt x := rfl

theorem sqrt98_mul : Real.sqrt 98 * Real.sqrt 98 = 98 := Real.mul_self_sqrt (by norm_num)

theorem sqrt98_pos : 0 < Real.sqrt 98 := Real.sqrt_pos.mpr (by norm_num)

/-- Scenario S1, first iteration of the first panel: the pivot is row 2. -/
theorem s1_step0 (ps : PanelState ℝ) (hA : ps.AFull = s1Matrix)
    (hp : ∀ i, i < 3 → ps.p.entry i 0 = i) :
    (LPanelPivoted.step (realScalars ℝ Real.sqrt) 0 3 ps 0).AFull.height = 3
    ∧ (LPanelPivoted.step (realScalars ℝ Real.sqrt) 0 3 ps 0).AFull.entry 0 0 = Real.sqrt 98
    ∧ (LPanelPivoted.step (realScalars ℝ Real.sqrt) 0 3 ps 0).AFull.entry 1 0 = -43 / Real.sqrt 98
    ∧ (LPanelPivoted.step (realScalars ℝ Real.sqrt) 0 3 ps 0).AFull.entry 2 0 = -16 / Real.sqrt 98
    ∧ (LPanelPivoted.step (realScalars ℝ Real.sqrt) 0 3 ps 0).AFull.entry 1 1 = 37
    ∧ (LPanelPivoted.step (realScalars ℝ Real.sqrt) 0 3 ps 0).AFull.entry 2 1 = 12
    ∧ (LPanelPivoted.step (realScalars ℝ Real.sqrt) 0 3 ps 0).AFull.entry 2 2 = 4
    ∧ (LPanelPivoted.step (realScalars ℝ Real.sqrt) 0 3 ps 0).X.entry 1 0 = -43 / Real.sqrt 98
    ∧ (LPanelPivoted.step (realScalars ℝ Real.sqrt) 0 3 ps 0).X.entry 2 0 = -16 / Real.sqrt 98
    ∧ (LPanelPivoted.step (realScalars ℝ Real.sqrt) 0 3 ps 0).Y.entry 1 0 = -43 / Real.sqrt 98
    ∧ (LPanelPivoted.step (realScalars ℝ Real.sqrt) 0 3 ps 0).Y.entry 2 0 = -16 / Real.sqrt 98
    ∧ (LPanelPivoted.step (realScalars ℝ Real.sqrt) 0 3 ps 0).p.entry 0 0 = 2
    ∧ (LPanelPivoted.step (realScalars ℝ Real.sqrt) 0 3 ps 0).p.entry 1 0 = 1
    ∧ (LPanelPivoted.step (realScalars ℝ Real.sqrt) 0 3 ps 0).p.entry 2 0 = 0 := by
  obtain ⟨h00, h01, h02, h10, h11, h12, h20, h21, h22⟩ := s1Matrix_entries ℝ
  have hh : ps.AFull.height = 3 := by rw [hA]; rfl
  have hpiv : LPanelPivoted.pivotOf (realScalars ℝ Real.sqrt) 0 3 ps 0 = 2 := by
    apply pivotOf_eq _ (fun x => abs_nonneg (x : ℝ)) 0 3 ps 0 2 (by decide)
    intro i hi hne
    simp only [Finset.range_zero, Finset.sum_empty, sub_zero, Nat.zero_add, hA, h22]
    interval_cases i
    · rw [h00]; simp only [realScalars_Abs]; norm_num
    · rw [h11]; simp only [realScalars_Abs]; norm_num
    · exact absurd rfl hne
  obtain ⟨eA, eX, eY⟩ := step_entries (realScalars ℝ Real.sqrt) 0 3 ps 0 (by rw [hh]) (by decide)
  have hcol : ∀ i, LPanelPivoted.column (realScalars ℝ Real.sqrt) 0 3 ps 0 i
      = (HermitianSwap (realScalars ℝ Real.sqrt) s1Matrix 0 2).entry i 0 := by
    intro i
    simp [LPanelPivoted.column, hpiv, hA]
  have hs : (HermitianSwap (realScalars ℝ Real.sqrt) s1Matrix 0 2).entry 0 0 = 98
      ∧ (HermitianSwap (realScalars ℝ Real.sqrt) s1Matrix 0 2).entry 1 0 = -43
      ∧ (HermitianSwap (realScalars ℝ Real.sqrt) s1Matrix 0 2).entry 2 0 = -16
      ∧ (HermitianSwap (realScalars ℝ Real.sqrt) s1Matrix 0 2).entry 1 1 = 37
      ∧ (HermitianSwap (realScalars ℝ Real.sqrt) s1Matrix 0 2).entry 2 1 = 12
      ∧ (HermitianSwap (realScalars ℝ Real.sqrt) s1Matrix 0 2).entry 2 2 = 4 := by
    simp [HermitianSwap, Matrix.hermEntry, Equiv.swap_apply_def, s1Matrix, Matrix.ofRows]
  obtain ⟨s00, s10, s20, s11, s21, s22⟩ := hs
  have hdelta : LPanelPivoted.delta (realScalars ℝ Real.sqrt) 0 3 ps 0 = Real.sqrt 98 := by
    simp [LPanelPivoted.delta, hcol, s00]
  simp only [hpiv, hA, hcol, hdelta, Nat.zero_add, Nat.add_zero] at eA eX eY
  refine ⟨hh, ?_, ?_, ?_, ?_, ?_, ?_, ?_, ?_, ?_, ?_, ?_, ?_, ?_⟩
  · rw [eA]; simp [s00]
  · rw [eA]; simp [s10]; ring
  · rw [eA]; simp [s20]; ring
  · rw [eA]; simp [s11]
  · rw [eA]; simp [s21]
  · rw [eA]; simp [s22]
  · rw [eX]; simp [s10]; ring
  · rw [eX]; simp [s20]; ring
  · rw [eY]; simp [s10]; ring
  · rw [eY]; simp [s20]; ring
  · rw [step_p, hpiv]; simp [hp]
  · rw [step_p, hpiv]; simp [hp, Equiv.swap_apply_def]
  · rw [step_p, hpiv]; simp [hp]



theorem sqrt98_inv_mul (a b : ℝ) : a / Real.sqrt 98 * (b / Real.sqrt 98) = a * b / 98 := by
  rw [div_mul_div_comm, sqrt98_mul]

/-- Scenario S1, second iteration of the first panel: no row is moved. -/
theorem s1_step1 (ps : PanelState ℝ) (hh : ps.AFull.height = 3)
    (a00 : ps.AFull.entry 0 0 = Real.sqrt 98) (a10 : ps.AFull.entry 1 0 = -43 / Real.sqrt 98)
    (a20 : ps.AFull.entry 2 0 = -16 / Real.sqrt 98) (a11 : ps.AFull.entry 1 1 = 37)
    (a21 : ps.AFull.entry 2 1 = 12) (a22 : ps.AFull.entry 2 2 = 4)
    (x10 : ps.X.entry 1 0 = -43 / Real.sqrt 98) (x20 : ps.X.entry 2 0 = -16 / Real.sqrt 98)
    (y10 : ps.Y.entry 1 0 = -43 / Real.sqrt 98) (y20 : ps.Y.entry 2 0 = -16 / Real.sqrt 98)
    (p0 : ps.p.entry 0 0 = 2) (p1 : ps.p.entry 1 0 = 1) (p2 : ps.p.entry 2 0 = 0) :
    (LPanelPivoted.step (realScalars ℝ Real.sqrt) 0 3 ps 1).AFull.height = 3
    ∧ (LPanelPivoted.step (realScalars ℝ Real.sqrt) 0 3 ps 1).AFull.entry 0 0 = Real.sqrt 98
    ∧ (LPanelPivoted.step (realScalars ℝ Real.sqrt) 0 3 ps 1).AFull.entry 1 0 = -43 / Real.sqrt 98
    ∧ (LPanelPivoted.step (realScalars ℝ Real.sqrt) 0 3 ps 1).AFull.entry 2 0 = -16 / Real.sqrt 98
    ∧ (LPanelPivoted.step (realScalars ℝ Real.sqrt) 0 3 ps 1).AFull.entry 1 1
        = Real.sqrt (1777 / 98)
    ∧ (LPanelPivoted.step (realScalars ℝ Real.sqrt) 0 3 ps 1).AFull.entry 2 1
        = 244 / 49 / Real.sqrt (1777 / 98)
    ∧ (LPanelPivoted.step (realScalars ℝ Real.sqrt) 0 3 ps 1).AFull.entry 2 2 = 4
    ∧ (LPanelPivoted.step (realScalars ℝ Real.sqrt) 0 3 ps 1).X.entry 2 0 = -16 / Real.sqrt 98
    ∧ (LPanelPivoted.step (realScalars ℝ Real.sqrt) 0 3 ps 1).X.entry 2 1
        = 244 / 49 / Real.sqrt (1777 / 98)
    ∧ (LPanelPivoted.step (realScalars ℝ Real.sqrt) 0 3 ps 1).Y.entry 2 0 = -16 / Real.sqrt 98
    ∧ (LPanelPivoted.step (realScalars ℝ Real.sqrt) 0 3 ps 1).Y.entry 2 1
        = 244 / 49 / Real.sqrt (1777 / 98)
    ∧ (LPanelPivoted.step (realScalars ℝ Real.sqrt) 0 3 ps 1).p.entry 0 0 = 2
    ∧ (LPanelPivoted.step (realScalars ℝ Real.sqrt) 0 3 ps 1).p.entry 1 0 = 1
    ∧ (LPanelPivoted.step (realScalars ℝ Real.sqrt) 0 3 ps 1).p.entry 2 0 = 0 := by
  have hpiv : LPanelPivoted.pivotOf (realScalars ℝ Real.sqrt) 0 3 ps 1 = 0 := by
    apply pivotOf_eq _ (fun x => abs_nonneg (x : ℝ)) 0 3 ps 1 0 (by decide)
    intro i hi hne
    have hi1 : i = 1 := by omega
    subst hi1
    simp only [Finset.sum_range_one, Nat.zero_add, Nat.add_zero, a22, x20, y20, a11, x10, y10,
      realScalars_Abs, sqrt98_inv_mul]
    rw [abs_of_pos (by norm_num), abs_of_pos (by norm_num)]
    norm_num
  obtain ⟨eA, eX, eY⟩ := step_entries (realScalars ℝ Real.sqrt) 0 3 ps 1 (by rw [hh]) (by decide)
  have hs : ∀ I J, J ≤ I → I < 3 →
      (HermitianSwap (realScalars ℝ Real.sqrt) ps.AFull 1 1).entry I J = ps.AFull.entry I J := by
    intro I J h1 h2
    simp only [HermitianSwap, Matrix.hermEntry, Equiv.swap_self, Equiv.refl_apply, h1, hh, h2,
      and_self, if_true, or_self, realScalars_ofBase, realScalars_RealPart]
    by_cases h : I = J
    · subst h; simp
    · simp [h]
  have hcol1 : LPanelPivoted.column (realScalars ℝ Real.sqrt) 0 3 ps 1 1 = 1777 / 98 := by
    simp only [LPanelPivoted.column, hpiv, Nat.add_zero, Nat.zero_add, Finset.sum_range_one,
      Equiv.swap_self, Equiv.refl_apply, x10, y10, sqrt98_inv_mul, hs 1 1 (le_refl _) (by decide),
      a11]
    norm_num
  have hcol2 : LPanelPivoted.column (realScalars ℝ Real.sqrt) 0 3 ps 1 2 = 244 / 49 := by
    simp only [LPanelPivoted.column, hpiv, Nat.add_zero, Nat.zero_add, Finset.sum_range_one,
      Equiv.swap_self, Equiv.refl_apply, x20, y10, sqrt98_inv_mul, hs 2 1 (by decide) (by decide),
      a21]
    norm_num
  have hdelta : LPanelPivoted.delta (realScalars ℝ Real.sqrt) 0 3 ps 1 = Real.sqrt (1777 / 98) := by
    simp [LPanelPivoted.delta, hcol1]
  simp only [hpiv, hdelta, Nat.zero_add, Nat.add_zero, Equiv.swap_self, Equiv.refl_apply] at eA eX eY
  refine ⟨hh, ?_, ?_, ?_, ?_, ?_, ?_, ?_, ?_, ?_, ?_, ?_, ?_, ?_⟩
  · rw [eA]; simp [hs 0 0 (le_refl _) (by decide), a00]
  · rw [eA]; simp [hs 1 0 (by decide) (by decide), a10]
  · rw [eA]; simp [hs 2 0 (by decide) (by decide), a20]
  · rw [eA]; simp [hcol1]
  · rw [eA, if_pos (by decide), if_neg (by decide), hcol2]
    simp only [realScalars_ofBase]; ring
  · rw [eA]; simp [hs 2 2 (le_refl _) (by decide), a22]
  · rw [eX]; simp [x20]
  · rw [eX, if_pos (by decide), hcol2]
    simp only [realScalars_ofBase]; ring
  · rw [eY]; simp [y20]
  · rw [eY, if_pos (by decide), hcol2]
    simp only [realScalars_ofBase, realScalars_Conj]; ring
  · rw [step_p, hpiv]; simp [p0]
  · rw [step_p, hpiv]; simp [p1]
  · rw [step_p, hpiv]; simp [p2]



theorem sqrt1777_mul : Real.sqrt (1777 / 98) * Real.sqrt (1777 / 98) = 1777 / 98 :=
  Real.mul_self_sqrt (by norm_num)

/-- Scenario S1, the trailing update after the first panel. -/
theorem s1_trrk (r : PanelState ℝ) (hh : r.AFull.height = 3)
    (a22 : r.AFull.entry 2 2 = 4)
    (x20 : r.X.entry 2 0 = -16 / Real.sqrt 98)
    (x21 : r.X.entry 2 1 = 244 / 49 / Real.sqrt (1777 / 98))
    (y20 : r.Y.entry 2 0 = -16 / Real.sqrt 98)
    (y21 : r.Y.entry 2 1 = 244 / 49 / Real.sqrt (1777 / 98)) :
    (∀ I J, J < 2 → (r.AFull.Store ⟨2, 3⟩ ⟨2, 3⟩
        (Trrk (-1) (LockedView r.X ⟨2, 3⟩ ⟨0, 2⟩) (LockedView r.Y ⟨2, 3⟩ ⟨0, 2⟩) 1
          (View r.AFull ⟨2, 3⟩ ⟨2, 3⟩))).entry I J = r.AFull.entry I J)
    ∧ (r.AFull.Store ⟨2, 3⟩ ⟨2, 3⟩
        (Trrk (-1) (LockedView r.X ⟨2, 3⟩ ⟨0, 2⟩) (LockedView r.Y ⟨2, 3⟩ ⟨0, 2⟩) 1
          (View r.AFull ⟨2, 3⟩ ⟨2, 3⟩))).entry 2 2 = 36 / 1777 := by
  constructor
  · intro I J hJ
    have : ¬ (2 ≤ I ∧ I < 3 ∧ 2 ≤ J ∧ J < 3) := by omega
    simp only [Store_entry, this, if_false]
  · have e : (244 / 49 / Real.sqrt (1777 / 98)) * (244 / 49 / Real.sqrt (1777 / 98))
        = 244 / 49 * (244 / 49) / (1777 / 98) := by
      rw [div_mul_div_comm, sqrt1777_mul]
    simp only [Store_entry, Trrk, LockedView, View_entry, View_height, View_width,
      Finset.sum_range_succ, Finset.sum_range_zero, Nat.add_zero, Nat.zero_add, Nat.sub_self,
      le_refl, x20, x21, y20, y21, a22, sqrt98_inv_mul, e]
    norm_num

/-- Scenario S1, the only iteration of the second panel. -/
theorem s1_step2 (qs : PanelState ℝ) (hh : qs.AFull.height = 3)
    (a22 : qs.AFull.entry 2 2 = 36 / 1777) :
    (LPanelPivoted.step (realScalars ℝ Real.sqrt) 2 1 qs 0).AFull.height = 3
    ∧ (∀ I J, J < 2 → J ≤ I → I < 3 →
        (LPanelPivoted.step (realScalars ℝ Real.sqrt) 2 1 qs 0).AFull.entry I J
          = qs.AFull.entry I J)
    ∧ (LPanelPivoted.step (realScalars ℝ Real.sqrt) 2 1 qs 0).AFull.entry 2 2
        = Real.sqrt (36 / 1777)
    ∧ (LPanelPivoted.step (realScalars ℝ Real.sqrt) 2 1 qs 0).p.entry 0 0 = qs.p.entry 0 0 := by
  have hpiv : LPanelPivoted.pivotOf (realScalars ℝ Real.sqrt) 2 1 qs 0 = 0 := by
    have := pivotOf_lt (realScalars ℝ Real.sqrt) 2 1 qs 0 (by decide)
    omega
  obtain ⟨eA, -, -⟩ := step_entries (realScalars ℝ Real.sqrt) 2 1 qs 0 (by rw [hh]) (by decide)
  have hs : ∀ I J, J ≤ I → I < 3 →
      (HermitianSwap (realScalars ℝ Real.sqrt) qs.AFull 2 2).entry I J = qs.AFull.entry I J := by
    intro I J h1 h2
    simp only [HermitianSwap, Matrix.hermEntry, Equiv.swap_self, Equiv.refl_apply, h1, hh, h2,
      and_self, if_true, or_self, realScalars_ofBase, realScalars_RealPart]
    by_cases h : I = J
    · subst h; simp
    · simp [h]
  have hcol : LPanelPivoted.column (realScalars ℝ Real.sqrt) 2 1 qs 0 0 = 36 / 1777 := by
    simp only [LPanelPivoted.column, hpiv, Nat.add_zero, Nat.zero_add, Finset.range_zero,
      Finset.sum_empty, mul_zero, zero_add, one_mul, hs 2 2 (le_refl _) (by decide), a22]
  have hdelta : LPanelPivoted.delta (realScalars ℝ Real.sqrt) 2 1 qs 0 = Real.sqrt (36 / 1777) := by
    simp only [LPanelPivoted.delta, hcol, realScalars_ofBase, realScalars_RealPart,
      realScalars_Sqrt]
  simp only [hpiv, hdelta, hcol, Nat.zero_add, Nat.add_zero] at eA
  refine ⟨hh, ?_, ?_, ?_⟩
  · intro I J h1 h2 h3
    have : ¬ (2 ≤ I ∧ I < 2 + 1 ∧ J = 2) := by omega
    rw [eA, if_neg this, hs I J h2 h3]
  · rw [eA, if_pos (by decide), if_pos rfl]
    simp only [realScalars_ofBase, realScalars_RealPart, sub_self, zero_add]
  · rw [step_p, hpiv]; simp



/-- Scenario S1: the run of `LVar3` with block size 2 on the matrix
`[[4,12,-16],[12,37,-43],[-16,-43,98]]` over the real numbers. -/
theorem s1_run :
    ∃ st : LVar3State ℝ, LVar3 (realScalars ℝ Real.sqrt) true 2 s1Matrix emptyPerm
        = .returned { A := st.A, p := st.p }
      ∧ st.p.entry 0 0 = 2 ∧ st.p.entry 1 0 = 1 ∧ st.p.entry 2 0 = 0
      ∧ st.A.entry 0 0 = Real.sqrt 98
      ∧ st.A.entry 1 0 = -43 / Real.sqrt 98 ∧ st.A.entry 1 1 = Real.sqrt (1777 / 98)
      ∧ st.A.entry 2 0 = -16 / Real.sqrt 98
      ∧ st.A.entry 2 1 = 244 / 49 / Real.sqrt (1777 / 98)
      ∧ st.A.entry 2 2 = Real.sqrt (36 / 1777) := by
  have e3 : (s1Matrix : Matrix ℝ).height = 3 := rfl
  obtain ⟨st, h1, h2, h3⟩ := LVar3_rule (realScalars ℝ Real.sqrt) true 2 (by decide) s1Matrix
    emptyPerm rfl
    (fun k st => st.A.height = 3 ∧
      ((k = 0 ∧ st.A = s1Matrix ∧ ∀ i, i < 3 → st.p.entry i 0 = i)
      ∨ (k = 2 ∧ st.p.entry 0 0 = 2 ∧ st.p.entry 1 0 = 1 ∧ st.p.entry 2 0 = 0
          ∧ st.A.entry 0 0 = Real.sqrt 98
          ∧ st.A.entry 1 0 = -43 / Real.sqrt 98 ∧ st.A.entry 1 1 = Real.sqrt (1777 / 98)
          ∧ st.A.entry 2 0 = -16 / Real.sqrt 98
          ∧ st.A.entry 2 1 = 244 / 49 / Real.sqrt (1777 / 98)
          ∧ st.A.entry 2 2 = 36 / 1777)
      ∨ (k = 3 ∧ st.p.entry 0 0 = 2 ∧ st.p.entry 1 0 = 1 ∧ st.p.entry 2 0 = 0
          ∧ st.A.entry 0 0 = Real.sqrt 98
          ∧ st.A.entry 1 0 = -43 / Real.sqrt 98 ∧ st.A.entry 1 1 = Real.sqrt (1777 / 98)
          ∧ st.A.entry 2 0 = -16 / Real.sqrt 98
          ∧ st.A.entry 2 1 = 244 / 49 / Real.sqrt (1777 / 98)
          ∧ st.A.entry 2 2 = Real.sqrt (36 / 1777))))
    ⟨rfl, Or.inl ⟨rfl, rfl, (initPerm_spec emptyPerm 3).2.2⟩⟩
    (by
      intro k st hk hinv
      obtain ⟨hh, hcase⟩ := hinv
      rw [e3] at hk ⊢
      rcases hcase with ⟨hk0, hA, hp⟩ | ⟨hk2, p0, p1, p2, a00, a10, a11, a20, a21, a22⟩ | ⟨hk3, -⟩
      · subst hk0
        refine ⟨_, LPanelPivoted_returned _ true st.A _ st.XB1 st.YB1 _ 0
          (Or.inr (by rw [hh]; exact ⟨rfl, rfl⟩)), ?_⟩
        rw [hh]
        simp only [Nat.sub_zero, Nat.zero_add, show min 2 3 = 2 from rfl, List.range_succ,
          List.range_zero, List.nil_append, List.cons_append, List.foldl_cons, List.foldl_nil]
        obtain ⟨g0, b00, b10, b20, b11, b21, b22, x10, x20, y10, y20, q0, q1, q2⟩ :=
          s1_step0 { AFull := st.A, p := View st.p ⟨0, 3⟩ ⟨0, 1⟩, X := Zeros 3 2, Y := Zeros 3 2 }
            hA (fun i hi => by simpa using hp i hi)
        obtain ⟨g1, c00, c10, c20, c11, c21, c22, u20, u21, v20, v21, r0, r1, r2⟩ :=
          s1_step1 _ g0 b00 b10 b20 b11 b21 b22 x10 x20 y10 y20 q0 q1 q2
        obtain ⟨t1, t2⟩ := s1_trrk _ g1 c22 u20 u21 v20 v21
        refine ⟨g1, Or.inr (Or.inl ⟨trivial, ?_, ?_, ?_, ?_, ?_, ?_, ?_, ?_, t2⟩)⟩
        · simpa using r0
        · simpa using r1
        · simpa using r2
        · rw [t1 0 0 (by decide)]; exact c00
        · rw [t1 1 0 (by decide)]; exact c10
        · rw [t1 1 1 (by decide)]; exact c11
        · rw [t1 2 0 (by decide)]; exact c20
        · rw [t1 2 1 (by decide)]; exact c21
      · subst hk2
        refine ⟨_, LPanelPivoted_returned _ true st.A _ st.XB1 st.YB1 _ 2
          (Or.inr (by rw [hh]; exact ⟨rfl, rfl⟩)), ?_⟩
        rw [hh]
        simp only [show 3 - 2 = 1 from rfl, show min 2 1 = 1 from rfl, show 2 + 1 = 3 from rfl,
          List.range_succ, List.range_zero, List.nil_append, List.foldl_cons, List.foldl_nil]
        obtain ⟨g0, b1, b22, q0⟩ := s1_step2
          { AFull := st.A, p := View st.p ⟨2, 3⟩ ⟨0, 1⟩, X := Zeros 1 1, Y := Zeros 1 1 } hh a22
        have hst : ∀ I J, J ≤ I → I < 3 →
            ((LPanelPivoted.step (realScalars ℝ Real.sqrt) 2 1
              { AFull := st.A, p := View st.p ⟨2, 3⟩ ⟨0, 1⟩, X := Zeros 1 1, Y := Zeros 1 1 }
              0).AFull.Store ⟨3, 3⟩ ⟨3, 3⟩
              (Trrk (-1)
                (LockedView (LPanelPivoted.step (realScalars ℝ Real.sqrt) 2 1
                  { AFull := st.A, p := View st.p ⟨2, 3⟩ ⟨0, 1⟩, X := Zeros 1 1, Y := Zeros 1 1 }
                  0).X ⟨1, 1⟩ ⟨0, 1⟩)
                (LockedView (LPanelPivoted.step (realScalars ℝ Real.sqrt) 2 1
                  { AFull := st.A, p := View st.p ⟨2, 3⟩ ⟨0, 1⟩, X := Zeros 1 1, Y := Zeros 1 1 }
                  0).Y ⟨1, 1⟩ ⟨0, 1⟩) 1
                (View (LPanelPivoted.step (realScalars ℝ Real.sqrt) 2 1
                  { AFull := st.A, p := View st.p ⟨2, 3⟩ ⟨0, 1⟩, X := Zeros 1 1, Y := Zeros 1 1 }
                  0).AFull ⟨3, 3⟩ ⟨3, 3⟩))).entry I J
            = (LPanelPivoted.step (realScalars ℝ Real.sqrt) 2 1
              { AFull := st.A, p := View st.p ⟨2, 3⟩ ⟨0, 1⟩, X := Zeros 1 1, Y := Zeros 1 1 }
              0).AFull.entry I J := by
          intro I J _ hI
          have : ¬ (3 ≤ I ∧ I < 3 ∧ 3 ≤ J ∧ J < 3) := by omega
          simp only [Store_entry, this, if_false]
        refine ⟨g0, Or.inr (Or.inr ⟨trivial, ?_, ?_, ?_, ?_, ?_, ?_, ?_, ?_, ?_⟩)⟩
        · simpa using p0
        · simpa using p1
        · simp only [Store_entry]
          rw [if_pos (by decide), q0]
          simpa using p2
        · rw [hst 0 0 (by decide) (by decide), b1 0 0 (by decide) (by decide) (by decide)]
          exact a00
        · rw [hst 1 0 (by decide) (by decide), b1 1 0 (by decide) (by decide) (by decide)]
          exact a10
        · rw [hst 1 1 (by decide) (by decide), b1 1 1 (by decide) (by decide) (by decide)]
          exact a11
        · rw [hst 2 0 (by decide) (by decide), b1 2 0 (by decide) (by decide) (by decide)]
          exact a20
        · rw [hst 2 1 (by decide) (by decide), b1 2 1 (by decide) (by decide) (by decide)]
          exact a21
        · rw [hst 2 2 (by decide) (by decide)]
          exact b22
      · omega)
  refine ⟨st, h1, ?_⟩
  rcases h3 with ⟨hk0, -⟩ | ⟨hk2, -⟩ | ⟨-, h⟩
  · exact absurd hk0 (by decide)
  · exact absurd hk2 (by decide)
  · exact h



/-- C6 fails on the code: on the matrix of scenario S1 `LVar3` (block size 2)
does not leave the lower triangle `[[2],[6,1],[-8,5,3]]` and `p = [0,1,2]`; the
first pivot is the largest diagonal entry `98`, so `p[0] = 2`. -/
theorem s1_unpivoted_result_false :
    ¬ ∃ st, LVar3 (realScalars ℝ Real.sqrt) true 2 s1Matrix emptyPerm = .returned st
      ∧ st.A.entry 0 0 = 2 ∧ st.A.entry 1 0 = 6 ∧ st.A.entry 1 1 = 1
      ∧ st.A.entry 2 0 = -8 ∧ st.A.entry 2 1 = 5 ∧ st.A.entry 2 2 = 3
      ∧ st.p.entry 0 0 = 0 ∧ st.p.entry 1 0 = 1 ∧ st.p.entry 2 0 = 2 := by
  rintro ⟨st, h1, -, -, -, -, -, -, hp0, -, -⟩
  obtain ⟨st', g1, g2, -⟩ := s1_run
  rw [g1] at h1
  injection h1 with h1
  rw [← h1] at hp0
  simp only at hp0
  rw [g2] at hp0
  exact absurd hp0 (by decide)

/-- C6, as the code has it: on the matrix of scenario S1 `LVar3` (block size 2)
returns the permutation vector `p = [2,1,0]` and the lower triangle
`[[√98], [-43/√98, √(1777/98)], [-16/√98, (244/49)/√(1777/98), √(36/1777)]]`. -/
theorem s1_pivoted_result :
    ∃ st, LVar3 (realScalars ℝ Real.sqrt) true 2 s1Matrix emptyPerm = .returned st
      ∧ st.p.entry 0 0 = 2 ∧ st.p.entry 1 0 = 1 ∧ st.p.entry 2 0 = 0
      ∧ st.A.entry 0 0 = Real.sqrt 98
      ∧ st.A.entry 1 0 = -43 / Real.sqrt 98 ∧ st.A.entry 1 1 = Real.sqrt (1777 / 98)
      ∧ st.A.entry 2 0 = -16 / Real.sqrt 98
      ∧ st.A.entry 2 1 = 244 / 49 / Real.sqrt (1777 / 98)
      ∧ st.A.entry 2 2 = Real.sqrt (36 / 1777) := by
  obtain ⟨st, h1, h2⟩ := s1_run
  exact ⟨_, h1, h2⟩

/-! ## The panel of `LPanelPivoted`, and the blocked against the unblocked algorithm -/

section PanelLemmas

variable {α : Type} {F R : Type} [Field F] [LinearOrderedField R]

theorem VectorMaxAbs_congr (S : Scalars F R) (x y : Matrix F) (hh : x.height = y.height)
    (he : ∀ i, i < x.height → x.entry i 0 = y.entry i 0) :
    VectorMaxAbs S x = VectorMaxAbs S y := by
  unfold VectorMaxAbs
  rw [← hh]
  apply List.foldl_ext
  intro a b hb
  have hb' := List.mem_range.mp hb
  simp only [Matrix.Get, he b hb']

/-- The entries of the matrix after one iteration of `LUnblockedPivoted`. -/
theorem ustep_entries (S : Scalars F R) (n : Nat) (st : FactorState F) (k : Nat)
    (hk : k < n) (I J : Nat) :
    (LUnblockedPivoted.step S n st k).A.entry I J
      = if I = k ∧ J = k then
          S.ofBase (S.Sqrt (S.RealPart ((HermitianSwap S st.A k
            (k + (pivot.Full S (View st.A ⟨k, n⟩ ⟨k, n⟩)).from0)).entry k k)))
        else if k + 1 ≤ I ∧ I < n ∧ J = k then
          S.ofBase (1 / S.Sqrt (S.RealPart ((HermitianSwap S st.A k
            (k + (pivot.Full S (View st.A ⟨k, n⟩ ⟨k, n⟩)).from0)).entry k k)))
            * (HermitianSwap S st.A k (k + (pivot.Full S (View st.A ⟨k, n⟩ ⟨k, n⟩)).from0)).entry I k
        else if k + 1 ≤ J ∧ J ≤ I ∧ I < n then
          (HermitianSwap S st.A k (k + (pivot.Full S (View st.A ⟨k, n⟩ ⟨k, n⟩)).from0)).entry I J
            + (-1) * ((S.ofBase (1 / S.Sqrt (S.RealPart ((HermitianSwap S st.A k
                (k + (pivot.Full S (View st.A ⟨k, n⟩ ⟨k, n⟩)).from0)).entry k k)))
                * (HermitianSwap S st.A k
                    (k + (pivot.Full S (View st.A ⟨k, n⟩ ⟨k, n⟩)).from0)).entry I k)
              * S.Conj (S.ofBase (1 / S.Sqrt (S.RealPart ((HermitianSwap S st.A k
                (k + (pivot.Full S (View st.A ⟨k, n⟩ ⟨k, n⟩)).from0)).entry k k)))
                * (HermitianSwap S st.A k
                    (k + (pivot.Full S (View st.A ⟨k, n⟩ ⟨k, n⟩)).from0)).entry J k))
        else (HermitianSwap S st.A k
            (k + (pivot.Full S (View st.A ⟨k, n⟩ ⟨k, n⟩)).from0)).entry I J := by
  set A1 := HermitianSwap S st.A k (k + (pivot.Full S (View st.A ⟨k, n⟩ ⟨k, n⟩)).from0) with hA1
  set δ := S.Sqrt (S.RealPart (A1.entry k k)) with hδ
  set A2 := A1.Store ⟨k, n⟩ ⟨k, n⟩ ((View A1 ⟨k, n⟩ ⟨k, n⟩).Set 0 0 (S.ofBase δ)) with hA2
  set A3 := A2.Store ⟨k + 1, n⟩ ⟨k, k + 1⟩ (Scale S (1 / δ) (View A2 ⟨k + 1, n⟩ ⟨k, k + 1⟩)) with hA3
  have e2 : ∀ I J, A2.entry I J = if I = k ∧ J = k then S.ofBase δ else A1.entry I J := by
    intro I J
    simp only [hA2, Store_entry, Set_entry, View_entry]
    by_cases h1 : k ≤ I ∧ I < n ∧ k ≤ J ∧ J < n
    · rw [if_pos h1]
      by_cases h2 : I = k ∧ J = k
      · have : I - k = 0 ∧ J - k = 0 := by omega
        rw [if_pos this, if_pos h2]
      · have : ¬ (I - k = 0 ∧ J - k = 0) := by omega
        rw [if_neg this, if_neg h2]
        congr 1 <;> omega
    · have h2 : ¬ (I = k ∧ J = k) := by omega
      rw [if_neg h1, if_neg h2]
  have e3 : ∀ I J, A3.entry I J = if I = k ∧ J = k then S.ofBase δ
      else if k + 1 ≤ I ∧ I < n ∧ J = k then S.ofBase (1 / δ) * A1.entry I k
      else A1.entry I J := by
    intro I J
    simp only [hA3, Store_entry, Scale, View_entry]
    by_cases h1 : k + 1 ≤ I ∧ I < n ∧ k ≤ J ∧ J < k + 1
    · have h2 : ¬ (I = k ∧ J = k) := by omega
      have h3 : k + 1 ≤ I ∧ I < n ∧ J = k := by omega
      rw [if_pos h1, if_neg h2, if_pos h3, e2]
      have h4 : ¬ (k + 1 + (I - (k + 1)) = k ∧ k + (J - k) = k) := by omega
      rw [if_neg h4]
      congr 2 <;> omega
    · have h3 : ¬ (k + 1 ≤ I ∧ I < n ∧ J = k) := by omega
      rw [if_neg h1, if_neg h3, e2]
  show (A3.Store ⟨k + 1, n⟩ ⟨k + 1, n⟩
      (Her S (-1) (View A3 ⟨k + 1, n⟩ ⟨k, k + 1⟩) (View A3 ⟨k + 1, n⟩ ⟨k + 1, n⟩))).entry I J = _
  simp only [Store_entry, Her, View_entry, View_height, Matrix.vecEntry, View_width]
  have hw : k + 1 - k = 1 := by omega
  simp only [hw, if_true]
  by_cases h1 : k + 1 ≤ I ∧ I < n ∧ k + 1 ≤ J ∧ J < n
  · rw [if_pos h1]
    have h2 : ¬ (I = k ∧ J = k) := by omega
    have h3 : ¬ (k + 1 ≤ I ∧ I < n ∧ J = k) := by omega
    rw [if_neg h2, if_neg h3]
    have eI : k + 1 + (I - (k + 1)) = I := by omega
    have eJ : k + 1 + (J - (k + 1)) = J := by omega
    rw [eI, eJ]
    by_cases h4 : J ≤ I
    · have h5 : J - (k + 1) ≤ I - (k + 1) ∧ I - (k + 1) < n - (k + 1) := by omega
      have h6 : k + 1 ≤ J ∧ J ≤ I ∧ I < n := by omega
      rw [if_pos h5, if_pos h6, e3 I J, e3 I (k + 0), e3 J (k + 0)]
      have h7 : ¬ (I = k ∧ J = k) := by omega
      have h8 : ¬ (k + 1 ≤ I ∧ I < n ∧ J = k) := by omega
      have h9 : ¬ (I = k ∧ k + 0 = k) := by omega
      have h10 : k + 1 ≤ I ∧ I < n ∧ k + 0 = k := by omega
      have h11 : ¬ (J = k ∧ k + 0 = k) := by omega
      have h12 : k + 1 ≤ J ∧ J < n ∧ k + 0 = k := by omega
      rw [if_neg h7, if_neg h8, if_neg h9, if_pos h10, if_neg h11, if_pos h12]
    · have h5 : ¬ (J - (k + 1) ≤ I - (k + 1) ∧ I - (k + 1) < n - (k + 1)) := by omega
      have h6 : ¬ (k + 1 ≤ J ∧ J ≤ I ∧ I < n) := by omega
      rw [if_neg h5, if_neg h6, e3]
      rw [if_neg h2, if_neg h3]
  · rw [if_neg h1, e3]
    have h6 : ¬ (k + 1 ≤ J ∧ J ≤ I ∧ I < n) := by omega
    rw [if_neg h6]

/-- One iteration of the panel keeps the panels `X`, `Y` in step with the matrix. -/
theorem link_step (S : Scalars F R) (n off k : Nat) (st : PanelState F)
    (hh : st.AFull.height = n) (hk : off + k < n)
    (hlink : PanelLink S n off k st.AFull st.X st.Y) :
    PanelLink S n off (k + 1) (LPanelPivoted.step S off (n - off) st k).AFull
      (LPanelPivoted.step S off (n - off) st k).X (LPanelPivoted.step S off (n - off) st k).Y := by
  have hkn : k < n - off := by omega
  have hn : off + (n - off) = st.AFull.height := by rw [hh]; omega
  have hpiv := pivotOf_lt S off (n - off) st k hkn
  obtain ⟨eA, eX, eY⟩ := step_entries S off (n - off) st k hn hkn
  set piv := LPanelPivoted.pivotOf S off (n - off) st k with hpivdef
  have hg : k + off = off + k := Nat.add_comm _ _
  have hb : k + piv + off = off + (k + piv) := Nat.add_comm _ _
  rw [hg, hb] at eA
  have hoffn : off + (n - off) = n := by omega
  rw [hoffn] at eA
  have hleft : ∀ I J, J < off + k → J ≤ I → I < n →
      (HermitianSwap S st.AFull (off + k) (off + (k + piv))).entry I J
        = st.AFull.entry (Equiv.swap (off + k) (off + (k + piv)) I) J := by
    intro I J h1 h2 h3
    exact HermitianSwap_left S st.AFull _ _ I J (by omega) h1 h2 (by rw [hh]; exact h3)
  intro r c hc hcr hrn
  by_cases hck : c = k
  · have h1 : k + 1 ≤ r ∧ r < n - off ∧ c = k := ⟨by omega, by omega, hck⟩
    have h2 : off + k ≤ off + r ∧ off + r < n ∧ off + c = off + k := by omega
    have h3 : ¬ off + r = off + k := by omega
    have h4 : off + r - off = r := by omega
    rw [eX, eY, eA, if_pos h1, if_pos h1, if_pos h2, if_neg h3, h4]
    exact ⟨rfl, rfl⟩
  · have h1 : ¬ (k + 1 ≤ r ∧ r < n - off ∧ c = k) := fun h => hck h.2.2
    have hc' : c < k := by omega
    have h2 : ¬ (off + k ≤ off + r ∧ off + r < n ∧ off + c = off + k) := by omega
    rw [eX, eY, eA, if_neg h1, if_neg h1, if_neg h2, hleft _ _ (by omega) (by omega) hrn]
    by_cases h3 : k ≤ r
    · have h4 : k ≤ r ∧ r < n - off ∧ c < k := ⟨h3, by omega, hc'⟩
      have h5 : k ≤ Equiv.swap k (k + piv) r := swap_ge _ _ _ k (le_refl _) (by omega) h3
      have h6 : Equiv.swap k (k + piv) r < n - off := swap_lt _ _ _ _ hkn (by omega) (by omega)
      rw [if_pos h4, if_pos h4, ← swap_add_left]
      exact hlink _ c hc' (by omega) (by omega)
    · have h4 : ¬ (k ≤ r ∧ r < n - off ∧ c < k) := fun h => h3 h.1
      rw [if_neg h4, if_neg h4, swap_of_lt _ _ _ (by omega) (by omega)]
      exact hlink r c hc' hcr hrn

/-- One iteration of the panel leaves the entries of `X` and `Y` on and above
the diagonal alone. -/
theorem upper_step (S : Scalars F R) (off n k : Nat) (st : PanelState F)
    (hn : off + n = st.AFull.height) (hk : k < n) (i j : Nat) (hij : i ≤ j) :
    (LPanelPivoted.step S off n st k).X.entry i j = st.X.entry i j
    ∧ (LPanelPivoted.step S off n st k).Y.entry i j = st.Y.entry i j := by
  obtain ⟨_, eX, eY⟩ := step_entries S off n st k hn hk
  have h1 : ¬ (k + 1 ≤ i ∧ i < n ∧ j = k) := by omega
  have h2 : ¬ (k ≤ i ∧ i < n ∧ j < k) := by omega
  rw [eX, eY, if_neg h1, if_neg h1, if_neg h2, if_neg h2]
  exact ⟨rfl, rfl⟩

/-- The panels on return from `LPanelPivoted`. -/
theorem panel_link (S : Scalars F R) (debug : Bool) (AFull : Matrix F) (p : Matrix Nat)
    (X Y : Matrix F) (bsize off n : Nat) (hn : off + n = AFull.height) (hb : bsize ≤ n)
    (hp : debug = false ∨ (p.height = n ∧ p.width = 1)) :
    ∃ r, LPanelPivoted S debug AFull p X Y bsize off = .returned r
      ∧ r.AFull.height = AFull.height
      ∧ (r.X.height = n ∧ r.X.width = bsize) ∧ (r.Y.height = n ∧ r.Y.width = bsize)
      ∧ PanelLink S (off + n) off bsize r.AFull r.X r.Y
      ∧ ∀ i j, i ≤ j → r.X.entry i j = 0 ∧ r.Y.entry i j = 0 := by
  have hn' : AFull.height - off = n := by omega
  refine ⟨_, LPanelPivoted_returned S debug AFull p X Y bsize off
    (by rw [hn']; exact hp), ?_⟩
  rw [hn']
  apply foldl_range_inv (LPanelPivoted.step S off n)
    (fun j (ps : PanelState F) => ps.AFull.height = AFull.height
      ∧ (ps.X.height = n ∧ ps.X.width = bsize) ∧ (ps.Y.height = n ∧ ps.Y.width = bsize)
      ∧ PanelLink S (off + n) off j ps.AFull ps.X ps.Y
      ∧ ∀ i j, i ≤ j → ps.X.entry i j = 0 ∧ ps.Y.entry i j = 0)
  · exact ⟨rfl, ⟨rfl, rfl⟩, ⟨rfl, rfl⟩, fun r c hc => absurd hc (Nat.not_lt_zero c),
      fun _ _ _ => ⟨rfl, rfl⟩⟩
  · rintro k ps hk ⟨h1, h2, h3, h4, h5⟩
    refine ⟨h1, h2, h3, ?_, fun i j hij => ?_⟩
    · have := link_step S (off + n) off k ps (by rw [h1, hn]) (by omega) h4
      have e : off + n - off = n := by omega
      rw [e] at this
      exact this
    · obtain ⟨g1, g2⟩ := upper_step S off n k ps (by rw [h1]; exact hn) (by omega) i j hij
      rw [g1, g2]
      exact h5 i j hij

/-- The column stored by iteration `k` of the panel. -/
theorem store_step (S : Scalars F R) (off n k : Nat) (st : PanelState F)
    (hn : off + n = st.AFull.height) (hk : k < n) (i : Nat) (hki : k < i) (hi : i < n) :
    (LPanelPivoted.step S off n st k).X.entry i k
        = (LPanelPivoted.step S off n st k).AFull.entry (off + i) (off + k)
    ∧ (LPanelPivoted.step S off n st k).Y.entry i k
        = S.Conj ((LPanelPivoted.step S off n st k).AFull.entry (off + i) (off + k)) := by
  obtain ⟨eA, eX, eY⟩ := step_entries S off n st k hn hk
  have h1 : k + 1 ≤ i ∧ i < n ∧ k = k := ⟨by omega, hi, rfl⟩
  have h2 : off + k ≤ off + i ∧ off + i < off + n ∧ off + k = off + k := by omega
  have h3 : ¬ off + i = off + k := by omega
  have h4 : off + i - off = i := by omega
  rw [eX, eY, eA, if_pos h1, if_pos h1, if_pos h2, if_neg h3, h4]
  exact ⟨rfl, rfl⟩

theorem trrk_entry (S : Scalars F R) (n off nb : Nat) (L X Y : Matrix F)
    (hlink : PanelLink S (off + n) off nb L X Y) (I J : Nat)
    (h1 : off + nb ≤ J) (h2 : J ≤ I) (h3 : I < off + n) :
    (L.Store ⟨off + nb, off + n⟩ ⟨off + nb, off + n⟩
        (Trrk (-1) (LockedView X ⟨nb, n⟩ ⟨0, nb⟩) (LockedView Y ⟨nb, n⟩ ⟨0, nb⟩) 1
          (View L ⟨off + nb, off + n⟩ ⟨off + nb, off + n⟩))).entry I J
      = L.entry I J
        - ∑ c in Finset.range nb, L.entry I (off + c) * S.Conj (L.entry J (off + c)) := by
  have hw : off + nb ≤ I ∧ I < off + n ∧ off + nb ≤ J ∧ J < off + n := by omega
  have hw2 : J - (off + nb) ≤ I - (off + nb) ∧ I - (off + nb) < off + n - (off + nb) := by omega
  have hI : off + nb + (I - (off + nb)) = I := by omega
  have hJ : off + nb + (J - (off + nb)) = J := by omega
  simp only [Store_entry, hw, and_self, if_true, Trrk, View_height, View_width, hw2,
    LockedView, View_entry, hI, hJ, Nat.sub_zero, Nat.zero_add]
  have e : ∑ c in Finset.range nb, X.entry (nb + (I - (off + nb))) c
        * Y.entry (nb + (J - (off + nb))) c
      = ∑ c in Finset.range nb, L.entry I (off + c) * S.Conj (L.entry J (off + c)) := by
    apply Finset.sum_congr rfl
    intro c hc
    have hc' := Finset.mem_range.mp hc
    have h4 := (hlink (nb + (I - (off + nb))) c hc' (by omega) (by omega)).1
    have h5 := (hlink (nb + (J - (off + nb))) c hc' (by omega) (by omega)).2
    have e1 : off + (nb + (I - (off + nb))) = I := by omega
    have e2 : off + (nb + (J - (off + nb))) = J := by omega
    rw [h4, h5, e1, e2]
  rw [e]
  ring

/-- The lazy and the eager iteration choose the same pivot. -/
theorem lazyEager_pivot (S : Scalars F R) (n off k : Nat) (U : FactorState F) (P : PanelState F)
    (hk : off + k < n) (h : LazyEager S n off k U P) :
    LPanelPivoted.pivotOf S off (n - off) P k
      = (pivot.Full S (View U.A ⟨off + k, n⟩ ⟨off + k, n⟩)).from0 := by
  unfold LPanelPivoted.pivotOf pivot.PanelFull pivot.Full
  simp only
  congr 1
  apply VectorMaxAbs_congr
  · rw [PanelFull_diag_height]
    simp only [View_height, View_width, Matrix.GetDiagonal, Nat.min_self]
    omega
  · intro i hi
    rw [PanelFull_diag_height] at hi
    simp only [View_height, View_width, Nat.min_self] at hi
    rw [pivotOf_diag S off (n - off) P k i hi]
    simp only [Matrix.GetDiagonal, View_entry]
    rw [h.trail (off + (k + i)) (off + (k + i)) (by omega) (le_refl _) (by omega)]
    have e : off + (k + i) - off = k + i := by omega
    rw [e, Nat.add_assoc]
    ring

theorem ustep_p (S : Scalars F R) (n : Nat) (st : FactorState F) (k : Nat) :
    (LUnblockedPivoted.step S n st k).p
      = RowSwap st.p k (k + (pivot.Full S (View st.A ⟨k, n⟩ ⟨k, n⟩)).from0) := rfl

theorem ustep_height (S : Scalars F R) (n : Nat) (st : FactorState F) (k : Nat) :
    (LUnblockedPivoted.step S n st k).A.height = st.A.height := rfl

/-- Both swapped matrices in terms of the Hermitian matrix held by the eager state. -/
theorem lazyEager_swap (S : Scalars F R) (hS : S.Lawful) (n off k b : Nat) (U : FactorState F)
    (P : PanelState F) (hgb : off + k ≤ b) (hb : b < n) (h : LazyEager S n off k U P)
    (I J : Nat) (hJ : off + k ≤ J) (hJI : J ≤ I) (hI : I < n) :
    (HermitianSwap S U.A (off + k) b).entry I J
        = U.A.hermEntry S (Equiv.swap (off + k) b I) (Equiv.swap (off + k) b J)
    ∧ (HermitianSwap S P.AFull (off + k) b).entry I J
        = U.A.hermEntry S (Equiv.swap (off + k) b I) (Equiv.swap (off + k) b J)
          + ∑ c in Finset.range k, P.X.entry (Equiv.swap (off + k) b I - off) c
              * P.Y.entry (Equiv.swap (off + k) b J - off) c := by
  have hTUH : ∀ i j, off + k ≤ i → i < n → off + k ≤ j → j < n →
      U.A.hermEntry S j i = S.Conj (U.A.hermEntry S i j) := by
    intro i j h1 h2 h3 h4
    unfold Matrix.hermEntry
    rcases Nat.lt_trichotomy i j with hij | hij | hij
    · have e1 : i ≤ j := by omega
      have e2 : ¬ j ≤ i := by omega
      rw [if_pos e1, if_neg e2, hS.conj_conj]
    · subst hij
      rw [if_pos (le_refl _), h.real i h1 h2]
    · have e1 : ¬ i ≤ j := by omega
      have e2 : j ≤ i := by omega
      rw [if_neg e1, if_pos e2]
  have hXY : ∀ i c, off + k ≤ i → i < n → c < k →
      P.Y.entry (i - off) c = S.Conj (P.X.entry (i - off) c) := by
    intro i c h1 h2 h3
    obtain ⟨g1, g2⟩ := h.link (i - off) c h3 (by omega) (by omega)
    rw [g1, g2]
  have hXYH : ∀ i j, off + k ≤ i → i < n → off + k ≤ j → j < n →
      ∑ c in Finset.range k, P.X.entry (j - off) c * P.Y.entry (i - off) c
        = S.Conj (∑ c in Finset.range k, P.X.entry (i - off) c * P.Y.entry (j - off) c) := by
    intro i j h1 h2 h3 h4
    rw [hS.conj_sum]
    apply Finset.sum_congr rfl
    intro c hc
    have hc' := Finset.mem_range.mp hc
    rw [hS.conj_mul, hXY i c h1 h2 hc', hXY j c h3 h4 hc', hS.conj_conj, mul_comm]
  constructor
  · exact HermitianSwap_trail S hS U.A (fun i j => U.A.hermEntry S i j) (off + k) b n I J hgb hb
      h.heightU (fun i j _ h2 _ => by simp only [Matrix.hermEntry, h2, if_true]) hTUH hJ hJI hI
  · exact HermitianSwap_trail S hS P.AFull
      (fun i j => U.A.hermEntry S i j
        + ∑ c in Finset.range k, P.X.entry (i - off) c * P.Y.entry (j - off) c)
      (off + k) b n I J hgb hb h.heightP
      (fun i j h1 h2 h3 => by
        simp only [Matrix.hermEntry, h2, if_true]
        exact h.trail i j h1 h2 h3)
      (fun i j h1 h2 h3 h4 => by
        simp only
        rw [hS.conj_add, ← hTUH i j h1 h2 h3 h4, ← hXYH i j h1 h2 h3 h4])
      hJ hJI hI


theorem swap_sub (off k b I : Nat) (hI : off + k ≤ I) (hb : off + k ≤ b) :
    Equiv.swap (off + k) b I - off = Equiv.swap k (b - off) (I - off) := by
  simp only [Equiv.swap_apply_def]
  split_ifs <;> omega

/-- One iteration of the panel and one iteration of the unblocked loop keep
the two states in step. -/
theorem lazyEager_step (S : Scalars F R) (hS : S.Lawful) (n off k : Nat) (U : FactorState F)
    (P : PanelState F) (hk : off + k < n) (h : LazyEager S n off k U P) :
    LazyEager S n off (k + 1) (LUnblockedPivoted.step S n U (off + k))
      (LPanelPivoted.step S off (n - off) P k) := by
  have hkn : k < n - off := by omega
  have hn : off + (n - off) = P.AFull.height := by rw [h.heightP]; omega
  have hpivlt := pivotOf_lt S off (n - off) P k hkn
  have hpiv := lazyEager_pivot S n off k U P hk h
  obtain ⟨eA, eX, eY⟩ := step_entries S off (n - off) P k hn hkn
  have eU := ustep_entries S n U (off + k) hk
  have ePp := step_p S off (n - off) P k
  have eUp := ustep_p S n U (off + k)
  rw [← hpiv] at eU eUp
  set piv := LPanelPivoted.pivotOf S off (n - off) P k with hpivdef
  have hg : k + off = off + k := Nat.add_comm _ _
  have hb : k + piv + off = off + k + piv := by omega
  rw [hg, hb] at eA
  have hoffn : off + (n - off) = n := by omega
  rw [hoffn] at eA
  set b := (off + k) + piv with hbdef
  have hgb : (off + k) ≤ b := by omega
  have hbn : b < n := by omega
  have hbo : b - off = k + piv := by omega
  set U1 := HermitianSwap S U.A (off + k) b with hU1
  set P1 := HermitianSwap S P.AFull (off + k) b with hP1
  have hsw := lazyEager_swap S hS n off k b U P hgb hbn h
  have hleftU : ∀ I J, J < (off + k) → J ≤ I → I < n → U1.entry I J = U.A.entry (Equiv.swap (off + k) b I) J :=
    fun I J h1 h2 h3 => HermitianSwap_left S U.A (off + k) b I J hgb h1 h2 (by rw [h.heightU]; exact h3)
  have hleftP : ∀ I J, J < (off + k) → J ≤ I → I < n →
      P1.entry I J = P.AFull.entry (Equiv.swap (off + k) b I) J :=
    fun I J h1 h2 h3 => HermitianSwap_left S P.AFull (off + k) b I J hgb h1 h2 (by rw [h.heightP]; exact h3)
  -- the swapped trailing blocks
  have htrail1 : ∀ I J, (off + k) ≤ J → J ≤ I → I < n →
      P1.entry I J = U1.entry I J
        + ∑ c in Finset.range k, P.X.entry (Equiv.swap k (k + piv) (I - off)) c
            * P.Y.entry (Equiv.swap k (k + piv) (J - off)) c := by
    intro I J h1 h2 h3
    rw [(hsw I J h1 h2 h3).1, (hsw I J h1 h2 h3).2, swap_sub off k b I (by omega) hgb,
      swap_sub off k b J h1 hgb, hbo]
  -- the updated column
  have hcol : ∀ i, k ≤ i → off + i < n →
      LPanelPivoted.column S off (n - off) P k i = U1.entry (off + i) (off + k) := by
    intro i hi hin
    unfold LPanelPivoted.column
    simp only [← hpivdef]
    rw [hg, hb, ← hP1, htrail1 (off + i) (off + k) (le_refl _) (by omega) hin]
    have e1 : off + i - off = i := by omega
    have e2 : (off + k) - off = k := by omega
    rw [e1, e2, Equiv.swap_apply_left]
    ring
  have hdelta : LPanelPivoted.delta S off (n - off) P k = S.Sqrt (S.RealPart (U1.entry (off + k) (off + k))) := by
    unfold LPanelPivoted.delta
    rw [hcol k (le_refl _) hk, hS.re_ofBase]
  rw [hcol k (le_refl _) hk, hdelta] at eA
  simp only [hdelta] at eX eY
  set δ := S.Sqrt (S.RealPart (U1.entry (off + k) (off + k))) with hδ
  refine ⟨?_, ?_, ?_, ?_, ?_, ?_, ?_⟩
  · rw [ustep_height]; exact h.heightU
  · rw [(step_dims S off (n - off) P k).1]; exact h.heightP
  · -- finished columns
    intro I J hJ hJI hI
    rw [eA, eU]
    by_cases hJg : J = (off + k)
    · by_cases hIg : I = (off + k)
      · have h1 : (off + k) ≤ I ∧ I < n ∧ J = (off + k) := by omega
        have h2 : I = (off + k) ∧ J = (off + k) := ⟨hIg, hJg⟩
        rw [if_pos h1, if_pos hIg, if_pos h2, hS.re_ofBase, sub_self, zero_add]
      · have h1 : (off + k) ≤ I ∧ I < n ∧ J = (off + k) := by omega
        have h2 : ¬ (I = (off + k) ∧ J = (off + k)) := fun h => hIg h.1
        have h3 : (off + k) + 1 ≤ I ∧ I < n ∧ J = (off + k) := by omega
        rw [if_pos h1, if_neg hIg, if_neg h2, if_pos h3, hcol (I - off) (by omega) (by omega)]
        have e : off + (I - off) = I := by omega
        rw [e]
    · have h1 : ¬ ((off + k) ≤ I ∧ I < n ∧ J = (off + k)) := fun h => hJg h.2.2
      have h2 : ¬ (I = (off + k) ∧ J = (off + k)) := fun h => hJg h.2
      have h3 : ¬ ((off + k) + 1 ≤ I ∧ I < n ∧ J = (off + k)) := fun h => hJg h.2.2
      have h4 : ¬ ((off + k) + 1 ≤ J ∧ J ≤ I ∧ I < n) := by omega
      rw [if_neg h1, if_neg h2, if_neg h3, if_neg h4, hleftP I J (by omega) hJI hI,
        hleftU I J (by omega) hJI hI]
      apply h.left _ _ (by omega) _ (swap_lt (off + k) b I n (by omega) hbn hI)
      simp only [Equiv.swap_apply_def]
      split_ifs <;> omega
  · -- trailing block
    intro I J hJ hJI hI
    have h1 : ¬ ((off + k) ≤ I ∧ I < n ∧ J = (off + k)) := by omega
    have h2 : ¬ (I = (off + k) ∧ J = (off + k)) := by omega
    have h3 : ¬ ((off + k) + 1 ≤ I ∧ I < n ∧ J = (off + k)) := by omega
    have h4 : (off + k) + 1 ≤ J ∧ J ≤ I ∧ I < n := by omega
    rw [eA, eU, if_neg h1, if_neg h2, if_neg h3, if_pos h4, Finset.sum_range_succ,
      htrail1 I J (by omega) hJI hI]
    have e1 : ∑ c in Finset.range k,
        (LPanelPivoted.step S off (n - off) P k).X.entry (I - off) c
          * (LPanelPivoted.step S off (n - off) P k).Y.entry (J - off) c
        = ∑ c in Finset.range k, P.X.entry (Equiv.swap k (k + piv) (I - off)) c
            * P.Y.entry (Equiv.swap k (k + piv) (J - off)) c := by
      apply Finset.sum_congr rfl
      intro c hc
      have hc' := Finset.mem_range.mp hc
      have q1 : ¬ (k + 1 ≤ I - off ∧ I - off < n - off ∧ c = k) := by omega
      have q2 : k ≤ I - off ∧ I - off < n - off ∧ c < k := by omega
      have q3 : ¬ (k + 1 ≤ J - off ∧ J - off < n - off ∧ c = k) := by omega
      have q4 : k ≤ J - off ∧ J - off < n - off ∧ c < k := by omega
      rw [eX, eY, if_neg q1, if_pos q2, if_neg q3, if_pos q4]
    have q5 : k + 1 ≤ I - off ∧ I - off < n - off ∧ k = k := by omega
    have q6 : k + 1 ≤ J - off ∧ J - off < n - off ∧ k = k := by omega
    have e2 : off + (I - off) = I := by omega
    have e3 : off + (J - off) = J := by omega
    rw [e1, eX, eY, if_pos q5, if_pos q6, hcol (I - off) (by omega) (by omega),
      hcol (J - off) (by omega) (by omega), e2, e3]
    ring
  · have := link_step S n off k P h.heightP hk h.link
    exact this
  · -- permutation vectors
    intro i hi
    rw [ePp, eUp, RowSwap_entry, RowSwap_entry]
    have e : Equiv.swap (off + k) ((off + k) + piv) (off + i) = off + Equiv.swap k (k + piv) i := by
      rw [swap_add_left, Nat.add_assoc]
    rw [e]
    apply h.perm
    have := swap_lt k (k + piv) i (n - off) hkn (by omega) (by omega)
    omega
  · -- the trailing diagonal stays real
    intro I hI1 hI2
    have h2 : ¬ (I = (off + k) ∧ I = (off + k)) := by omega
    have h3 : ¬ ((off + k) + 1 ≤ I ∧ I < n ∧ I = (off + k)) := by omega
    have h4 : (off + k) + 1 ≤ I ∧ I ≤ I ∧ I < n := by omega
    rw [eU, if_neg h2, if_neg h3, if_pos h4]
    have hreal : S.Conj (U1.entry I I) = U1.entry I I := by
      rw [(hsw I I (by omega) (le_refl _) hI2).1]
      unfold Matrix.hermEntry
      rw [if_pos (le_refl _)]
      exact h.real _ (swap_ge (off + k) b I (off + k) (le_refl _) hgb (by omega)) (swap_lt (off + k) b I n (by omega) hbn hI2)
    rw [hS.conj_add, hS.conj_mul, hS.conj_mul, hS.conj_conj, hS.conj_neg, hS.conj_one, hreal]
    ring

theorem foldl_range_succ {σ : Type} (f : σ → Nat → σ) (s : σ) (g : Nat) :
    (List.range (g + 1)).foldl f s = f ((List.range g).foldl f s) g := by
  rw [List.range_succ, List.foldl_append]
  rfl

theorem ustep_p_lt (S : Scalars F R) (n : Nat) (st : FactorState F) (k i : Nat) (hi : i < k) :
    (LUnblockedPivoted.step S n st k).p.entry i 0 = st.p.entry i 0 := by
  rw [ustep_p, RowSwap_entry, swap_of_lt _ _ _ hi (by omega)]

/-- The iterations of one panel against the same iterations of the unblocked loop. -/
theorem lazyEager_panel (S : Scalars F R) (hS : S.Lawful) (debug : Bool) (n off nb : Nat)
    (s0 : FactorState F) (AFull : Matrix F) (pB : Matrix Nat) (X Y : Matrix F)
    (hnb : off + nb ≤ n) (hpB : pB.height = n - off ∧ pB.width = 1)
    (h : LazyEager S n off 0 ((List.range off).foldl (LUnblockedPivoted.step S n) s0)
      { AFull := AFull, p := pB, X := Zeros (n - off) nb, Y := Zeros (n - off) nb }) :
    ∃ r, LPanelPivoted S debug AFull pB X Y nb off = .returned r
      ∧ LazyEager S n off nb ((List.range (off + nb)).foldl (LUnblockedPivoted.step S n) s0) r
      ∧ ∀ i, i < off →
          ((List.range (off + nb)).foldl (LUnblockedPivoted.step S n) s0).p.entry i 0
            = ((List.range off).foldl (LUnblockedPivoted.step S n) s0).p.entry i 0 := by
  have hh : AFull.height = n := h.heightP
  refine ⟨_, LPanelPivoted_returned S debug AFull pB X Y nb off (Or.inr (by rw [hh]; exact hpB)), ?_⟩
  rw [hh]
  apply foldl_range_inv (LPanelPivoted.step S off (n - off))
    (fun j (ps : PanelState F) =>
      LazyEager S n off j ((List.range (off + j)).foldl (LUnblockedPivoted.step S n) s0) ps
      ∧ ∀ i, i < off →
          ((List.range (off + j)).foldl (LUnblockedPivoted.step S n) s0).p.entry i 0
            = ((List.range off).foldl (LUnblockedPivoted.step S n) s0).p.entry i 0)
  · exact ⟨h, fun _ _ => rfl⟩
  · rintro j ps hj ⟨h1, h2⟩
    have e : off + (j + 1) = (off + j) + 1 := by omega
    rw [e, foldl_range_succ]
    refine ⟨lazyEager_step S hS n off j _ ps (by omega) h1, fun i hi => ?_⟩
    rw [ustep_p_lt S n _ (off + j) i (by omega)]
    exact h2 i hi

/-- The blocked `LVar3` against the unblocked loop: the same permutation vector
and the same lower triangle. -/
theorem LVar3_unblocked_aux (S : Scalars F R) (hS : S.Lawful) (debug : Bool) (bsize : Nat)
    (hb : 0 < bsize) (A0 : Matrix F) (p0 : Matrix Nat) (s0 : FactorState F)
    (hsq : A0.height = A0.width) (hs0A : s0.A = A0)
    (hs0p : ∀ i, i < A0.height → s0.p.entry i 0 = i)
    (hreal : ∀ i, i < A0.height → S.Conj (A0.entry i i) = A0.entry i i) :
    ∃ st : LVar3State F, LVar3 S debug bsize A0 p0 = .returned { A := st.A, p := st.p }
      ∧ st.p.height = A0.height ∧ st.p.width = 1
      ∧ (∀ i, i < A0.height → st.p.entry i 0
          = ((List.range A0.height).foldl (LUnblockedPivoted.step S A0.height) s0).p.entry i 0)
      ∧ ∀ I J, J ≤ I → I < A0.height → st.A.entry I J
          = ((List.range A0.height).foldl (LUnblockedPivoted.step S A0.height) s0).A.entry I J := by
  obtain ⟨st, h1, h2⟩ := LVar3_rule S debug bsize hb A0 p0 hsq
    (fun k st => st.A.height = A0.height ∧ st.p.height = A0.height ∧ st.p.width = 1
      ∧ ((List.range k).foldl (LUnblockedPivoted.step S A0.height) s0).A.height = A0.height
      ∧ (∀ i, i < A0.height → st.p.entry i 0
          = ((List.range k).foldl (LUnblockedPivoted.step S A0.height) s0).p.entry i 0)
      ∧ (∀ I J, J ≤ I → I < A0.height → st.A.entry I J
          = ((List.range k).foldl (LUnblockedPivoted.step S A0.height) s0).A.entry I J)
      ∧ ∀ I, k ≤ I → I < A0.height →
          S.Conj (((List.range k).foldl (LUnblockedPivoted.step S A0.height) s0).A.entry I I)
            = ((List.range k).foldl (LUnblockedPivoted.step S A0.height) s0).A.entry I I)
    (by
      have e0 : (List.range 0).foldl (LUnblockedPivoted.step S A0.height) s0 = s0 := rfl
      refine ⟨rfl, (initPerm_spec p0 A0.height).1, (initPerm_spec p0 A0.height).2.1, ?_,
        fun i hi => ?_, fun I J _ _ => ?_, fun I _ hI => ?_⟩
      · rw [e0, hs0A]
      · rw [e0, hs0p i hi]
        exact (initPerm_spec p0 A0.height).2.2 i hi
      · rw [e0, hs0A]
      · rw [e0, hs0A]
        exact hreal I hI)
    (by
      rintro k st hk ⟨g1, g2, g3, g4, g5, g6, g7⟩
      set nb := min bsize (A0.height - k) with hnb
      have hle : k + nb ≤ A0.height := by omega
      obtain ⟨r, hr, q1, q2⟩ := lazyEager_panel S hS debug A0.height k nb s0 st.A
        (View st.p ⟨k, A0.height⟩ ⟨0, 1⟩) st.XB1 st.YB1 hle ⟨rfl, rfl⟩
        ⟨g4, g1, fun I J h1 h2 h3 => g6 I J h2 h3,
          fun I J h1 h2 h3 => by
            rw [Finset.range_zero, Finset.sum_empty, add_zero]; exact g6 I J h2 h3,
          fun r c hc => absurd hc (Nat.not_lt_zero c),
          fun i hi => by simpa using g5 (k + i) hi,
          fun I h1 h2 => g7 I (by omega) h2⟩
      refine ⟨r, hr, ?_, g2, g3, q1.heightU, fun i hi => ?_, fun I J hJI hI => ?_,
        fun I h1 h2 => q1.real I h1 h2⟩
      · simp only [Store_height]; exact q1.heightP
      · simp only [Store_entry]
        by_cases hik : k ≤ i
        · have : k ≤ i ∧ i < A0.height ∧ 0 ≤ 0 ∧ 0 < 1 := ⟨hik, hi, le_refl _, Nat.one_pos⟩
          rw [if_pos this]
          have := q1.perm (i - k) (by omega)
          rw [show k + (i - k) = i by omega] at this
          simpa using this
        · have : ¬ (k ≤ i ∧ i < A0.height ∧ 0 ≤ 0 ∧ 0 < 1) := fun h => hik h.1
          rw [if_neg this, g5 i hi, q2 i (by omega)]
      · by_cases hJ : k + nb ≤ J
        · have hlink : PanelLink S (k + (A0.height - k)) k nb r.AFull r.X r.Y := by
            have e : k + (A0.height - k) = A0.height := by omega
            rw [e]; exact q1.link
          have e : k + (A0.height - k) = A0.height := by omega
          have := trrk_entry S (A0.height - k) k nb r.AFull r.X r.Y hlink I J hJ hJI (by omega)
          rw [e] at this
          rw [this, q1.trail I J hJ hJI hI]
          have e2 : ∑ c in Finset.range nb, r.AFull.entry I (k + c) * S.Conj (r.AFull.entry J (k + c))
              = ∑ c in Finset.range nb, r.X.entry (I - k) c * r.Y.entry (J - k) c := by
            apply Finset.sum_congr rfl
            intro c hc
            have hc' := Finset.mem_range.mp hc
            obtain ⟨w1, _⟩ := q1.link (I - k) c hc' (by omega) (by omega)
            obtain ⟨_, w2⟩ := q1.link (J - k) c hc' (by omega) (by omega)
            rw [w1, w2, show k + (I - k) = I by omega, show k + (J - k) = J by omega]
          rw [e2]
          ring
        · have : ¬ (k + nb ≤ I ∧ I < A0.height ∧ k + nb ≤ J ∧ J < A0.height) := fun h => hJ h.2.2.1
          simp only [Store_entry, this, if_false]
          exact q1.left I J (by omega) hJI hI)
  obtain ⟨g1, g2, g3, g4, g5, g6, g7⟩ := h2
  exact ⟨st, h1, g2, g3, g5, g6⟩

/-- C11: pivot application in `LPanelPivoted`.  In iteration `k` of the panel,
with `a` the index returned by `pivot::PanelFull` on the trailing block and
`from = k + a < n`: outside the column being finished the full matrix is
`HermitianSwap( LOWER, AFull, k+off, from+off )`; `p` is `RowSwap( p, k, from )`;
the columns `0, ..., k-1` of `X` and of `Y` (the views `XB0`, `YB0`) have their
panel rows `k` and `from` exchanged; this is one transposition, shifted by `off`
on the matrix; so the panels stay in step with the matrix (row `r` of `X` and
`Y` holds the finished part of matrix row `off + r`) and `p[r]` is the label of
the matrix row now at position `off + r`. -/
theorem LPanelPivoted_pivot_applied (S : Scalars F R) (off n : Nat) (st : PanelState F) (k : Nat)
    (hn : off + n = st.AFull.height) (hk : k < n)
    (hlink : PanelLink S (off + n) off k st.AFull st.X st.Y) :
    LPanelPivoted.pivotOf S off n st k
        = (pivot.PanelFull S
            (View (View st.AFull ⟨off, st.AFull.height⟩ ⟨off, st.AFull.height⟩) ⟨k, n⟩ ⟨k, n⟩)
            (View st.X ⟨k, n⟩ ⟨0, k⟩) (View st.Y ⟨k, n⟩ ⟨0, k⟩)).from0
    ∧ k + LPanelPivoted.pivotOf S off n st k < n
    ∧ (∀ I J, ¬ (off + k ≤ I ∧ I < off + n ∧ J = off + k) →
        (LPanelPivoted.step S off n st k).AFull.entry I J
          = (HermitianSwap S st.AFull (k + off)
              (k + LPanelPivoted.pivotOf S off n st k + off)).entry I J)
    ∧ (LPanelPivoted.step S off n st k).p
        = RowSwap st.p k (k + LPanelPivoted.pivotOf S off n st k)
    ∧ (∀ i j, j < k →
        (LPanelPivoted.step S off n st k).X.entry i j
          = (RowSwap st.X k (k + LPanelPivoted.pivotOf S off n st k)).entry i j
        ∧ (LPanelPivoted.step S off n st k).Y.entry i j
          = (RowSwap st.Y k (k + LPanelPivoted.pivotOf S off n st k)).entry i j)
    ∧ (∀ r, Equiv.swap (k + off) (k + LPanelPivoted.pivotOf S off n st k + off) (off + r)
        = off + Equiv.swap k (k + LPanelPivoted.pivotOf S off n st k) r)
    ∧ PanelLink S (off + n) off (k + 1) (LPanelPivoted.step S off n st k).AFull
        (LPanelPivoted.step S off n st k).X (LPanelPivoted.step S off n st k).Y
    ∧ (∀ σ : Nat → Nat, (∀ r, r < n → st.p.entry r 0 = σ (off + r)) →
        ∀ r, r < n → (LPanelPivoted.step S off n st k).p.entry r 0
          = σ (Equiv.swap (k + off) (k + LPanelPivoted.pivotOf S off n st k + off) (off + r))) := by
  have hpiv := pivotOf_lt S off n st k hk
  obtain ⟨eA, eX, eY⟩ := step_entries S off n st k hn hk
  have hsw : ∀ r, Equiv.swap (k + off) (k + LPanelPivoted.pivotOf S off n st k + off) (off + r)
      = off + Equiv.swap k (k + LPanelPivoted.pivotOf S off n st k) r := by
    intro r
    rw [swap_add_left, Nat.add_comm k off, Nat.add_comm (k + _) off]
  refine ⟨rfl, by omega, fun I J hIJ => ?_, step_p S off n st k, fun i j hj => ?_, hsw, ?_,
    fun σ hσ r hr => ?_⟩
  · rw [eA, if_neg hIJ]
  · have h1 : ¬ (k + 1 ≤ i ∧ i < n ∧ j = k) := by omega
    rw [eX, eY, if_neg h1, if_neg h1, RowSwap_entry, RowSwap_entry]
    by_cases h2 : k ≤ i ∧ i < n ∧ j < k
    · rw [if_pos h2, if_pos h2]
      exact ⟨rfl, rfl⟩
    · rw [if_neg h2, if_neg h2]
      have : Equiv.swap k (k + LPanelPivoted.pivotOf S off n st k) i = i := by
        simp only [Equiv.swap_apply_def]
        split_ifs <;> omega
      rw [this]
      exact ⟨rfl, rfl⟩
  · have := link_step S (off + n) off k st hn.symm (by omega) hlink
    have e : off + n - off = n := by omega
    rw [e] at this
    exact this
  · rw [step_p, RowSwap_entry, hsw]
    exact hσ _ (swap_lt _ _ _ _ hk (by omega) hr)

/-- C12: column finish in `LPanelPivoted`.  In iteration `k` of the panel, with
`A1`, `X1`, `Y1` the matrix and the panels after the pivot is applied, column `k`
of the trailing block becomes `u[i] = A1[i][k] - sum_{c<k} X1[i][c] * Y1[k][c]`
for the rows `i ≥ k`; with `delta = Sqrt(Re(u[k]))` the diagonal entry is set to
`delta`, which is real, the entries below it are `u[i]` multiplied by `1/delta`,
and no other entry of the matrix differs from `A1`. -/
theorem LPanelPivoted_column_finish (S : Scalars F R) (hS : S.Lawful) (off n : Nat)
    (st : PanelState F) (k : Nat) (hn : off + n = st.AFull.height) (hk : k < n) :
    (∀ i, LPanelPivoted.column S off n st k i
        = (HermitianSwap S st.AFull (k + off)
              (k + LPanelPivoted.pivotOf S off n st k + off)).entry (off + i) (off + k)
          - ∑ c in Finset.range k,
              (RowSwap st.X k (k + LPanelPivoted.pivotOf S off n st k)).entry i c
                * (RowSwap st.Y k (k + LPanelPivoted.pivotOf S off n st k)).entry k c)
    ∧ (LPanelPivoted.step S off n st k).AFull.entry (off + k) (off + k)
        = S.ofBase (S.Sqrt (S.RealPart (LPanelPivoted.column S off n st k k)))
    ∧ S.Conj ((LPanelPivoted.step S off n st k).AFull.entry (off + k) (off + k))
        = (LPanelPivoted.step S off n st k).AFull.entry (off + k) (off + k)
    ∧ (∀ i, k < i → i < n →
        (LPanelPivoted.step S off n st k).AFull.entry (off + i) (off + k)
          = S.ofBase (1 / S.Sqrt (S.RealPart (LPanelPivoted.column S off n st k k)))
              * LPanelPivoted.column S off n st k i)
    ∧ (∀ I J, ¬ (off + k ≤ I ∧ I < off + n ∧ J = off + k) →
        (LPanelPivoted.step S off n st k).AFull.entry I J
          = (HermitianSwap S st.AFull (k + off)
              (k + LPanelPivoted.pivotOf S off n st k + off)).entry I J) := by
  obtain ⟨eA, _, _⟩ := step_entries S off n st k hn hk
  have hdelta : LPanelPivoted.delta S off n st k
      = S.Sqrt (S.RealPart (LPanelPivoted.column S off n st k k)) := by
    unfold LPanelPivoted.delta
    rw [hS.re_ofBase]
  have hdiag : (LPanelPivoted.step S off n st k).AFull.entry (off + k) (off + k)
      = S.ofBase (S.Sqrt (S.RealPart (LPanelPivoted.column S off n st k k))) := by
    have h1 : off + k ≤ off + k ∧ off + k < off + n ∧ off + k = off + k := by omega
    rw [eA, if_pos h1, if_pos rfl, hS.re_ofBase, sub_self, zero_add, hdelta]
  refine ⟨fun i => ?_, hdiag, ?_, fun i hki hi => ?_, fun I J hIJ => ?_⟩
  · unfold LPanelPivoted.column
    simp only [RowSwap_entry, Equiv.swap_apply_left]
    ring
  · rw [hdiag, hS.conj_ofBase]
  · have h1 : off + k ≤ off + i ∧ off + i < off + n ∧ off + k = off + k := by omega
    have h2 : ¬ off + i = off + k := by omega
    have h3 : off + i - off = i := by omega
    rw [eA, if_pos h1, if_neg h2, hdelta, h3]
  · rw [eA, if_neg hIJ]

/-- C13: panel storage in `LPanelPivoted`.  Iteration `k` stores column `k` of
the matrix below the diagonal in column `k` of `X`, and its conjugate in column
`k` of `Y`.  On return from `LPanelPivoted( AFull, p, X, Y, bsize, off )` (with
`bsize` at most the order `n` of the trailing block), `X` and `Y` are
`n × bsize`, `X[i][j] = AFull[off+i][off+j]` and `Y[i][j] = Conj(AFull[off+i][off+j])`
for `j < bsize`, `j < i < n`, `X[i][j] = Y[i][j] = 0` for `i ≤ j`, and the
trailing update `Trrk` of `LVar3` subtracts the product of the panel of `L` with
its adjoint from the trailing lower triangle. -/
theorem LPanelPivoted_panel_storage (S : Scalars F R) (debug : Bool) (AFull : Matrix F)
    (p : Matrix Nat) (X Y : Matrix F) (bsize off n : Nat) (hn : off + n = AFull.height)
    (hb : bsize ≤ n) (hp : debug = false ∨ (p.height = n ∧ p.width = 1)) :
    (∀ (st : PanelState F) (k i : Nat), off + n = st.AFull.height → k < i → i < n →
        (LPanelPivoted.step S off n st k).X.entry i k
            = (LPanelPivoted.step S off n st k).AFull.entry (off + i) (off + k)
        ∧ (LPanelPivoted.step S off n st k).Y.entry i k
            = S.Conj ((LPanelPivoted.step S off n st k).AFull.entry (off + i) (off + k)))
    ∧ ∃ r, LPanelPivoted S debug AFull p X Y bsize off = .returned r
      ∧ (r.X.height = n ∧ r.X.width = bsize) ∧ (r.Y.height = n ∧ r.Y.width = bsize)
      ∧ (∀ i j, j < bsize → j < i → i < n →
          r.X.entry i j = r.AFull.entry (off + i) (off + j)
          ∧ r.Y.entry i j = S.Conj (r.AFull.entry (off + i) (off + j)))
      ∧ (∀ i j, i ≤ j → r.X.entry i j = 0 ∧ r.Y.entry i j = 0)
      ∧ ∀ I J, off + bsize ≤ J → J ≤ I → I < off + n →
          (r.AFull.Store ⟨off + bsize, off + n⟩ ⟨off + bsize, off + n⟩
            (Trrk (-1) (LockedView r.X ⟨bsize, n⟩ ⟨0, bsize⟩) (LockedView r.Y ⟨bsize, n⟩ ⟨0, bsize⟩)
              1 (View r.AFull ⟨off + bsize, off + n⟩ ⟨off + bsize, off + n⟩))).entry I J
            = r.AFull.entry I J
              - ∑ c in Finset.range bsize,
                  r.AFull.entry I (off + c) * S.Conj (r.AFull.entry J (off + c)) := by
  refine ⟨fun st k i hst hki hi => store_step S off n k st hst (by omega) i hki hi, ?_⟩
  obtain ⟨r, h1, _, h3, h4, h5, h6⟩ := panel_link S debug AFull p X Y bsize off n hn hb hp
  exact ⟨r, h1, h3, h4, fun i j hj hji hi => h5 i j hj hji (by omega), h6,
    fun I J hJ hJI hI => trrk_entry S n off bsize r.AFull r.X r.Y h5 I J hJ hJI hI⟩

theorem unblocked_p_dims (S : Scalars F R) (n m : Nat) (s0 : FactorState F)
    (h : s0.p.height = n ∧ s0.p.width = 1) :
    ((List.range m).foldl (LUnblockedPivoted.step S n) s0).p.height = n
    ∧ ((List.range m).foldl (LUnblockedPivoted.step S n) s0).p.width = 1 :=
  foldl_range_inv (LUnblockedPivoted.step S n)
    (fun _ (st : FactorState F) => st.p.height = n ∧ st.p.width = 1) m s0 h
    (fun _ _ _ hs => hs)

/-- C14: the blocked lazy algorithm against the unblocked eager one.  For every
`n`, every `n × n` Hermitian `A0` (positive definite or not) and exact
arithmetic, `LUnblockedPivoted` started from `A0` returns, and for every block
size `b ≥ 1` the sequential `LVar3` started from `A0` returns the same
permutation vector `p` and the same lower triangle of `A`; so the result of
`LVar3` does not depend on the block size. -/
theorem LVar3_refines_LUnblockedPivoted (S : Scalars F R) (hS : S.Lawful) (debug : Bool)
    (n : Nat) (A0 : Matrix F) (p0 q0 : Matrix Nat) (hA : A0.height = n ∧ A0.width = n)
    (hH : IsHermitian S n A0) :
    ∃ su, LUnblockedPivoted S debug A0 q0 = .returned su
      ∧ ∀ bsize, 1 ≤ bsize →
          ∃ sb, LVar3 S debug bsize A0 p0 = .returned sb
            ∧ (sb.p.height = n ∧ sb.p.width = 1) ∧ (su.p.height = n ∧ su.p.width = 1)
            ∧ (∀ i, i < n → sb.p.entry i 0 = su.p.entry i 0)
            ∧ ∀ i j, j ≤ i → i < n → sb.A.entry i j = su.A.entry i j := by
  obtain ⟨hh, hw⟩ := hA
  subst hh
  have hsq : A0.height = A0.width := by rw [hw]
  refine ⟨_, LUnblockedPivoted_returned S debug A0 q0 (Or.inr hsq), fun bsize hb => ?_⟩
  obtain ⟨st, h1, h2, h3, h4, h5⟩ := LVar3_unblocked_aux S hS debug bsize hb A0 p0
    { A := A0, p := initPerm q0 A0.height } hsq rfl (initPerm_spec q0 A0.height).2.2
    (fun i hi => (hH i i hi hi).symm)
  exact ⟨_, h1, ⟨h2, h3⟩,
    unblocked_p_dims S A0.height A0.height _
      ⟨(initPerm_spec q0 A0.height).1, (initPerm_spec q0 A0.height).2.1⟩, h4, h5⟩

end PanelLemmas

/-! ## Scenario S1: the panel -/

/-- The theorem `LPanelPivoted_pivot_applied` at the second iteration of the first
panel of scenario S1 (block size 2): the permutation vector has its rows `1`
and `from` exchanged, and the panels stay in step with the matrix. -/
theorem LPanelPivoted_pivot_applied_witness :
    (LPanelPivoted.step ratScalars 0 3 s1PanelNext 1).p
        = RowSwap s1PanelNext.p 1 (1 + LPanelPivoted.pivotOf ratScalars 0 3 s1PanelNext 1)
    ∧ PanelLink ratScalars (0 + 3) 0 (1 + 1) (LPanelPivoted.step ratScalars 0 3 s1PanelNext 1).AFull
        (LPanelPivoted.step ratScalars 0 3 s1PanelNext 1).X
        (LPanelPivoted.step ratScalars 0 3 s1PanelNext 1).Y :=
  have h := LPanelPivoted_pivot_applied ratScalars 0 3 s1PanelNext 1 rfl (by decide)
    (link_step ratScalars 3 0 0 s1Panel rfl (by decide)
      (fun _ c hc => absurd hc (Nat.not_lt_zero c)))
  ⟨h.2.2.2.1, h.2.2.2.2.2.2.1⟩

/-- The theorem `LPanelPivoted_column_finish` at the first iteration of the first
panel of scenario S1 over the reals (block size 2): the diagonal entry is the
square root of the updated pivot, and it is real. -/
theorem LPanelPivoted_column_finish_witness :
    (LPanelPivoted.step (realScalars ℝ Real.sqrt) 0 3
        { AFull := s1Matrix, p := initPerm emptyPerm 3, X := Zeros 3 2, Y := Zeros 3 2 }
        0).AFull.entry (0 + 0) (0 + 0)
      = (realScalars ℝ Real.sqrt).ofBase ((realScalars ℝ Real.sqrt).Sqrt
          ((realScalars ℝ Real.sqrt).RealPart
            (LPanelPivoted.column (realScalars ℝ Real.sqrt) 0 3
              { AFull := s1Matrix, p := initPerm emptyPerm 3, X := Zeros 3 2, Y := Zeros 3 2 }
              0 0)))
    ∧ (realScalars ℝ Real.sqrt).Conj
        ((LPanelPivoted.step (realScalars ℝ Real.sqrt) 0 3
          { AFull := s1Matrix, p := initPerm emptyPerm 3, X := Zeros 3 2, Y := Zeros 3 2 }
          0).AFull.entry (0 + 0) (0 + 0))
      = (LPanelPivoted.step (realScalars ℝ Real.sqrt) 0 3
          { AFull := s1Matrix, p := initPerm emptyPerm 3, X := Zeros 3 2, Y := Zeros 3 2 }
          0).AFull.entry (0 + 0) (0 + 0) :=
  have h := LPanelPivoted_column_finish (realScalars ℝ Real.sqrt) realScalars_lawful 0 3
    { AFull := s1Matrix, p := initPerm emptyPerm 3, X := Zeros 3 2, Y := Zeros 3 2 } 0 rfl
    (by decide)
  ⟨h.2.1, h.2.2.1⟩

/-- The theorem `LPanelPivoted_panel_storage` at the first panel of scenario S1
(block size 2): what `LPanelPivoted` returns. -/
theorem LPanelPivoted_panel_storage_witness :
    ∃ r, LPanelPivoted ratScalars true s1Matrix (initPerm emptyPerm 3) (Zeros 0 0) (Zeros 0 0) 2 0
        = .returned r
      ∧ (r.X.height = 3 ∧ r.X.width = 2) ∧ (r.Y.height = 3 ∧ r.Y.width = 2)
      ∧ (∀ i j, j < 2 → j < i → i < 3 →
          r.X.entry i j = r.AFull.entry (0 + i) (0 + j)
          ∧ r.Y.entry i j = ratScalars.Conj (r.AFull.entry (0 + i) (0 + j)))
      ∧ (∀ i j, i ≤ j → r.X.entry i j = 0 ∧ r.Y.entry i j = 0)
      ∧ ∀ I J, 0 + 2 ≤ J → J ≤ I → I < 0 + 3 →
          (r.AFull.Store ⟨0 + 2, 0 + 3⟩ ⟨0 + 2, 0 + 3⟩
            (Trrk (-1) (LockedView r.X ⟨2, 3⟩ ⟨0, 2⟩) (LockedView r.Y ⟨2, 3⟩ ⟨0, 2⟩)
              1 (View r.AFull ⟨0 + 2, 0 + 3⟩ ⟨0 + 2, 0 + 3⟩))).entry I J
            = r.AFull.entry I J
              - ∑ c in Finset.range 2,
                  r.AFull.entry I (0 + c) * ratScalars.Conj (r.AFull.entry J (0 + c)) :=
  (LPanelPivoted_panel_storage ratScalars true s1Matrix (initPerm emptyPerm 3) (Zeros 0 0)
    (Zeros 0 0) 2 0 3 rfl (by decide) (Or.inr ⟨rfl, rfl⟩)).2

/-- The statement of `LVar3_refines_LUnblockedPivoted` for the matrix of scenario
S1 over the reals. -/
theorem LVar3_refines_LUnblockedPivoted_witness :
    ∃ su, LUnblockedPivoted (realScalars ℝ Real.sqrt) true s1Matrix emptyPerm = .returned su
      ∧ ∀ bsize, 1 ≤ bsize →
          ∃ sb, LVar3 (realScalars ℝ Real.sqrt) true bsize s1Matrix emptyPerm = .returned sb
            ∧ (sb.p.height = 3 ∧ sb.p.width = 1) ∧ (su.p.height = 3 ∧ su.p.width = 1)
            ∧ (∀ i, i < 3 → sb.p.entry i 0 = su.p.entry i 0)
            ∧ ∀ i j, j ≤ i → i < 3 → sb.A.entry i j = su.A.entry i j :=
  LVar3_refines_LUnblockedPivoted (realScalars ℝ Real.sqrt) realScalars_lawful true 3 s1Matrix
    emptyPerm emptyPerm ⟨rfl, rfl⟩ s1Matrix_hermitian

/-! ## `Grcar` -/

/-- C16: `Grcar(A, n, k)` raises the logic error "Number of superdiagonals of
ones must be non-negative" exactly when `k < 0`, for every `n`, and then with
`A` as it was passed (the test comes before `Zeros`); it returns exactly when
`0 ≤ k`, so with the default `k = 3` it never raises, nor does the overload
that returns a new matrix. -/
theorem Grcar_logic_error_iff {T : Type} [Field T] (A : Matrix T) (n k : Int) :
    ((∃ s, Grcar A n k = .logicError "Number of superdiagonals of ones must be non-negative" s)
        ↔ k < 0)
    ∧ (Grcar A n k = .logicError "Number of superdiagonals of ones must be non-negative" A
        ↔ k < 0)
    ∧ ((Grcar A n k).isReturned = true ↔ 0 ≤ k)
    ∧ (Grcar A n Grcar.defaultK).isReturned = true
    ∧ (Grcar.ofSize n Grcar.defaultK : Outcome (Matrix T)).isReturned = true := by
  unfold Grcar.ofSize Grcar.defaultK Grcar
  refine ⟨?_, ?_, ?_, ?_, ?_⟩
  · by_cases h : k < 0
    · simp [h]
    · simp [h]
  · by_cases h : k < 0
    · simp [h]
    · simp [h]
  · by_cases h : k < 0
    · simp [h, Outcome.isReturned]
    · simp [h, Outcome.isReturned]; omega
  · simp [Outcome.isReturned]
  · simp [Outcome.isReturned]

/-- The value of `Grcar(A, 2, 0)`. -/
theorem Grcar_two_zero_eq {T : Type} [Field T] (A : Matrix T) :
    Grcar A 2 0 = .returned (SetDiagonal (SetDiagonal (Zeros 2 2) (-1) (-1)) 1 1) := by
  unfold Grcar
  have h1 : ¬ ((0 : Int) < 0) := by decide
  have h2 : (2 : Int) > 1 := by decide
  have h3 : (min (2 : Int) (0 + 1)).toNat = 1 := by decide
  have h4 : (2 : Int).toNat = 2 := rfl
  simp only [h1, h2, h3, h4, if_true, if_false, List.range_succ, List.range_zero, List.nil_append,
    List.foldl_cons, List.foldl_nil]
  norm_num

/-- A diagonal with a nonzero offset does not meet the main diagonal. -/
theorem SetDiagonal_diag {T : Type} [Field T] (A : Matrix T) (alpha : T) (offset : Int)
    (ho : offset ≠ 0) (i : Nat) : (SetDiagonal A alpha offset).entry i i = A.entry i i := by
  unfold SetDiagonal
  have : ¬ (i < A.height ∧ i < A.width ∧ (i : Int) - (i : Int) = offset) := by
    intro h
    apply ho
    rw [← h.2.2]
    omega
  simp only [this, if_false]

/-- With the value before the offset in `SetDiagonal`, no call made by `Grcar`
writes to the main diagonal: it is zero in the matrix returned, for every `n`
and every `k ≥ 0`. -/
theorem Grcar_diagonal {T : Type} [Field T] (A : Matrix T) (n k : Int) (hk : 0 ≤ k) :
    ∃ B, Grcar A n k = .returned B ∧ ∀ i, B.entry i i = 0 := by
  have hk' : ¬ k < 0 := by omega
  refine ⟨_, by unfold Grcar; rw [if_neg hk'], ?_⟩
  have hfold : ∀ (l : List Nat) (B : Matrix T), (∀ i, B.entry i i = 0) →
      ∀ i, (l.foldl (fun A (j : Nat) => SetDiagonal A ((n - 1 - (j : Int) : Int) : T) 1) B).entry i i
        = 0 := by
    intro l
    induction l with
    | nil => intro B hB i; exact hB i
    | cons a l ih =>
      intro B hB i
      rw [List.foldl_cons]
      apply ih
      intro i'
      rw [SetDiagonal_diag _ _ _ (by decide)]
      exact hB i'
  apply hfold
  intro i
  by_cases hn : n > 1
  · simp only [hn, if_true]
    rw [SetDiagonal_diag _ _ _ (by decide)]
    rfl
  · simp only [hn, if_false]
    rfl

/-- C15, evaluated on the code: `Grcar(A, 2, 0)` returns `[[0, 1], [-1, 0]]`.  The
2 × 2 Grcar matrix with no superdiagonal of ones is `[[1, 0], [-1, 1]]`: the
loop calls `SetDiagonal( A, n-1-j, 1 )`, here `SetDiagonal( A, 1, 1 )`, which
fills the first superdiagonal and leaves the main diagonal zero. -/
theorem Grcar_two_zero {T : Type} [Field T] (A : Matrix T) :
    ∃ B, Grcar A 2 0 = .returned B ∧ B.height = 2 ∧ B.width = 2
      ∧ B.entry 0 0 = 0 ∧ B.entry 0 1 = 1 ∧ B.entry 1 0 = -1 ∧ B.entry 1 1 = 0
      ∧ B.entry 0 0 ≠ 1 ∧ B.entry 0 1 ≠ 0 ∧ B.entry 1 1 ≠ 1 := by
  refine ⟨_, Grcar_two_zero_eq A, ?_⟩
  simp [SetDiagonal, Zeros]

end El
